import Mathlib

/-!
Verification of the crust build orchestrator's core against its source.

The development shallowly embeds the three core subsystems of the repository:

* the staleness oracle (`src/backend/native.rs`: `needs_rebuild`,
  `latest_mod_time`, `oldest_mod_time`; `src/graph/mod.rs`: `is_outdated`,
  `latest_input_time`, `oldest_output_time`),
* graph construction and validation (`src/graph/mod.rs`: `from_manifest`,
  `validate_dependencies`, `check_cycles`, `topo_order`),
* the parallel executor (`src/executor/mod.rs`: `BuildExecutor::execute`),
  embedded as a small-step transition system over coordinator, workers and
  the two channels.

Modelling conventions:

* Paths and target names are `String`s.  A filesystem snapshot is a map
  `Path → Option Int`: `none` means the path does not exist (so both
  `Path::exists` returns false and `fs::metadata` fails), `some t` means the
  path exists with modification time `t`.  `SystemTime` is modelled as `Int`
  with the Unix epoch at `0` (`SystemTime` values before the epoch exist and
  compare below it).
* Rust `HashMap`s are modelled as association lists; operations whose
  behaviour depends on the map's unspecified iteration order are
  parameterised by that order, and theorems quantify over all permutations.
* `Vec::push`/`Vec::pop` work at the vector's end; such vectors are
  modelled as lists written in reverse (push = cons, pop = head).
* The recursive DFS of `check_cycles` is embedded with explicit fuel; the
  fuel chosen by `check_cycles` is proven sufficient
  (`visit_fuel_sufficient`), so the out-of-fuel outcome is unreachable.
-/

namespace Crust

abbrev Path := String

/-- A filesystem snapshot: modification time of each existing path. -/
abbrev FS := Path → Option Int

/-! ## Staleness oracle: `CrustBackend::needs_rebuild` (src/backend/native.rs) -/

/-- `CrustBackend::latest_mod_time`: latest modification time among the
existing paths, starting from `SystemTime::UNIX_EPOCH` (0).  Missing paths
are skipped (`if path.exists()`). -/
def latest_mod_time (fs : FS) (paths : List Path) : Int :=
  paths.foldl
    (fun latest p =>
      match fs p with
      | some t => max latest t
      | none => latest)
    0

/-- The `for path in paths { … }` fold of `oldest_mod_time`: thread the
running minimum, failing when `fs::metadata` fails (missing path). -/
def oldest_fold (fs : FS) : List Path → Option Int → Except String (Option Int)
  | [], oldest => .ok oldest
  | p :: rest, oldest =>
      match fs p with
      | some t =>
          oldest_fold fs rest (some (match oldest with
            | some current => min current t
            | none => t))
      | none => .error "metadata"

/-- `CrustBackend::oldest_mod_time`: earliest modification time among the
paths; `fs::metadata` on a missing path is an error, and an empty list yields
the "No paths provided" error. -/
def oldest_mod_time (fs : FS) (paths : List Path) : Except String Int :=
  match oldest_fold fs paths none with
  | .error e => .error e
  | .ok none => .error "No paths provided for modification time check"
  | .ok (some t) => .ok t

/-- `CrustBackend::needs_rebuild`: true if `outputs` is empty, if any output
is missing, or if the latest modification time among existing inputs is
strictly greater than the earliest among the outputs. -/
def needs_rebuild (fs : FS) (inputs outputs : List Path) : Except String Bool :=
  if outputs.isEmpty then .ok true
  else if outputs.any (fun o => (fs o).isNone) then .ok true
  else
    match oldest_mod_time fs outputs with
    | .error e => .error e
    | .ok oldest => .ok (decide (latest_mod_time fs inputs > oldest))

/-! ## Manifest model (src/config/mod.rs) -/

inductive Target where
  | executable (name : String) (sources : List String) (deps : List String)
  | static_library (name : String) (sources : List String) (deps : List String)
  | shared_library (name : String) (sources : List String) (deps : List String)
  | custom_command (name : String) (command : String) (outputs : List String)
      (deps : List String) (inputs : List String)
deriving DecidableEq, Repr

def Target.name : Target → String
  | .executable n _ _ => n
  | .static_library n _ _ => n
  | .shared_library n _ _ => n
  | .custom_command n _ _ _ _ => n

def Target.dependencies : Target → List String
  | .executable _ _ d => d
  | .static_library _ _ d => d
  | .shared_library _ _ d => d
  | .custom_command _ _ _ d _ => d

structure ProjectManifest where
  project_name : String
  version : Option String
  targets : List Target
deriving DecidableEq, Repr

/-! ## Dependency graph (src/graph/mod.rs) -/

inductive TargetKind where
  | Executable
  | StaticLibrary
  | SharedLibrary
  | CustomCommand
deriving DecidableEq, Repr

structure TargetNode where
  name : String
  kind : TargetKind
  sources : List String
  dependencies : List String
  outputs : List String
  command : Option String
deriving DecidableEq, Repr

/-- The graph's node map `HashMap<String, TargetNode>`, modelled as the list
of nodes in insertion order; keys are the node names (unique once
constructed). -/
abbrev Graph := List TargetNode

/-- `self.nodes.get(name)` on the name-keyed map. -/
def lookup_node (g : Graph) (name : String) : Option TargetNode :=
  g.find? (fun n => n.name = name)

/-- The dependency list the `check_cycles` DFS follows from `node`: the
node's declared dependencies when the name is a key, nothing otherwise
(`if let Some(target) = graph.nodes.get(node)`). -/
def dep_list (g : Graph) (name : String) : List String :=
  ((lookup_node g name).map (fun n => n.dependencies)).getD []

inductive BuildError where
  | duplicateName (name : String)
  | unknownDependency (dep src : String)
  | cycle (name : String)
  | topoMissingNode (name : String)
  | topoCycle
  | outOfFuel
deriving DecidableEq, Repr

/-- The per-target match in `DependencyGraph::from_manifest` deriving kind,
sources, outputs and command. -/
def node_of_target : Target → TargetNode
  | .executable name sources deps =>
      ⟨name, .Executable, sources, deps, [name], none⟩
  | .static_library name sources deps =>
      ⟨name, .StaticLibrary, sources, deps, ["lib" ++ name ++ ".a"], none⟩
  | .shared_library name sources deps =>
      ⟨name, .SharedLibrary, sources, deps, ["lib" ++ name ++ ".so"], none⟩
  | .custom_command name command outputs deps inputs =>
      ⟨name, .CustomCommand, inputs, deps, outputs, some command⟩

/-- The insertion loop of `from_manifest`: reject a second target with a name
already inserted, otherwise insert the derived node. -/
def build_nodes : List Target → Graph → Except BuildError Graph
  | [], acc => .ok acc
  | t :: rest, acc =>
      if (lookup_node acc t.name).isSome then
        .error (.duplicateName t.name)
      else
        build_nodes rest (acc ++ [node_of_target t])

/-- `DependencyGraph::validate_dependencies`: every declared dependency must
be a key of the node map. -/
def validate_deps_from (g : Graph) : List TargetNode → Except BuildError Unit
  | [] => .ok ()
  | node :: rest =>
      match node.dependencies.find? (fun d => (lookup_node g d).isNone) with
      | some d => .error (.unknownDependency d node.name)
      | none => validate_deps_from g rest

def validate_dependencies (g : Graph) : Except BuildError Unit :=
  validate_deps_from g g

/-! The DFS of `check_cycles`.  `temp` and `perm` are the two `HashSet`s of
the source; they are modelled as lists used for membership only (`perm` in
completion order, newest first, which the proofs exploit).  The recursion is
embedded with fuel; `check_cycles` passes fuel proven sufficient below. -/

/-- Thread a fallible step through a list, propagating the first error — the
shape of the `for dep in … { visit(dep, …)? }` loop. -/
def thread {α : Type} (f : α → String → Except BuildError α) :
    List String → α → Except BuildError α
  | [], st => .ok st
  | d :: rest, st =>
      match f st d with
      | .error e => .error e
      | .ok st' => thread f rest st'

/-- One `visit(node, …)` call of `check_cycles`, including its loop over the
node's dependencies (fuel decreases on each nested `visit`). -/
def visit (g : Graph) : Nat → String → List String → List String →
    Except BuildError (List String × List String)
  | 0, _, _, _ => .error .outOfFuel
  | fuel + 1, node, temp, perm =>
      if node ∈ perm then .ok (temp, perm)
      else if node ∈ temp then .error (.cycle node)
      else
        match thread (fun st d => visit g fuel d st.1 st.2)
            (dep_list g node) (node :: temp, perm) with
        | .error e => .error e
        | .ok (temp', perm') => .ok (temp'.erase node, node :: perm')

/-- The dependency loop of `visit` as a standalone function. -/
def visit_deps (g : Graph) (fuel : Nat) (ds : List String)
    (temp perm : List String) : Except BuildError (List String × List String) :=
  thread (fun st d => visit g fuel d st.1 st.2) ds (temp, perm)

/-- Every name the DFS can ever visit: the graph's keys and every declared
dependency. -/
def all_names (g : Graph) : List String :=
  g.map (fun n => n.name) ++ g.flatMap (fun n => n.dependencies)

/-- The `for node in self.nodes.keys() { visit(node, …)? }` seed loop of
`check_cycles`, threading the two sets. -/
def check_cycles_from (g : Graph) : List String → List String → List String →
    Except BuildError Unit
  | [], _, _ => .ok ()
  | s :: rest, temp, perm =>
      match visit g ((all_names g).dedup.length + 1) s temp perm with
      | .error e => .error e
      | .ok (temp', perm') => check_cycles_from g rest temp' perm'

/-- `DependencyGraph::check_cycles`, parameterised by the seed iteration
order (`self.nodes.keys()` iterates in an unspecified order). -/
def check_cycles (g : Graph) (seeds : List String) : Except BuildError Unit :=
  check_cycles_from g seeds [] []

/-- `DependencyGraph::from_manifest`, parameterised by the seed order used
by `check_cycles`. -/
def from_manifest (m : ProjectManifest) (seeds : List String) :
    Except BuildError Graph :=
  match build_nodes m.targets [] with
  | .error e => .error e
  | .ok g =>
      match validate_dependencies g with
      | .error e => .error e
      | .ok () =>
          match check_cycles g seeds with
          | .error e => .error e
          | .ok () => .ok g

/-! ## Whole-project staleness: `DependencyGraph::is_outdated` -/

/-- `manifest_dir.join(src)`. -/
def path_join (dir p : String) : Path := dir ++ "/" ++ p

/-- `DependencyGraph::latest_input_time`: fold the modification times of the
existing declared sources (joined against the manifest directory) on top of
the initial (manifest) time. -/
def latest_input_time (g : Graph) (fs : FS) (manifest_dir : String)
    (initial : Int) : Int :=
  g.foldl
    (fun latest node =>
      node.sources.foldl
        (fun latest src =>
          match fs (path_join manifest_dir src) with
          | some t => max latest t
          | none => latest)
        latest)
    initial

/-- `DependencyGraph::is_outdated`.  The source derives the manifest
directory from `manifest_path.parent()`; the directory is passed here as a
separate argument. -/
def is_outdated (g : Graph) (fs : FS) (manifest_path : Path)
    (manifest_dir : String) (backend_outputs : List Path) :
    Except String Bool :=
  if backend_outputs.isEmpty then .ok true
  else if backend_outputs.any (fun o => (fs o).isNone) then .ok true
  else
    match fs manifest_path with
    | none => .error "metadata"
    | some manifest_mtime =>
        match oldest_mod_time fs backend_outputs with
        | .error e => .error e
        | .ok oldest =>
            .ok (decide (latest_input_time g fs manifest_dir manifest_mtime > oldest))

/-! ## Staleness oracle lemmas -/

/-- The maximum-fold step used by `latest_mod_time` and
`latest_input_time`. -/
def max_step (f : Path → Option Int) (latest : Int) (p : Path) : Int :=
  match f p with
  | some t => max latest t
  | none => latest

theorem latest_mod_time_eq_foldl (fs : FS) (paths : List Path) :
    latest_mod_time fs paths = paths.foldl (max_step fs) 0 := rfl

theorem foldl_max_step_gt (f : Path → Option Int) :
    ∀ (l : List Path) (init x : Int),
      (l.foldl (max_step f) init > x ↔
        init > x ∨ ∃ p ∈ l, ∃ t, f p = some t ∧ t > x) := by
  intro l
  induction l with
  | nil => simp
  | cons p rest ih =>
      intro init x
      rw [List.foldl_cons, ih]
      cases hf : f p with
      | none =>
          simp only [max_step, hf, List.mem_cons]
          constructor
          · rintro (h | ⟨q, hq, t, ht, hx⟩)
            · exact Or.inl h
            · exact Or.inr ⟨q, Or.inr hq, t, ht, hx⟩
          · rintro (h | ⟨q, hq | hq, t, ht, hx⟩)
            · exact Or.inl h
            · subst hq; rw [hf] at ht; cases ht
            · exact Or.inr ⟨q, hq, t, ht, hx⟩
      | some t =>
          simp only [max_step, hf, List.mem_cons, lt_max_iff]
          constructor
          · rintro ((h | h) | ⟨q, hq, t', ht', hx⟩)
            · exact Or.inl h
            · exact Or.inr ⟨p, Or.inl rfl, t, hf, h⟩
            · exact Or.inr ⟨q, Or.inr hq, t', ht', hx⟩
          · rintro (h | ⟨q, hq | hq, t', ht', hx⟩)
            · exact Or.inl (Or.inl h)
            · subst hq; rw [hf] at ht'; cases ht'; exact Or.inl (Or.inr hx)
            · exact Or.inr ⟨q, hq, t', ht', hx⟩

theorem foldl_max_step_skip (f : Path → Option Int) :
    ∀ (l : List Path) (init : Int), (∀ p ∈ l, f p = none) →
      l.foldl (max_step f) init = init := by
  intro l
  induction l with
  | nil => simp
  | cons p rest ih =>
      intro init h
      rw [List.foldl_cons]
      have hp : f p = none := h p (List.mem_cons_self _ _)
      have : max_step f init p = init := by simp [max_step, hp]
      rw [this]
      exact ih init (fun q hq => h q (List.mem_cons_of_mem _ hq))

/-- `oldest_mod_time` succeeds on a non-empty list of existing paths and
returns the attained minimum of their times. -/
theorem oldest_mod_time_ok (fs : FS) :
    ∀ (paths : List Path), paths ≠ [] → (∀ p ∈ paths, (fs p).isSome) →
      ∃ t, oldest_mod_time fs paths = .ok t ∧
        (∃ p ∈ paths, fs p = some t) ∧
        (∀ p ∈ paths, ∀ tp, fs p = some tp → t ≤ tp) := by
  have go : ∀ (paths : List Path) (a : Int), (∀ p ∈ paths, (fs p).isSome) →
      ∃ t, oldest_fold fs paths (some a) = .ok (some t) ∧
        (t = a ∨ ∃ p ∈ paths, fs p = some t) ∧ t ≤ a ∧
        (∀ p ∈ paths, ∀ tp, fs p = some tp → t ≤ tp) := by
    intro paths
    induction paths with
    | nil => intro a _; exact ⟨a, rfl, Or.inl rfl, le_refl a, by simp⟩
    | cons p rest ih =>
        intro a h
        have hp := h p (List.mem_cons_self _ _)
        cases hfp : fs p with
        | none => rw [hfp] at hp; cases hp
        | some u =>
            obtain ⟨t, hfold, hmem, hle, hbound⟩ :=
              ih (min a u) (fun q hq => h q (List.mem_cons_of_mem _ hq))
            refine ⟨t, ?_, ?_, ?_, ?_⟩
            · rw [oldest_fold, hfp]
              exact hfold
            · rcases hmem with h1 | ⟨q, hq, hfq⟩
              · rcases le_total a u with hau | hua
                · exact Or.inl (by rw [h1, min_eq_left hau])
                · exact Or.inr ⟨p, List.mem_cons_self _ _, by
                    rw [hfp, h1, min_eq_right hua]⟩
              · exact Or.inr ⟨q, List.mem_cons_of_mem _ hq, hfq⟩
            · exact le_trans hle (min_le_left _ _)
            · intro q hq tq hfq
              rcases List.mem_cons.mp hq with rfl | hq'
              · rw [hfp] at hfq
                cases hfq
                exact le_trans hle (min_le_right _ _)
              · exact hbound q hq' tq hfq
  intro paths hne h
  cases paths with
  | nil => cases hne rfl
  | cons p rest =>
      have hp := h p (List.mem_cons_self _ _)
      cases hfp : fs p with
      | none => rw [hfp] at hp; cases hp
      | some u =>
          obtain ⟨t, hfold, hmem, hle, hbound⟩ :=
            go rest u (fun q hq => h q (List.mem_cons_of_mem _ hq))
          refine ⟨t, ?_, ?_, ?_⟩
          · unfold oldest_mod_time
            rw [oldest_fold, hfp]
            simp [hfold]
          · rcases hmem with rfl | ⟨q, hq, hfq⟩
            · exact ⟨p, List.mem_cons_self _ _, hfp⟩
            · exact ⟨q, List.mem_cons_of_mem _ hq, hfq⟩
          · intro q hq tq hfq
            rcases List.mem_cons.mp hq with rfl | hq'
            · rw [hfp] at hfq; cases hfq; exact hle
            · exact hbound q hq' tq hfq

/-- `latest_input_time` is the maximum-fold over the flattened, joined source
paths of all nodes. -/
theorem latest_input_time_eq (fs : FS) (dir : String) :
    ∀ (g : Graph) (init : Int),
      latest_input_time g fs dir init =
        (g.flatMap (fun n => n.sources.map (path_join dir))).foldl
          (max_step fs) init := by
  intro g
  induction g with
  | nil => intro init; rfl
  | cons n rest ih =>
      intro init
      have h1 : latest_input_time (n :: rest) fs dir init =
          latest_input_time rest fs dir
            (n.sources.foldl
              (fun latest src => max_step fs latest (path_join dir src)) init) := rfl
      rw [h1, ih, List.flatMap_cons, List.foldl_append, List.foldl_map]

theorem latest_input_time_gt (g : Graph) (fs : FS) (dir : String)
    (init x : Int) :
    latest_input_time g fs dir init > x ↔
      init > x ∨ ∃ node ∈ g, ∃ src ∈ node.sources, ∃ ts,
        fs (path_join dir src) = some ts ∧ ts > x := by
  rw [latest_input_time_eq, foldl_max_step_gt]
  constructor
  · rintro (h | ⟨p, hp, t, ht, hx⟩)
    · exact Or.inl h
    · rw [List.mem_flatMap] at hp
      obtain ⟨node, hnode, hp⟩ := hp
      rw [List.mem_map] at hp
      obtain ⟨src, hsrc, rfl⟩ := hp
      exact Or.inr ⟨node, hnode, src, hsrc, t, ht, hx⟩
  · rintro (h | ⟨node, hnode, src, hsrc, ts, hts, hx⟩)
    · exact Or.inl h
    · refine Or.inr ⟨path_join dir src, ?_, ts, hts, hx⟩
      rw [List.mem_flatMap]
      exact ⟨node, hnode, List.mem_map.mpr ⟨src, hsrc, rfl⟩⟩

/-! ## Claims about the staleness oracle -/

/-- Claim C6: `is_outdated` returns true exactly when the backend outputs are
empty, or one of them is missing, or the latest modification time among the
manifest and the (existing) declared sources is strictly newer than the
earliest output time; a tie between the latest input and the earliest output
yields false.  The strict comparison of extremes is phrased as the equivalent
"some available input time is strictly newer than some output time". -/
theorem claim_C6_is_outdated (g : Graph) (fs : FS) (mp : Path) (dir : String)
    (outs : List Path) :
    (is_outdated g fs mp dir outs = .ok true ↔
      outs = [] ∨ (∃ o ∈ outs, fs o = none) ∨
      (∃ tm, fs mp = some tm ∧ ∃ o ∈ outs, ∃ tw, fs o = some tw ∧
        (tm > tw ∨ ∃ node ∈ g, ∃ src ∈ node.sources, ∃ ts,
          fs (path_join dir src) = some ts ∧ ts > tw))) ∧
    (∀ tm t, fs mp = some tm → outs ≠ [] → (∀ o ∈ outs, (fs o).isSome) →
      latest_input_time g fs dir tm = t → oldest_mod_time fs outs = .ok t →
      is_outdated g fs mp dir outs = .ok false) := by
  constructor
  · by_cases hempty : outs = []
    · subst hempty
      simp [is_outdated]
    · by_cases hmiss : ∃ o ∈ outs, fs o = none
      · have hany : outs.any (fun o => (fs o).isNone) = true := by
          obtain ⟨o, ho, hfo⟩ := hmiss
          exact List.any_eq_true.mpr ⟨o, ho, by rw [hfo]; rfl⟩
        unfold is_outdated
        rw [if_neg (by simpa using hempty), if_pos hany]
        simp only [true_iff]
        exact Or.inr (Or.inl hmiss)
      · have hex : ∀ o ∈ outs, (fs o).isSome := by
          intro o ho
          rcases h : fs o with _ | t
          · exact absurd ⟨o, ho, h⟩ hmiss
          · rfl
        have hany : outs.any (fun o => (fs o).isNone) = false := by
          rw [List.any_eq_false]
          intro o ho
          have := hex o ho
          rcases h : fs o with _ | t
          · rw [h] at this; cases this
          · simp
        obtain ⟨t, hok, ⟨omin, homin, hfomin⟩, hbound⟩ :=
          oldest_mod_time_ok fs outs hempty hex
        unfold is_outdated
        rw [if_neg (by simpa using hempty), if_neg (by simp [hany])]
        cases hmp : fs mp with
        | none =>
            constructor
            · intro h; cases h
            · rintro (h | h | ⟨tm, htm, _⟩)
              · exact absurd h hempty
              · exact absurd h hmiss
              · cases htm
        | some tm =>
            rw [hok]
            simp only [Except.ok.injEq, decide_eq_true_eq]
            constructor
            · intro hgt
              rcases (latest_input_time_gt g fs dir tm t).mp hgt with h | h
              · exact Or.inr (Or.inr ⟨tm, rfl, omin, homin, t, hfomin, Or.inl h⟩)
              · exact Or.inr (Or.inr ⟨tm, rfl, omin, homin, t, hfomin, Or.inr h⟩)
            · rintro (h | h | ⟨tm', htm', o, ho, tw, hfo, hcase⟩)
              · exact absurd h hempty
              · exact absurd h hmiss
              · injection htm' with htm'
                subst htm'
                have hto : t ≤ tw := hbound o ho tw hfo
                rcases hcase with h | ⟨node, hnode, src, hsrc, ts, hts, hgt⟩
                · exact (latest_input_time_gt g fs dir tm t).mpr
                    (Or.inl (lt_of_le_of_lt hto h))
                · exact (latest_input_time_gt g fs dir tm t).mpr
                    (Or.inr ⟨node, hnode, src, hsrc, ts, hts,
                      lt_of_le_of_lt hto hgt⟩)
  · intro tm t hmp hne hex hlatest holdest
    have hany : outs.any (fun o => (fs o).isNone) = false := by
      rw [List.any_eq_false]
      intro o ho
      have := hex o ho
      rcases h : fs o with _ | u
      · rw [h] at this; cases this
      · simp
    unfold is_outdated
    rw [if_neg (by simpa using hne), if_neg (by simp [hany]), hmp, holdest]
    show Except.ok (decide (latest_input_time g fs dir tm > t)) = Except.ok false
    rw [hlatest]
    simp

/-- A filesystem snapshot with a single output whose modification time
precedes the Unix epoch, and no other files. -/
def fs_pre_epoch : FS := fun p => if p = "out" then some (-1) else none

/-- Claim C7 counterexample: with no existing input and one output dated
before the Unix epoch, `needs_rebuild` returns true although the claim's
right-hand side (no output missing, no existing input newer than an output)
is false: `latest_mod_time` starts at the epoch, not at the inputs'
maximum. -/
theorem claim_C7_counterexample :
    needs_rebuild fs_pre_epoch [] ["out"] = .ok true ∧
    ¬((["out"] : List Path) = [] ∨
      (∃ o ∈ (["out"] : List Path), fs_pre_epoch o = none) ∨
      (∃ i ∈ ([] : List Path), ∃ ti, fs_pre_epoch i = some ti ∧
        ∃ o ∈ (["out"] : List Path), ∃ tw, fs_pre_epoch o = some tw ∧
          ti > tw)) := by
  constructor
  · rfl
  · rintro (h | ⟨o, ho, hfo⟩ | ⟨i, hi, _⟩)
    · cases h
    · rw [List.mem_singleton] at ho
      subst ho
      simp [fs_pre_epoch] at hfo
    · cases hi

/-- Claim C7, amended: `needs_rebuild` never fails on a snapshot, and returns
true iff outputs are empty, an output is missing, or some output is older
than an existing input **or predates the Unix epoch** (the latest-input time
is floored at the epoch). -/
theorem claim_C7_needs_rebuild (fs : FS) (inputs outputs : List Path) :
    (∃ b, needs_rebuild fs inputs outputs = .ok b) ∧
    (needs_rebuild fs inputs outputs = .ok true ↔
      outputs = [] ∨ (∃ o ∈ outputs, fs o = none) ∨
      (∃ o ∈ outputs, ∃ tw, fs o = some tw ∧
        ((∃ i ∈ inputs, ∃ ti, fs i = some ti ∧ ti > tw) ∨ tw < 0))) := by
  by_cases hempty : outputs = []
  · subst hempty
    exact ⟨⟨true, rfl⟩, by simp [needs_rebuild]⟩
  by_cases hmiss : ∃ o ∈ outputs, fs o = none
  · have hany : outputs.any (fun o => (fs o).isNone) = true := by
      obtain ⟨o, ho, hfo⟩ := hmiss
      exact List.any_eq_true.mpr ⟨o, ho, by rw [hfo]; rfl⟩
    have hres : needs_rebuild fs inputs outputs = .ok true := by
      unfold needs_rebuild
      rw [if_neg (by simpa using hempty), if_pos hany]
    exact ⟨⟨true, hres⟩, by
      rw [hres]
      simp only [true_iff]
      exact Or.inr (Or.inl hmiss)⟩
  have hex : ∀ o ∈ outputs, (fs o).isSome := by
    intro o ho
    rcases h : fs o with _ | t
    · exact absurd ⟨o, ho, h⟩ hmiss
    · rfl
  have hany : outputs.any (fun o => (fs o).isNone) = false := by
    rw [List.any_eq_false]
    intro o ho
    have := hex o ho
    rcases h : fs o with _ | t
    · rw [h] at this; cases this
    · simp
  obtain ⟨t, hok, ⟨omin, homin, hfomin⟩, hbound⟩ :=
    oldest_mod_time_ok fs outputs hempty hex
  have hres : needs_rebuild fs inputs outputs =
      .ok (decide (latest_mod_time fs inputs > t)) := by
    unfold needs_rebuild
    rw [if_neg (by simpa using hempty), if_neg (by simp [hany]), hok]
  refine ⟨⟨_, hres⟩, ?_⟩
  rw [hres]
  simp only [Except.ok.injEq, decide_eq_true_eq]
  rw [latest_mod_time_eq_foldl, foldl_max_step_gt]
  constructor
  · rintro (h | ⟨i, hi, ti, hti, hgt⟩)
    · exact Or.inr (Or.inr ⟨omin, homin, t, hfomin, Or.inr h⟩)
    · exact Or.inr (Or.inr ⟨omin, homin, t, hfomin,
        Or.inl ⟨i, hi, ti, hti, hgt⟩⟩)
  · rintro (h | h | ⟨o, ho, tw, hfo, hcase⟩)
    · exact absurd h hempty
    · exact absurd h hmiss
    · have hto : t ≤ tw := hbound o ho tw hfo
      rcases hcase with ⟨i, hi, ti, hti, hgt⟩ | h
      · exact Or.inr ⟨i, hi, ti, hti, lt_of_le_of_lt hto hgt⟩
      · exact Or.inl (lt_of_le_of_lt hto h)

/-- The empty filesystem snapshot. -/
def fs_empty : FS := fun _ => none

/-- Claim C10 counterexample: with an empty `outputs` list the premise of the
claim holds vacuously (every output exists, no input exists, every output
time is at or after the epoch), yet `needs_rebuild` returns true, not
false — the empty-outputs check precedes the modification-time
comparison. -/
theorem claim_C10_counterexample :
    needs_rebuild fs_empty [] [] = .ok true ∧
    (∀ o ∈ ([] : List Path), ∃ t, fs_empty o = some t ∧ 0 ≤ t) ∧
    (∀ i ∈ ([] : List Path), fs_empty i = none) ∧
    needs_rebuild fs_empty [] [] ≠ .ok false := by
  refine ⟨rfl, ?_, ?_, ?_⟩
  · intro o ho; cases ho
  · intro i hi; cases hi
  · intro h
    rw [show needs_rebuild fs_empty [] [] = .ok true from rfl] at h
    cases h

/-- Claim C10, amended with the non-empty-outputs premise the counterexample
forces: when no input exists, the latest-input time defaults to the Unix
epoch, so on a non-empty list of existing outputs all dated at or after the
epoch, `needs_rebuild` returns false. -/
theorem claim_C10_epoch_default (fs : FS) (inputs outputs : List Path)
    (hne : outputs ≠ []) (hin : ∀ i ∈ inputs, fs i = none) :
    latest_mod_time fs inputs = 0 ∧
    ((∀ o ∈ outputs, ∃ t, fs o = some t ∧ 0 ≤ t) →
      needs_rebuild fs inputs outputs = .ok false) := by
  constructor
  · rw [latest_mod_time_eq_foldl]
    exact foldl_max_step_skip fs inputs 0 hin
  · intro h
    have hex : ∀ o ∈ outputs, (fs o).isSome := by
      intro o ho
      obtain ⟨t, ht, _⟩ := h o ho
      rw [ht]; rfl
    have hany : outputs.any (fun o => (fs o).isNone) = false := by
      rw [List.any_eq_false]
      intro o ho
      have := hex o ho
      rcases hfo : fs o with _ | t
      · rw [hfo] at this; cases this
      · simp
    obtain ⟨t, hok, ⟨omin, homin, hfomin⟩, _⟩ :=
      oldest_mod_time_ok fs outputs hne hex
    have ht0 : 0 ≤ t := by
      obtain ⟨u, hu, hu0⟩ := h omin homin
      rw [hfomin] at hu
      injection hu with hu
      rw [hu]
      exact hu0
    have hlat : latest_mod_time fs inputs = 0 := by
      rw [latest_mod_time_eq_foldl]
      exact foldl_max_step_skip fs inputs 0 hin
    unfold needs_rebuild
    rw [if_neg (by simpa using hne), if_neg (by simp [hany]), hok, hlat]
    simp only [Except.ok.injEq, decide_eq_false_iff_not, not_lt]
    exact ht0

/-- Snapshot for the C10 witness: one output at the epoch, nothing else. -/
def fs_c10w : FS := fun p => if p = "o" then some 0 else none

/-- Witness for `claim_C10_epoch_default` at a concrete snapshot. -/
theorem claim_C10_witness :
    latest_mod_time fs_c10w ["i"] = 0 ∧
    needs_rebuild fs_c10w ["i"] ["o"] = .ok false := by
  have h := claim_C10_epoch_default fs_c10w ["i"] ["o"]
    (by intro h; cases h)
    (by
      intro i hi
      rw [List.mem_singleton] at hi
      subst hi
      rfl)
  refine ⟨h.1, h.2 ?_⟩
  intro o ho
  rw [List.mem_singleton] at ho
  subst ho
  exact ⟨0, rfl, le_refl 0⟩

/-- Snapshot for the C6 witness: manifest at 5, one source at 3, one backend
output at 5 — the latest input ties the earliest output. -/
def fs_c6w : FS := fun p =>
  if p = "m" then some 5
  else if p = "d/a.c" then some 3
  else if p = "out" then some 5
  else none

/-- A one-node graph for the C6 witness. -/
def g_c6w : Graph :=
  [⟨"app", .Executable, ["a.c"], [], ["app"], none⟩]

/-- Witness for `claim_C6_is_outdated`: at a tie the project is reported up
to date. -/
theorem claim_C6_witness :
    is_outdated g_c6w fs_c6w "m" "d" ["out"] = .ok false := by
  exact (claim_C6_is_outdated g_c6w fs_c6w "m" "d" ["out"]).2 5 5
    rfl (by intro h; cases h)
    (by
      intro o ho
      rw [List.mem_singleton] at ho
      subst ho
      rfl)
    (by decide) rfl

/-! ## Claims about graph construction: outputs of constructed nodes -/

/-- A successful `from_manifest` run means all three phases succeeded on the
same node map. -/
theorem from_manifest_ok_parts (m : ProjectManifest) (seeds : List String)
    (g : Graph) (h : from_manifest m seeds = .ok g) :
    build_nodes m.targets [] = .ok g ∧ validate_dependencies g = .ok () ∧
      check_cycles g seeds = .ok () := by
  unfold from_manifest at h
  cases hb : build_nodes m.targets [] with
  | error e => simp [hb] at h
  | ok g0 =>
      simp only [hb] at h
      cases hv : validate_dependencies g0 with
      | error e => simp [hv] at h
      | ok u =>
          cases u
          simp only [hv] at h
          cases hc : check_cycles g0 seeds with
          | error e => simp [hc] at h
          | ok u2 =>
              cases u2
              simp only [hc, Except.ok.injEq] at h
              subst h
              exact ⟨rfl, hv, hc⟩

/-- Every node of a successfully built node map is either pre-existing in the
accumulator or derived from one of the targets. -/
theorem build_nodes_mem :
    ∀ (targets : List Target) (acc g : Graph), build_nodes targets acc = .ok g →
      ∀ node ∈ g, node ∈ acc ∨ ∃ t ∈ targets, node = node_of_target t := by
  intro targets
  induction targets with
  | nil =>
      intro acc g h node hn
      rw [build_nodes] at h
      injection h with h
      subst h
      exact Or.inl hn
  | cons t rest ih =>
      intro acc g h node hn
      rw [build_nodes] at h
      by_cases hdup : (lookup_node acc t.name).isSome
      · rw [if_pos hdup] at h; cases h
      · rw [if_neg hdup] at h
        rcases ih _ _ h node hn with hacc | ⟨u, hu, hnode⟩
        · rcases List.mem_append.mp hacc with h1 | h1
          · exact Or.inl h1
          · rw [List.mem_singleton] at h1
            exact Or.inr ⟨t, List.mem_cons_self _ _, h1⟩
        · exact Or.inr ⟨u, List.mem_cons_of_mem _ hu, hnode⟩

/-- A manifest whose only target is a custom command declaring no outputs. -/
def m_c8 : ProjectManifest :=
  ⟨"demo", none, [.custom_command "x" "touch a" [] [] []]⟩

/-- The node `from_manifest` builds for that target. -/
def node_c8 : TargetNode := ⟨"x", .CustomCommand, [], [], [], some "touch a"⟩

/-- Claim C8 counterexample: `from_manifest` accepts a custom command with an
explicitly empty `outputs` list, so the constructed graph contains a node
whose outputs sequence is empty — construction does not reject it. -/
theorem claim_C8_counterexample :
    from_manifest m_c8 ["x"] = .ok [node_c8] ∧
    node_c8 ∈ [node_c8] ∧ node_c8.outputs = [] :=
  ⟨rfl, List.mem_singleton.mpr rfl, rfl⟩

/-- Claim C8, amended: on a successfully constructed graph, an Executable
node's outputs are the singleton `[name]`, a StaticLibrary's are
`[lib<name>.a]`, a SharedLibrary's are `[lib<name>.so]` (all non-empty), and
a CustomCommand's outputs are exactly the declared list of its manifest
target — which construction accepts even when empty. -/
theorem claim_C8_outputs (m : ProjectManifest) (seeds : List String)
    (g : Graph) (h : from_manifest m seeds = .ok g) :
    ∀ node ∈ g,
      (node.kind = .Executable → node.outputs = [node.name]) ∧
      (node.kind = .StaticLibrary →
        node.outputs = ["lib" ++ node.name ++ ".a"]) ∧
      (node.kind = .SharedLibrary →
        node.outputs = ["lib" ++ node.name ++ ".so"]) ∧
      (node.kind = .CustomCommand → ∃ c d i,
        Target.custom_command node.name c node.outputs d i ∈ m.targets) := by
  intro node hn
  have hb : build_nodes m.targets [] = .ok g :=
    (from_manifest_ok_parts m seeds g h).1
  rcases build_nodes_mem m.targets [] g hb node hn with h1 | ⟨t, ht, rfl⟩
  · cases h1
  · cases t with
    | executable n s d =>
        refine ⟨fun _ => rfl, fun hk => ?_, fun hk => ?_, fun hk => ?_⟩ <;>
          simp [node_of_target] at hk
    | static_library n s d =>
        refine ⟨fun hk => ?_, fun _ => rfl, fun hk => ?_, fun hk => ?_⟩ <;>
          simp [node_of_target] at hk
    | shared_library n s d =>
        refine ⟨fun hk => ?_, fun hk => ?_, fun _ => rfl, fun hk => ?_⟩ <;>
          simp [node_of_target] at hk
    | custom_command n c o d i =>
        refine ⟨fun hk => ?_, fun hk => ?_, fun hk => ?_,
          fun _ => ⟨c, d, i, ht⟩⟩ <;> simp [node_of_target] at hk

/-- A small manifest exercising all four target kinds for the C8 witness. -/
def m_c8w : ProjectManifest :=
  ⟨"demo", none,
    [.executable "app" ["main.c"] ["core"],
     .static_library "core" ["core.c"] [],
     .shared_library "dyn" ["dyn.c"] [],
     .custom_command "gen" "python gen.py" ["generated.h"] [] ["schema.json"]]⟩

/-- The graph `from_manifest` builds for `m_c8w`. -/
def g_c8w : Graph :=
  [⟨"app", .Executable, ["main.c"], ["core"], ["app"], none⟩,
   ⟨"core", .StaticLibrary, ["core.c"], [], ["libcore.a"], none⟩,
   ⟨"dyn", .SharedLibrary, ["dyn.c"], [], ["libdyn.so"], none⟩,
   ⟨"gen", .CustomCommand, ["schema.json"], [], ["generated.h"],
     some "python gen.py"⟩]

/-- The static-library node of `g_c8w`. -/
def node_c8w : TargetNode := ⟨"core", .StaticLibrary, ["core.c"], [], ["libcore.a"], none⟩

/-- Witness for `claim_C8_outputs` on a concrete manifest and node. -/
theorem claim_C8_witness :
    (node_c8w.kind = .Executable → node_c8w.outputs = [node_c8w.name]) ∧
    (node_c8w.kind = .StaticLibrary →
      node_c8w.outputs = ["lib" ++ node_c8w.name ++ ".a"]) ∧
    (node_c8w.kind = .SharedLibrary →
      node_c8w.outputs = ["lib" ++ node_c8w.name ++ ".so"]) ∧
    (node_c8w.kind = .CustomCommand → ∃ c d i,
      Target.custom_command node_c8w.name c node_c8w.outputs d i ∈ m_c8w.targets) :=
  claim_C8_outputs m_c8w ["app", "core", "dyn", "gen"] g_c8w rfl node_c8w
    (by rw [g_c8w]; exact List.mem_cons_of_mem _ (List.mem_cons_self _ _))

/-! ## DFS cycle detection: correctness of `check_cycles` -/

/-- A `perm` list (completion order, newest first) is well-formed when every
entry's dependencies were completed before it (appear later in the list). -/
def perm_ok (g : Graph) : List String → Prop
  | [] => True
  | x :: rest => (∀ d ∈ dep_list g x, d ∈ rest) ∧ perm_ok g rest

theorem visit_deps_nil (g : Graph) (fuel : Nat) (temp perm : List String) :
    visit_deps g fuel [] temp perm = .ok (temp, perm) := rfl

theorem visit_deps_cons (g : Graph) (fuel : Nat) (d : String)
    (rest : List String) (temp perm : List String) :
    visit_deps g fuel (d :: rest) temp perm =
      match visit g fuel d temp perm with
      | .error e => .error e
      | .ok (temp', perm') => visit_deps g fuel rest temp' perm' := by
  show thread _ (d :: rest) (temp, perm) = _
  rw [thread]
  cases visit g fuel d temp perm with
  | error e => rfl
  | ok st => rfl

theorem visit_succ (g : Graph) (fuel : Nat) (node : String)
    (temp perm : List String) :
    visit g (fuel + 1) node temp perm =
      if node ∈ perm then .ok (temp, perm)
      else if node ∈ temp then .error (.cycle node)
      else
        match visit_deps g fuel (dep_list g node) (node :: temp) perm with
        | .error e => .error e
        | .ok (temp', perm') => .ok (temp'.erase node, node :: perm') := rfl

/-- Structural facts about a successful `visit`: `temp` is restored, `perm`
grows by fresh names only, the visited node lands in `perm`, and both
distinctness and well-formedness of `perm` are preserved. -/
theorem visit_props :
    ∀ (fuel : Nat) (g : Graph) (n : String) (temp perm t' p' : List String),
      visit g fuel n temp perm = .ok (t', p') →
      t' = temp ∧ (∃ new, p' = new ++ perm ∧ ∀ x ∈ new, x ∉ temp) ∧ n ∈ p' ∧
      (perm.Nodup → p'.Nodup) ∧ (perm_ok g perm → perm_ok g p') := by
  intro fuel
  induction fuel with
  | zero => intro g n temp perm t' p' h; cases h
  | succ fuel ih =>
      -- first establish the properties of the dependency loop at this fuel
      have deps : ∀ (g : Graph) (ds : List String) (temp perm t' p' : List String),
          visit_deps g fuel ds temp perm = .ok (t', p') →
          t' = temp ∧ (∃ new, p' = new ++ perm ∧ ∀ x ∈ new, x ∉ temp) ∧
          (∀ d ∈ ds, d ∈ p') ∧
          (perm.Nodup → p'.Nodup) ∧ (perm_ok g perm → perm_ok g p') := by
        intro g ds
        induction ds with
        | nil =>
            intro temp perm t' p' h
            rw [visit_deps_nil] at h
            injection h with h
            injection h with h1 h2
            subst h1; subst h2
            exact ⟨rfl, ⟨[], rfl, by simp⟩, by simp, id, id⟩
        | cons d rest ihd =>
            intro temp perm t' p' h
            rw [visit_deps_cons] at h
            cases hd : visit g fuel d temp perm with
            | error e => rw [hd] at h; cases h
            | ok st =>
                obtain ⟨t1, p1⟩ := st
                rw [hd] at h
                obtain ⟨ht1, ⟨new1, hp1, hnew1⟩, hdmem, hnd1, hpo1⟩ :=
                  ih g d temp perm t1 p1 hd
                rw [ht1] at h
                obtain ⟨ht', ⟨new2, hp2, hnew2⟩, hrest, hnd2, hpo2⟩ :=
                  ihd temp p1 t' p' h
                refine ⟨ht', ⟨new2 ++ new1, by rw [hp2, hp1, List.append_assoc],
                  ?_⟩, ?_, fun hnd => hnd2 (hnd1 hnd), fun hpo => hpo2 (hpo1 hpo)⟩
                · intro x hx
                  rcases List.mem_append.mp hx with h1 | h1
                  · exact hnew2 x h1
                  · exact hnew1 x h1
                · intro d' hd'
                  rcases List.mem_cons.mp hd' with rfl | hd'
                  · rw [hp2]; exact List.mem_append_right _ hdmem
                  · exact hrest d' hd'
      intro g n temp perm t' p' h
      rw [visit_succ] at h
      by_cases hperm : n ∈ perm
      · rw [if_pos hperm] at h
        injection h with h
        injection h with h1 h2
        subst h1; subst h2
        exact ⟨rfl, ⟨[], rfl, by simp⟩, hperm, id, id⟩
      · rw [if_neg hperm] at h
        by_cases htemp : n ∈ temp
        · rw [if_pos htemp] at h; cases h
        · rw [if_neg htemp] at h
          cases hd : visit_deps g fuel (dep_list g n) (n :: temp) perm with
          | error e => rw [hd] at h; cases h
          | ok st =>
              obtain ⟨ti, pi⟩ := st
              rw [hd] at h
              injection h with h
              injection h with h1 h2
              obtain ⟨hti, ⟨newi, hpi, hnewi⟩, hdmem, hndi, hpoi⟩ :=
                deps g (dep_list g n) (n :: temp) perm ti pi hd
              subst hti
              have hn_new : n ∉ newi := fun hc =>
                hnewi n hc (List.mem_cons_self _ _)
              refine ⟨?_, ⟨n :: newi, ?_, ?_⟩, ?_, ?_, ?_⟩
              · rw [← h1, List.erase_cons_head]
              · rw [← h2, hpi]; rfl
              · intro x hx
                rcases List.mem_cons.mp hx with rfl | hx
                · exact htemp
                · exact fun hc => hnewi x hx (List.mem_cons_of_mem _ hc)
              · rw [← h2]; exact List.mem_cons_self _ _
              · intro hnd
                rw [← h2]
                refine List.nodup_cons.mpr ⟨?_, hndi hnd⟩
                rw [hpi]
                intro hc
                rcases List.mem_append.mp hc with hc | hc
                · exact hn_new hc
                · exact hperm hc
              · intro hpo
                rw [← h2]
                exact ⟨hdmem, hpoi hpo⟩

/-- The dependency-loop counterpart of `visit_props`. -/
theorem visit_deps_props :
    ∀ (fuel : Nat) (g : Graph) (ds : List String) (temp perm t' p' : List String),
      visit_deps g fuel ds temp perm = .ok (t', p') →
      t' = temp ∧ (∃ new, p' = new ++ perm ∧ ∀ x ∈ new, x ∉ temp) ∧
      (∀ d ∈ ds, d ∈ p') ∧
      (perm.Nodup → p'.Nodup) ∧ (perm_ok g perm → perm_ok g p') := by
  intro fuel g ds
  induction ds with
  | nil =>
      intro temp perm t' p' h
      rw [visit_deps_nil] at h
      injection h with h
      injection h with h1 h2
      subst h1; subst h2
      exact ⟨rfl, ⟨[], rfl, by simp⟩, by simp, id, id⟩
  | cons d rest ihd =>
      intro temp perm t' p' h
      rw [visit_deps_cons] at h
      cases hd : visit g fuel d temp perm with
      | error e => rw [hd] at h; cases h
      | ok st =>
          obtain ⟨t1, p1⟩ := st
          rw [hd] at h
          obtain ⟨ht1, ⟨new1, hp1, hnew1⟩, hdmem, hnd1, hpo1⟩ :=
            visit_props fuel g d temp perm t1 p1 hd
          rw [ht1] at h
          obtain ⟨ht', ⟨new2, hp2, hnew2⟩, hrest, hnd2, hpo2⟩ :=
            ihd temp p1 t' p' h
          refine ⟨ht', ⟨new2 ++ new1, by rw [hp2, hp1, List.append_assoc], ?_⟩,
            ?_, fun hnd => hnd2 (hnd1 hnd), fun hpo => hpo2 (hpo1 hpo)⟩
          · intro x hx
            rcases List.mem_append.mp hx with h1 | h1
            · exact hnew2 x h1
            · exact hnew1 x h1
          · intro d' hd'
            rcases List.mem_cons.mp hd' with rfl | hd'
            · rw [hp2]; exact List.mem_append_right _ hdmem
            · exact hrest d' hd'

/-- Dependencies followed by the DFS stay inside `all_names`. -/
theorem dep_list_subset_all_names (g : Graph) (n : String) :
    ∀ d ∈ dep_list g n, d ∈ all_names g := by
  intro d hd
  unfold dep_list at hd
  cases hl : lookup_node g n with
  | none => rw [hl] at hd; cases hd
  | some node =>
      rw [hl] at hd
      have hmem : node ∈ g := List.mem_of_find?_eq_some hl
      exact List.mem_append_right _ (List.mem_flatMap.mpr ⟨node, hmem, hd⟩)

/-- Marking a fresh name shrinks the pool of unvisited names. -/
theorem filter_notmem_length_lt :
    ∀ (l temp : List String) (x : String), x ∈ l → x ∉ temp →
      (l.filter (fun y => y ∉ x :: temp)).length <
        (l.filter (fun y => y ∉ temp)).length := by
  intro l
  induction l with
  | nil => intro temp x hx; cases hx
  | cons a rest ih =>
      intro temp x hx hxt
      by_cases hax : a = x
      · subst hax
        have h1 : (decide (a ∉ a :: temp)) = false := by simp
        have h2 : (decide (a ∉ temp)) = true := by simpa using hxt
        rw [List.filter_cons, h1, List.filter_cons, h2]
        have hle : ((rest.filter (fun y => y ∉ a :: temp)).length ≤
            (rest.filter (fun y => y ∉ temp)).length) := by
          rw [← List.countP_eq_length_filter, ← List.countP_eq_length_filter]
          refine List.countP_mono_left ?_
          intro y _ hy
          simp only [decide_eq_true_eq] at hy ⊢
          exact fun hc => hy (List.mem_cons_of_mem _ hc)
        simpa using Nat.lt_succ_of_le hle
      · have hx' : x ∈ rest := by
          rcases List.mem_cons.mp hx with h | h
          · exact absurd h.symm hax
          · exact h
        by_cases hat : a ∈ temp
        · have h1 : (decide (a ∉ x :: temp)) = false := by
            simp [List.mem_cons, hat]
          have h2 : (decide (a ∉ temp)) = false := by simpa using hat
          rw [List.filter_cons, h1, List.filter_cons, h2]
          exact ih temp x hx' hxt
        · have h1 : (decide (a ∉ x :: temp)) = true := by
            simp [List.mem_cons, hat, hax]
          have h2 : (decide (a ∉ temp)) = true := by simpa using hat
          rw [List.filter_cons, h1, List.filter_cons, h2]
          simpa using Nat.succ_lt_succ (ih temp x hx' hxt)

/-- With more fuel than unvisited names, `visit` cannot run out of fuel. -/
theorem visit_no_fuelOut :
    ∀ (fuel : Nat) (g : Graph) (n : String) (temp perm : List String),
      n ∈ all_names g →
      ((all_names g).dedup.filter (fun y => y ∉ temp)).length < fuel →
      visit g fuel n temp perm ≠ .error .outOfFuel := by
  intro fuel
  induction fuel with
  | zero => intro g n temp perm _ hlt; cases hlt
  | succ fuel ih =>
      have deps : ∀ (g : Graph) (ds temp perm : List String),
          (∀ d ∈ ds, d ∈ all_names g) →
          ((all_names g).dedup.filter (fun y => y ∉ temp)).length < fuel →
          visit_deps g fuel ds temp perm ≠ .error .outOfFuel := by
        intro g ds
        induction ds with
        | nil =>
            intro temp perm _ _
            rw [visit_deps_nil]
            intro h; cases h
        | cons d rest ihd =>
            intro temp perm hsub hlt
            rw [visit_deps_cons]
            cases hd : visit g fuel d temp perm with
            | error e =>
                intro h
                injection h with h
                subst h
                exact ih g d temp perm (hsub d (List.mem_cons_self _ _)) hlt hd
            | ok st =>
                obtain ⟨t1, p1⟩ := st
                obtain ⟨ht1, _, _, _, _⟩ :=
                  visit_props fuel g d temp perm t1 p1 hd
                rw [ht1]
                exact ihd temp p1
                  (fun d' hd' => hsub d' (List.mem_cons_of_mem _ hd')) hlt
      intro g n temp perm hn hlt
      rw [visit_succ]
      by_cases hperm : n ∈ perm
      · rw [if_pos hperm]
        intro h; cases h
      · rw [if_neg hperm]
        by_cases htemp : n ∈ temp
        · rw [if_pos htemp]
          intro h
          injection h with h
          cases h
        · rw [if_neg htemp]
          have hdedup : n ∈ (all_names g).dedup := List.mem_dedup.mpr hn
          have hlt' : ((all_names g).dedup.filter
              (fun y => y ∉ n :: temp)).length < fuel :=
            Nat.lt_of_lt_of_le
              (filter_notmem_length_lt (all_names g).dedup temp n hdedup htemp)
              (Nat.lt_succ_iff.mp hlt)
          cases hd : visit_deps g fuel (dep_list g n) (n :: temp) perm with
          | error e =>
              intro h
              injection h with h
              subst h
              exact deps g (dep_list g n) (n :: temp) perm
                (dep_list_subset_all_names g n) hlt' hd
          | ok st =>
              obtain ⟨ti, pi⟩ := st
              intro h; cases h

/-- The only errors `visit` produces are cycle reports and fuel
exhaustion. -/
theorem visit_error_shape :
    ∀ (fuel : Nat) (g : Graph) (n : String) (temp perm : List String)
      (e : BuildError), visit g fuel n temp perm = .error e →
      (∃ c, e = .cycle c) ∨ e = .outOfFuel := by
  intro fuel
  induction fuel with
  | zero =>
      intro g n temp perm e h
      rw [show visit g 0 n temp perm = .error .outOfFuel from rfl] at h
      injection h with h
      exact Or.inr h.symm
  | succ fuel ih =>
      have deps : ∀ (g : Graph) (ds temp perm : List String) (e : BuildError),
          visit_deps g fuel ds temp perm = .error e →
          (∃ c, e = .cycle c) ∨ e = .outOfFuel := by
        intro g ds
        induction ds with
        | nil =>
            intro temp perm e h
            rw [visit_deps_nil] at h
            cases h
        | cons d rest ihd =>
            intro temp perm e h
            rw [visit_deps_cons] at h
            cases hd : visit g fuel d temp perm with
            | error e' =>
                rw [hd] at h
                injection h with h
                subst h
                exact ih g d temp perm e' hd
            | ok st =>
                obtain ⟨t1, p1⟩ := st
                rw [hd] at h
                exact ihd t1 p1 e h
      intro g n temp perm e h
      rw [visit_succ] at h
      by_cases hperm : n ∈ perm
      · rw [if_pos hperm] at h; cases h
      · rw [if_neg hperm] at h
        by_cases htemp : n ∈ temp
        · rw [if_pos htemp] at h
          injection h with h
          exact Or.inl ⟨n, h.symm⟩
        · rw [if_neg htemp] at h
          cases hd : visit_deps g fuel (dep_list g n) (n :: temp) perm with
          | error e' =>
              rw [hd] at h
              injection h with h
              subst h
              exact deps g (dep_list g n) (n :: temp) perm e' hd
          | ok st =>
              obtain ⟨ti, pi⟩ := st
              rw [hd] at h
              cases h

theorem check_cycles_from_nil (g : Graph) (temp perm : List String) :
    check_cycles_from g [] temp perm = .ok () := rfl

theorem check_cycles_from_cons (g : Graph) (s : String) (rest : List String)
    (temp perm : List String) :
    check_cycles_from g (s :: rest) temp perm =
      match visit g ((all_names g).dedup.length + 1) s temp perm with
      | .error e => .error e
      | .ok (temp', perm') => check_cycles_from g rest temp' perm' := by
  rw [check_cycles_from]

/-- A successful seed loop leaves a distinct, well-formed completion order
containing every seed. -/
theorem check_cycles_from_ok_props (g : Graph) :
    ∀ (seeds perm : List String), perm.Nodup → perm_ok g perm →
      check_cycles_from g seeds [] perm = .ok () →
      ∃ p', p'.Nodup ∧ perm_ok g p' ∧ (∀ x ∈ perm, x ∈ p') ∧
        ∀ s ∈ seeds, s ∈ p' := by
  intro seeds
  induction seeds with
  | nil =>
      intro perm hnd hpo _
      exact ⟨perm, hnd, hpo, fun x hx => hx, by simp⟩
  | cons s rest ih =>
      intro perm hnd hpo h
      rw [check_cycles_from_cons] at h
      cases hv : visit g ((all_names g).dedup.length + 1) s [] perm with
      | error e => rw [hv] at h; cases h
      | ok st =>
          obtain ⟨t', p'⟩ := st
          rw [hv] at h
          obtain ⟨ht', ⟨new, hp', _⟩, hs, hndi, hpoi⟩ :=
            visit_props _ g s [] perm t' p' hv
          rw [ht'] at h
          obtain ⟨p'', hnd'', hpo'', hsup, hrest⟩ :=
            ih p' (hndi hnd) (hpoi hpo) h
          refine ⟨p'', hnd'', hpo'', ?_, ?_⟩
          · intro x hx
            exact hsup x (by rw [hp']; exact List.mem_append_right _ hx)
          · intro s' hs'
            rcases List.mem_cons.mp hs' with rfl | hs'
            · exact hsup s' hs
            · exact hrest s' hs'

/-- `check_cycles` either succeeds or reports a cycle — with the fuel it
passes, fuel exhaustion is impossible when the seeds are known names. -/
theorem check_cycles_result_shape (g : Graph) :
    ∀ (seeds perm : List String), (∀ s ∈ seeds, s ∈ all_names g) →
      check_cycles_from g seeds [] perm = .ok () ∨
      ∃ c, check_cycles_from g seeds [] perm = .error (.cycle c) := by
  intro seeds
  induction seeds with
  | nil => intro perm _; exact Or.inl rfl
  | cons s rest ih =>
      intro perm hsub
      rw [check_cycles_from_cons]
      cases hv : visit g ((all_names g).dedup.length + 1) s [] perm with
      | error e =>
          rcases visit_error_shape _ g s [] perm e hv with ⟨c, rfl⟩ | rfl
          · exact Or.inr ⟨c, rfl⟩
          · exact absurd hv (visit_no_fuelOut _ g s [] perm
              (hsub s (List.mem_cons_self _ _))
              (by
                have : ((all_names g).dedup.filter
                    (fun y => y ∉ ([] : List String))).length =
                    (all_names g).dedup.length := by
                  congr 1
                  refine List.filter_eq_self.mpr ?_
                  intro y _
                  simp
                rw [this]
                exact Nat.lt_succ_self _))
      | ok st =>
          obtain ⟨t', p'⟩ := st
          obtain ⟨ht', _, _, _, _⟩ := visit_props _ g s [] perm t' p' hv
          rw [ht']
          exact ih p' (fun s' hs' => hsub s' (List.mem_cons_of_mem _ hs'))

/-- In a well-formed completion order, an edge always points to a strictly
later position. -/
theorem perm_ok_index_lt (g : Graph) :
    ∀ (l : List String), perm_ok g l → l.Nodup →
      ∀ a ∈ l, ∀ d ∈ dep_list g a, d ∈ l ∧ l.indexOf a < l.indexOf d := by
  intro l
  induction l with
  | nil => intro _ _ a ha; cases ha
  | cons x rest ih =>
      intro hpo hnd a ha d hd
      obtain ⟨hx, hrest⟩ := hpo
      have hxnotin : x ∉ rest := (List.nodup_cons.mp hnd).1
      have hndrest : rest.Nodup := (List.nodup_cons.mp hnd).2
      rcases List.mem_cons.mp ha with rfl | ha'
      · have hdrest : d ∈ rest := hx d hd
        have hdx : d ≠ a := fun hc => hxnotin (hc ▸ hdrest)
        refine ⟨List.mem_cons_of_mem _ hdrest, ?_⟩
        rw [List.indexOf_cons_self]
        rw [List.indexOf_cons_ne _ (by simpa using hdx.symm)]
        exact Nat.succ_pos _
      · obtain ⟨hdl, hlt⟩ := ih hrest hndrest a ha' d hd
        have hax : a ≠ x := fun hc => hxnotin (hc ▸ ha')
        have hdx : d ≠ x := fun hc => hxnotin (hc ▸ hdl)
        refine ⟨List.mem_cons_of_mem _ hdl, ?_⟩
        rw [List.indexOf_cons_ne _ (Ne.symm hax),
          List.indexOf_cons_ne _ (Ne.symm hdx)]
        exact Nat.succ_lt_succ hlt

/-- The tail of a dependency edge is a key of the graph. -/
theorem dep_source_mem (g : Graph) (a d : String) (hd : d ∈ dep_list g a) :
    ∃ node ∈ g, node.name = a := by
  unfold dep_list at hd
  cases hl : lookup_node g a with
  | none => rw [hl] at hd; cases hd
  | some node =>
      refine ⟨node, List.mem_of_find?_eq_some hl, ?_⟩
      have := List.find?_some hl
      simpa using this

/-- Along a dependency chain, positions in a well-formed completion order
strictly increase. -/
theorem perm_ok_chain_lt (g : Graph) (l : List String) (hpo : perm_ok g l)
    (hnd : l.Nodup) (hkeys : ∀ node ∈ g, node.name ∈ l) :
    ∀ (c : List String) (a z : String),
      List.Chain' (fun u w => w ∈ dep_list g u) (a :: (c ++ [z])) →
      l.indexOf a < l.indexOf z := by
  intro c
  induction c with
  | nil =>
      intro a z hchain
      have hz : z ∈ dep_list g a := by
        rw [List.nil_append, List.chain'_cons] at hchain
        exact hchain.1
      obtain ⟨node, hnode, hname⟩ := dep_source_mem g a z hz
      have ha : a ∈ l := hname ▸ hkeys node hnode
      exact (perm_ok_index_lt g l hpo hnd a ha z hz).2
  | cons b c' ih =>
      intro a z hchain
      rw [show (a :: (b :: c' ++ [z])) = a :: b :: (c' ++ [z]) from rfl,
        List.chain'_cons] at hchain
      obtain ⟨hab, hchain'⟩ := hchain
      obtain ⟨node, hnode, hname⟩ := dep_source_mem g a b hab
      have ha : a ∈ l := hname ▸ hkeys node hnode
      exact Nat.lt_trans (perm_ok_index_lt g l hpo hnd a ha b hab).2
        (ih b z hchain')

/-- A well-formed completion order covering the keys rules out dependency
cycles. -/
theorem perm_ok_no_cycle (g : Graph) (l : List String) (hpo : perm_ok g l)
    (hnd : l.Nodup) (hkeys : ∀ node ∈ g, node.name ∈ l) :
    ∀ (v : String) (rest : List String),
      ¬ List.Chain' (fun u w => w ∈ dep_list g u) (v :: (rest ++ [v])) :=
  fun v rest hchain =>
    Nat.lt_irrefl _ (perm_ok_chain_lt g l hpo hnd hkeys rest v v hchain)

/-- Assembling `from_manifest` once the first two phases succeeded. -/
theorem from_manifest_eq_check (m : ProjectManifest) (seeds : List String)
    (g : Graph) (hb : build_nodes m.targets [] = .ok g)
    (hv : validate_dependencies g = .ok ()) :
    from_manifest m seeds =
      match check_cycles g seeds with
      | .error e => .error e
      | .ok () => .ok g := by
  unfold from_manifest
  rw [hb]
  show (match validate_dependencies g with
    | .error e => Except.error e
    | .ok () =>
        match check_cycles g seeds with
        | .error e => Except.error e
        | .ok () => Except.ok g : Except BuildError Graph) = _
  rw [hv]

/-! ## Claim C5: cycles are always detected -/

/-- Claim C5: if the duplicate-name and unknown-dependency phases pass but
the dependency edges contain a cycle (a closed chain, including self-loops),
then `from_manifest` fails with a `Cycle` error — for every iteration order
of the seed loop over the node map's keys. -/
theorem claim_C5_cycle_detected (m : ProjectManifest) (seeds : List String)
    (g : Graph)
    (hb : build_nodes m.targets [] = .ok g)
    (hv : validate_dependencies g = .ok ())
    (hseeds : seeds.Perm (g.map TargetNode.name))
    (hcyc : ∃ v rest, List.Chain'
      (fun u w => w ∈ dep_list g u) (v :: (rest ++ [v]))) :
    ∃ c, from_manifest m seeds = .error (.cycle c) := by
  have hsub : ∀ s ∈ seeds, s ∈ all_names g := fun s hs =>
    List.mem_append_left _ (hseeds.mem_iff.mp hs)
  rcases check_cycles_result_shape g seeds [] hsub with hok | ⟨c, hc⟩
  · exfalso
    obtain ⟨p', hnd, hpo, _, hall⟩ :=
      check_cycles_from_ok_props g seeds [] List.nodup_nil trivial hok
    have hkeys : ∀ node ∈ g, node.name ∈ p' := fun node hn =>
      hall _ (hseeds.mem_iff.mpr (List.mem_map_of_mem _ hn))
    obtain ⟨v, rest, hchain⟩ := hcyc
    exact perm_ok_no_cycle g p' hpo hnd hkeys v rest hchain
  · refine ⟨c, ?_⟩
    rw [from_manifest_eq_check m seeds g hb hv,
      show check_cycles g seeds = Except.error (BuildError.cycle c) from hc]

/-- The self-loop manifest of scenario S3: target `X` depends on itself. -/
def m_c5 : ProjectManifest := ⟨"demo", none, [.executable "X" ["x.c"] ["X"]]⟩

/-- The node map `build_nodes` produces for `m_c5`. -/
def g_c5 : Graph := [⟨"X", .Executable, ["x.c"], ["X"], ["X"], none⟩]

/-- Witness for `claim_C5_cycle_detected`: the self-loop is rejected. -/
theorem claim_C5_witness :
    ∃ c, from_manifest m_c5 ["X"] = .error (.cycle c) :=
  claim_C5_cycle_detected m_c5 ["X"] g_c5 rfl rfl (List.Perm.refl _)
    ⟨"X", [], List.chain'_cons.mpr
      ⟨by decide, List.chain'_singleton _⟩⟩

/-! ## Topological iteration: `DependencyGraph::topo_order`

The in-degree map `HashMap<&str, usize>` is an association list, the ready
queue `Vec<&str>` a reversed list (push = cons, pop = head), and the
`dependents` map a parameter constrained by `dependents_ok` (its per-key
lists arise from an unspecified iteration order, so only their multisets are
determined). -/

/-- Lookup in an association list (`HashMap::get`). -/
def alookup {β : Type} (l : List (String × β)) (k : String) : Option β :=
  (l.find? (fun p => p.1 = k)).map (fun p => p.2)

/-- Overwrite the value at a key (`*degree = …` through `get_mut`). -/
def aset {β : Type} (l : List (String × β)) (k : String) (v : β) :
    List (String × β) :=
  l.map (fun p => if p.1 = k then (k, v) else p)

/-- The `dependents` map built by `topo_order`'s first loop: for each key
`d`, its list holds each node name once per occurrence of `d` in that node's
dependency list (the list order depends on the map's iteration order). -/
def dependents_ok (g : Graph) (dm : List (String × List String)) : Prop :=
  ∀ d c, ((alookup dm d).getD []).count c =
    ((lookup_node g c).map (fun n => n.dependencies.count d)).getD 0

structure KahnState where
  in_degree : List (String × Nat)
  queue : List String
  result : List TargetNode

/-- The `for child in children { … }` body: decrement the child's in-degree
when present, enqueueing the child when it reaches zero. -/
def dec_children : List String → List (String × Nat) → List String →
    List (String × Nat) × List String
  | [], indeg, queue => (indeg, queue)
  | c :: rest, indeg, queue =>
      match alookup indeg c with
      | none => dec_children rest indeg queue
      | some deg =>
          let deg' := deg - 1
          if deg' = 0 then dec_children rest (aset indeg c deg') (c :: queue)
          else dec_children rest (aset indeg c deg') queue

/-- The `while let Some(name) = queue.pop()` loop, with fuel (the loop pops
at most one node per key, so `g.length` pops suffice on valid states). -/
def topo_loop (g : Graph) (dm : List (String × List String)) :
    Nat → KahnState → Except BuildError KahnState
  | 0, st => .ok st
  | fuel + 1, st =>
      match st.queue with
      | [] => .ok st
      | name :: qrest =>
          match lookup_node g name with
          | none => .error (.topoMissingNode name)
          | some node =>
              let step := dec_children ((alookup dm name).getD [])
                st.in_degree qrest
              topo_loop g dm fuel ⟨step.1, step.2, st.result ++ [node]⟩

/-- `DependencyGraph::topo_order`, parameterised by the initial ready-queue
order and the dependents map (both derived from unspecified `HashMap`
iteration orders). -/
def topo_order (g : Graph) (seed : List String)
    (dm : List (String × List String)) : Except BuildError (List TargetNode) :=
  match topo_loop g dm g.length
      ⟨g.map (fun n => (n.name, n.dependencies.length)), seed, []⟩ with
  | .error e => .error e
  | .ok st =>
      if st.result.length = g.length then .ok st.result
      else .error .topoCycle

/-- The reverse view of "every node appears after all its dependencies". -/
def sorted_rev (g : Graph) : List TargetNode → Prop
  | [] => True
  | x :: rest => (∀ d ∈ x.dependencies, d ∈ rest.map TargetNode.name) ∧
      sorted_rev g rest

/-! ### Association list facts -/

theorem alookup_aset {β : Type} :
    ∀ (l : List (String × β)) (k y : String) (v : β),
      alookup (aset l k v) y =
        if y = k then (alookup l k).map (fun _ => v) else alookup l y := by
  intro l
  induction l with
  | nil => intro k y v; by_cases h : y = k <;> simp [alookup, aset, h]
  | cons p rest ih =>
      intro k y v
      obtain ⟨k0, v0⟩ := p
      by_cases hk : k0 = k
      · subst hk
        by_cases hy : y = k0
        · subst hy
          simp [alookup, aset, List.find?_cons]
        · rw [show aset ((k0, v0) :: rest) k0 v = (k0, v) :: aset rest k0 v by
            simp [aset]]
          rw [if_neg hy]
          unfold alookup
          rw [List.find?_cons, List.find?_cons]
          have : (decide (k0 = y)) = false := by
            simp
            exact fun hc => hy hc.symm
          rw [this]
          have h2 := ih k0 y v
          rw [if_neg hy] at h2
          exact h2
      · rw [show aset ((k0, v0) :: rest) k v = (k0, v0) :: aset rest k v by
          simp [aset, hk]]
        by_cases hy : y = k
        · rw [if_pos hy]
          subst hy
          unfold alookup
          rw [List.find?_cons, List.find?_cons]
          have hne : (decide (k0 = y)) = false := by
            simp
            exact fun hc => hk hc
          rw [hne]
          have h2 := ih y y v
          rw [if_pos rfl] at h2
          exact h2
        · rw [if_neg hy]
          unfold alookup
          rw [List.find?_cons, List.find?_cons]
          cases hd : (decide (k0 = y)) with
          | true => rfl
          | false =>
              have h2 := ih k y v
              rw [if_neg hy] at h2
              exact h2

theorem alookup_isSome_aset {β : Type} (l : List (String × β)) (k y : String)
    (v : β) : (alookup (aset l k v) y).isSome = (alookup l y).isSome := by
  rw [alookup_aset]
  by_cases h : y = k
  · subst h; simp
  · rw [if_neg h]

/-- Looking a node's name up in the canonical initial in-degree map. -/
theorem alookup_init (g : Graph) (f : TargetNode → Nat)
    (hnodup : (g.map TargetNode.name).Nodup) :
    ∀ n ∈ g, alookup (g.map (fun m => (m.name, f m))) n.name = some (f n) := by
  induction g with
  | nil => intro n hn; cases hn
  | cons a rest ih =>
      intro n hn
      have hnodup' : (rest.map TargetNode.name).Nodup :=
        (List.nodup_cons.mp hnodup).2
      have hanotin : a.name ∉ rest.map TargetNode.name :=
        (List.nodup_cons.mp hnodup).1
      rcases List.mem_cons.mp hn with rfl | hn'
      · unfold alookup
        rw [List.map_cons, List.find?_cons]
        simp
      · unfold alookup
        rw [List.map_cons, List.find?_cons]
        have hne : (decide (a.name = n.name)) = false := by
          simp
          intro hc
          exact hanotin (hc ▸ List.mem_map_of_mem TargetNode.name hn')
        rw [hne]
        exact ih hnodup' n hn'

/-- Any key present in the initial in-degree map (or one derived from it by
`aset`) is a node name. -/
theorem alookup_mem_of_isSome (g : Graph) (f : TargetNode → Nat) (x : String) :
    (alookup (g.map (fun m => (m.name, f m))) x).isSome →
      x ∈ g.map TargetNode.name := by
  intro h
  unfold alookup at h
  cases hf : (g.map (fun m => (m.name, f m))).find? (fun p => p.1 = x) with
  | none => rw [hf] at h; cases h
  | some p =>
      have hp := List.find?_some hf
      have hmem := List.mem_of_find?_eq_some hf
      rw [List.mem_map] at hmem
      obtain ⟨n, hn, hpn⟩ := hmem
      simp only [decide_eq_true_eq] at hp
      rw [← hp, ← hpn]
      exact List.mem_map_of_mem TargetNode.name hn

/-- With unique names, a member node is what its name looks up to. -/
theorem mem_names_lookup (g : Graph) (hnodup : (g.map TargetNode.name).Nodup) :
    ∀ n ∈ g, lookup_node g n.name = some n := by
  induction g with
  | nil => intro n hn; cases hn
  | cons a rest ih =>
      intro n hn
      have hnodup' : (rest.map TargetNode.name).Nodup :=
        (List.nodup_cons.mp hnodup).2
      have hanotin : a.name ∉ rest.map TargetNode.name :=
        (List.nodup_cons.mp hnodup).1
      rcases List.mem_cons.mp hn with rfl | hn'
      · unfold lookup_node
        rw [List.find?_cons]
        simp
      · unfold lookup_node
        rw [List.find?_cons]
        have hne : (decide (a.name = n.name)) = false := by
          simp
          intro hc
          exact hanotin (hc ▸ List.mem_map_of_mem TargetNode.name hn')
        rw [hne]
        exact ih hnodup' n hn'

/-- A name of the graph looks up to some node. -/
theorem mem_names_lookup_isSome (g : Graph) (x : String)
    (hx : x ∈ g.map TargetNode.name) : ∃ node, lookup_node g x = some node := by
  rw [List.mem_map] at hx
  obtain ⟨n, hn, rfl⟩ := hx
  unfold lookup_node
  cases hf : g.find? (fun m => m.name = n.name) with
  | none =>
      exfalso
      have := List.find?_eq_none.mp hf n hn
      simp at this
  | some node => exact ⟨node, rfl⟩

/-- Effect of one completion's decrement loop: every present degree drops by
the child's multiplicity in the processed list, and exactly the keys whose
degree equals that multiplicity (and is positive) are pushed, each once. -/
theorem dec_children_spec :
    ∀ (children : List String) (indeg : List (String × Nat))
      (queue : List String),
      (∀ c deg, alookup indeg c = some deg → children.count c ≤ deg) →
      (∀ c, alookup (dec_children children indeg queue).1 c =
        (alookup indeg c).map (fun deg => deg - children.count c)) ∧
      ∃ newz, (dec_children children indeg queue).2 = newz ++ queue ∧
        newz.Nodup ∧
        ∀ x, x ∈ newz ↔
          alookup indeg x = some (children.count x) ∧ 0 < children.count x := by
  intro children
  induction children with
  | nil =>
      intro indeg queue _
      refine ⟨fun c => by simp [dec_children], [], rfl, List.nodup_nil, ?_⟩
      intro x
      simp
  | cons c rest ih =>
      intro indeg queue hge
      cases hc : alookup indeg c with
      | none =>
          rw [show dec_children (c :: rest) indeg queue =
            dec_children rest indeg queue by rw [dec_children, hc]]
          have hge' : ∀ c' deg, alookup indeg c' = some deg →
              rest.count c' ≤ deg := by
            intro c' deg h
            exact le_trans (by
              rw [List.count_cons]
              exact Nat.le_add_right _ _) (hge c' deg h)
          obtain ⟨ha, newz, hq, hnd, hchar⟩ := ih indeg queue hge'
          refine ⟨?_, newz, hq, hnd, ?_⟩
          · intro c'
            rw [ha c']
            by_cases hcc : c' = c
            · subst hcc; rw [hc]; rfl
            · have : (c :: rest).count c' = rest.count c' := by
                rw [List.count_cons]
                simp [Ne.symm hcc]
              rw [this]
          · intro x
            rw [hchar x]
            by_cases hxc : x = c
            · subst hxc
              rw [hc]
              constructor
              · rintro ⟨h, _⟩; cases h
              · rintro ⟨h, _⟩; cases h
            · have : (c :: rest).count x = rest.count x := by
                rw [List.count_cons]
                simp [Ne.symm hxc]
              rw [this]
      | some deg =>
          have hcount : (c :: rest).count c = rest.count c + 1 := by
            rw [List.count_cons]
            simp
          have hdeg1 : rest.count c + 1 ≤ deg := by
            rw [← hcount]
            exact hge c deg hc
          have hge' : ∀ c' deg', alookup (aset indeg c (deg - 1)) c' =
              some deg' → rest.count c' ≤ deg' := by
            intro c' deg' h
            rw [alookup_aset] at h
            by_cases hcc : c' = c
            · rw [if_pos hcc, hc] at h
              injection h with h
              subst h hcc
              exact Nat.le_sub_one_of_lt (Nat.lt_of_lt_of_le
                (Nat.lt_of_lt_of_le (Nat.lt_succ_self _) (le_refl _)) hdeg1)
            · rw [if_neg hcc] at h
              refine le_trans ?_ (hge c' deg' h)
              rw [List.count_cons]
              simp [Ne.symm hcc]
          by_cases hz : deg - 1 = 0
          · rw [show dec_children (c :: rest) indeg queue =
              dec_children rest (aset indeg c (deg - 1)) (c :: queue) by
                rw [dec_children, hc]
                simp [hz]]
            obtain ⟨ha, newz, hq, hnd, hchar⟩ :=
              ih (aset indeg c (deg - 1)) (c :: queue) hge'
            have hrc0 : rest.count c = 0 := by
              have hd1 : deg = 1 := by omega
              omega
            refine ⟨?_, newz ++ [c], ?_, ?_, ?_⟩
            · intro c'
              rw [ha c', alookup_aset]
              by_cases hcc : c' = c
              · subst hcc
                rw [if_pos rfl, hc, hcount]
                simp
                omega
              · rw [if_neg hcc]
                have : (c :: rest).count c' = rest.count c' := by
                  rw [List.count_cons]
                  simp [Ne.symm hcc]
                rw [this]
            · rw [hq, List.append_assoc]
              rfl
            · rw [List.nodup_append]
              refine ⟨hnd, List.nodup_singleton _, ?_⟩
              intro x hx hxc
              rw [List.mem_singleton] at hxc
              subst hxc
              have hmm := (hchar x).mp hx
              rw [alookup_aset, if_pos rfl, hc,
                show (some deg).map (fun _ => deg - 1) = some (deg - 1)
                  from rfl, Option.some.injEq] at hmm
              omega
            · intro x
              rw [List.mem_append, List.mem_singleton, hchar x, alookup_aset]
              by_cases hxc : x = c
              · subst hxc
                rw [if_pos rfl, hc,
                  show (some deg).map (fun _ => deg - 1) = some (deg - 1)
                    from rfl, hcount]
                have hdeq : deg = 1 := by omega
                constructor
                · intro _
                  refine ⟨?_, by omega⟩
                  rw [hdeq, hrc0]
                · intro _
                  exact Or.inr rfl
              · rw [if_neg hxc]
                have : (c :: rest).count x = rest.count x := by
                  rw [List.count_cons]
                  simp [Ne.symm hxc]
                rw [this]
                constructor
                · rintro (h | h)
                  · exact h
                  · exact absurd h hxc
                · intro h
                  exact Or.inl h
          · rw [show dec_children (c :: rest) indeg queue =
              dec_children rest (aset indeg c (deg - 1)) queue by
                rw [dec_children, hc]
                simp [hz]]
            obtain ⟨ha, newz, hq, hnd, hchar⟩ :=
              ih (aset indeg c (deg - 1)) queue hge'
            refine ⟨?_, newz, hq, hnd, ?_⟩
            · intro c'
              rw [ha c', alookup_aset]
              by_cases hcc : c' = c
              · subst hcc
                rw [if_pos rfl, hc, hcount]
                simp
                omega
              · rw [if_neg hcc]
                have : (c :: rest).count c' = rest.count c' := by
                  rw [List.count_cons]
                  simp [Ne.symm hcc]
                rw [this]
            · intro x
              rw [hchar x, alookup_aset]
              by_cases hxc : x = c
              · subst hxc
                rw [if_pos rfl, hc,
                  show (some deg).map (fun _ => deg - 1) = some (deg - 1)
                    from rfl, hcount, Option.some.injEq, Option.some.injEq]
                constructor
                · rintro ⟨h1, h2⟩
                  refine ⟨?_, ?_⟩ <;> omega
                · rintro ⟨h1, h2⟩
                  refine ⟨?_, ?_⟩ <;> omega
              · rw [if_neg hxc]
                have : (c :: rest).count x = rest.count x := by
                  rw [List.count_cons]
                  simp [Ne.symm hxc]
                rw [this]

/-- Names of the nodes already emitted by the Kahn loop. -/
def processed (st : KahnState) : List String :=
  st.result.map TargetNode.name

theorem lookup_node_spec (g : Graph) (n : String) (node : TargetNode)
    (h : lookup_node g n = some node) : node ∈ g ∧ node.name = n := by
  refine ⟨List.mem_of_find?_eq_some h, ?_⟩
  have := List.find?_some h
  simpa using this

theorem ite_false_true_nat : (if (false = true) then (1 : Nat) else 0) = 0 := by
  simp

theorem ite_true_true_nat : (if (true = true) then (1 : Nat) else 0) = 1 := by
  simp

/-- Counting survivors after marking one more name as processed. -/
theorem countP_notmem_snoc (P : List String) (name : String)
    (hname : name ∉ P) :
    ∀ l : List String,
      l.countP (fun d => d ∉ P ++ [name]) + l.count name =
        l.countP (fun d => d ∉ P) := by
  intro l
  induction l with
  | nil => simp
  | cons d rest ihl =>
      rw [List.countP_cons, List.countP_cons, List.count_cons]
      by_cases hd : d = name
      · subst hd
        have h1 : (decide (d ∉ P ++ [d])) = false := by simp
        have h2 : (decide (d ∉ P)) = true := by simpa using hname
        have h3 : (d == d) = true := by simp
        rw [h1, h2, h3, ite_false_true_nat, ite_true_true_nat]
        omega
      · have h1 : (decide (d ∉ P ++ [name])) = (decide (d ∉ P)) := by
          by_cases hP : d ∈ P
          · simp [hP]
          · simp [hP, hd]
        have h2 : (d == name) = false := by simpa using hd
        rw [h1, h2]
        by_cases hq : d ∈ P
        · have h3 : (decide (d ∉ P)) = false := by simpa using hq
          rw [h3, ite_false_true_nat]
          omega
        · have h3 : (decide (d ∉ P)) = true := by simpa using hq
          rw [h3, ite_false_true_nat, ite_true_true_nat]
          omega

/-- Occurrences of a surviving name bound the survivor count. -/
theorem count_le_countP (a : String) (p : String → Bool) (h : p a = true) :
    ∀ l : List String, l.count a ≤ l.countP p := by
  intro l
  induction l with
  | nil => simp
  | cons d rest ih =>
      rw [List.count_cons, List.countP_cons]
      by_cases hd : d = a
      · subst hd
        have h3 : (d == d) = true := by simp
        rw [h, h3, ite_true_true_nat]
        omega
      · have h2 : (d == a) = false := by simpa using hd
        rw [h2]
        by_cases hp : p d
        · rw [hp, ite_false_true_nat, ite_true_true_nat]
          omega
        · rw [show p d = false by simpa using hp, ite_false_true_nat]
          omega

/-- The loop invariant of `topo_order`: emitted nodes come from the graph,
emitted and queued names are distinct, every present in-degree counts the
dependency occurrences not yet emitted, a key is emitted-or-queued exactly
when that count is zero, and the emitted prefix respects the edges. -/
def kahn_inv (g : Graph) (st : KahnState) : Prop :=
  (∀ node ∈ st.result, node ∈ g) ∧
  (st.result.map TargetNode.name ++ st.queue).Nodup ∧
  (∀ x ∈ st.queue, x ∈ g.map TargetNode.name) ∧
  (∀ x, (alookup st.in_degree x).isSome = true →
    x ∈ g.map TargetNode.name) ∧
  (∀ n ∈ g, alookup st.in_degree n.name =
    some (n.dependencies.countP
      (fun d => d ∉ st.result.map TargetNode.name))) ∧
  (∀ n ∈ g, (n.name ∈ st.result.map TargetNode.name ∨ n.name ∈ st.queue) ↔
    n.dependencies.countP (fun d => d ∉ st.result.map TargetNode.name) = 0) ∧
  sorted_rev g st.result.reverse

/-- One iteration of the Kahn loop preserves the invariant. -/
theorem kahn_step (g : Graph) (dm : List (String × List String))
    (hnodup : (g.map TargetNode.name).Nodup) (hdm : dependents_ok g dm)
    (st : KahnState) (hinv : kahn_inv g st) (name : String)
    (qrest : List String) (hq : st.queue = name :: qrest) (node : TargetNode)
    (hlook : lookup_node g name = some node) :
    kahn_inv g
      ⟨(dec_children ((alookup dm name).getD []) st.in_degree qrest).1,
       (dec_children ((alookup dm name).getD []) st.in_degree qrest).2,
       st.result ++ [node]⟩ := by
  obtain ⟨inv1, inv2, inv3, inv4, inv5, inv6, inv7⟩ := hinv
  obtain ⟨hnode_mem, hnode_name⟩ := lookup_node_spec g name node hlook
  rw [hq] at inv2 inv3
  have hname_notP : name ∉ st.result.map TargetNode.name := by
    intro hc
    exact (List.disjoint_of_nodup_append inv2) hc (List.mem_cons_self _ _)
  have hchl : ∀ c nc, lookup_node g c = some nc →
      ((alookup dm name).getD []).count c = nc.dependencies.count name := by
    intro c nc hc
    have h := hdm name c
    rw [hc] at h
    simpa using h
  have hge : ∀ c deg, alookup st.in_degree c = some deg →
      ((alookup dm name).getD []).count c ≤ deg := by
    intro c deg h
    have hck : c ∈ g.map TargetNode.name := inv4 c (by rw [h]; rfl)
    obtain ⟨nc, hnc⟩ := mem_names_lookup_isSome g c hck
    obtain ⟨hnc_mem, hnc_name⟩ := lookup_node_spec g c nc hnc
    have h5 := inv5 nc hnc_mem
    rw [hnc_name] at h5
    rw [h5] at h
    injection h with h
    subst h
    rw [hchl c nc hnc]
    exact count_le_countP name _ (by simpa using hname_notP) _
  obtain ⟨ha, newz, hq2, hndz, hcharz⟩ :=
    dec_children_spec ((alookup dm name).getD []) st.in_degree qrest hge
  have hmap : (st.result ++ [node]).map TargetNode.name =
      st.result.map TargetNode.name ++ [name] := by
    rw [List.map_append, List.map_singleton, hnode_name]
  have hupd : ∀ n : TargetNode,
      n.dependencies.countP
          (fun d => d ∉ st.result.map TargetNode.name ++ [name]) +
        n.dependencies.count name =
        n.dependencies.countP
          (fun d => d ∉ st.result.map TargetNode.name) :=
    fun n =>
      countP_notmem_snoc (st.result.map TargetNode.name) name hname_notP
        n.dependencies
  have hnewz_fresh : ∀ x ∈ newz,
      x ∉ st.result.map TargetNode.name ∧ x ≠ name ∧ x ∉ qrest := by
    intro x hx
    obtain ⟨hxl, hxpos⟩ := (hcharz x).mp hx
    have hck : x ∈ g.map TargetNode.name := inv4 x (by rw [hxl]; rfl)
    obtain ⟨nx, hnx⟩ := mem_names_lookup_isSome g x hck
    obtain ⟨hnx_mem, hnx_name⟩ := lookup_node_spec g x nx hnx
    have h5 := inv5 nx hnx_mem
    rw [hnx_name] at h5
    rw [h5] at hxl
    injection hxl with hxl
    have h6 := inv6 nx hnx_mem
    rw [hnx_name] at h6
    have hnz : nx.dependencies.countP
        (fun d => d ∉ st.result.map TargetNode.name) ≠ 0 := by
      rw [hxl]
      omega
    have hnot : ¬(x ∈ st.result.map TargetNode.name ∨ x ∈ name :: qrest) := by
      rw [hq] at h6
      intro hc
      exact hnz (h6.mp hc)
    push_neg at hnot
    obtain ⟨hP, hQ⟩ := hnot
    rw [List.mem_cons] at hQ
    push_neg at hQ
    exact ⟨hP, hQ.1, hQ.2⟩
  refine ⟨?_, ?_, ?_, ?_, ?_, ?_, ?_⟩
  · intro x hx
    rcases List.mem_append.mp hx with h | h
    · exact inv1 x h
    · rw [List.mem_singleton] at h
      subst h
      exact hnode_mem
  · show ((st.result ++ [node]).map TargetNode.name ++
      (dec_children ((alookup dm name).getD []) st.in_degree qrest).2).Nodup
    rw [hmap, hq2]
    have hO : (newz ++ (st.result.map TargetNode.name ++
        (name :: qrest))).Nodup := by
      rw [List.nodup_append]
      refine ⟨hndz, inv2, ?_⟩
      intro x hx hxc
      obtain ⟨hP, hne, hQ⟩ := hnewz_fresh x hx
      rcases List.mem_append.mp hxc with h | h
      · exact hP h
      · rcases List.mem_cons.mp h with h | h
        · exact hne h
        · exact hQ h
    refine List.Perm.nodup ?_ hO
    have heq1 : newz ++ (st.result.map TargetNode.name ++ (name :: qrest)) =
        newz ++ ((st.result.map TargetNode.name ++ [name]) ++ qrest) := by
      rw [List.append_assoc]
      rfl
    rw [heq1]
    refine List.Perm.trans List.perm_append_comm ?_
    rw [List.append_assoc]
    exact List.Perm.append_left _ List.perm_append_comm
  · show ∀ x ∈ (dec_children ((alookup dm name).getD [])
        st.in_degree qrest).2, x ∈ g.map TargetNode.name
    intro x hx
    rw [hq2] at hx
    rcases List.mem_append.mp hx with h | h
    · obtain ⟨hxl, _⟩ := (hcharz x).mp h
      exact inv4 x (by rw [hxl]; rfl)
    · exact inv3 x (List.mem_cons_of_mem _ h)
  · show ∀ x, (alookup (dec_children ((alookup dm name).getD [])
        st.in_degree qrest).1 x).isSome = true → x ∈ g.map TargetNode.name
    intro x hx
    rw [ha x] at hx
    cases hl : alookup st.in_degree x with
    | none => rw [hl] at hx; cases hx
    | some deg => exact inv4 x (by rw [hl]; rfl)
  · intro n hn
    show alookup (dec_children ((alookup dm name).getD [])
        st.in_degree qrest).1 n.name = _
    rw [ha n.name, inv5 n hn, hmap]
    have hcnt : ((alookup dm name).getD []).count n.name =
        n.dependencies.count name :=
      hchl n.name n (mem_names_lookup g hnodup n hn)
    rw [hcnt]
    have := hupd n
    show some (n.dependencies.countP
        (fun d => d ∉ st.result.map TargetNode.name) -
      n.dependencies.count name) = _
    congr 1
    omega
  · intro n hn
    show (n.name ∈ (st.result ++ [node]).map TargetNode.name ∨
        n.name ∈ (dec_children ((alookup dm name).getD [])
          st.in_degree qrest).2) ↔
      n.dependencies.countP
        (fun d => d ∉ (st.result ++ [node]).map TargetNode.name) = 0
    rw [hmap, hq2]
    have hcnt : ((alookup dm name).getD []).count n.name =
        n.dependencies.count name :=
      hchl n.name n (mem_names_lookup g hnodup n hn)
    have h6 := inv6 n hn
    rw [hq] at h6
    have hupn := hupd n
    have hcharn : n.name ∈ newz ↔
        (n.dependencies.countP
          (fun d => d ∉ st.result.map TargetNode.name) =
            n.dependencies.count name ∧
          0 < n.dependencies.count name) := by
      rw [hcharz n.name, inv5 n hn, hcnt]
      constructor
      · rintro ⟨h1, h2⟩
        injection h1 with h1
        exact ⟨h1, h2⟩
      · rintro ⟨h1, h2⟩
        exact ⟨by rw [h1], h2⟩
    rw [List.mem_append, List.mem_append, List.mem_singleton,
      List.mem_cons] at *
    by_cases heq : n.name = name
    · have ha0 : n.dependencies.countP
          (fun d => d ∉ st.result.map TargetNode.name) = 0 :=
        h6.mp (Or.inr (Or.inl heq))
      refine iff_of_true (Or.inl (Or.inr heq)) ?_
      omega
    · by_cases hmemPQ : n.name ∈ st.result.map TargetNode.name ∨
          n.name ∈ qrest
      · have ha0 : n.dependencies.countP
            (fun d => d ∉ st.result.map TargetNode.name) = 0 := by
          rcases hmemPQ with h | h
          · exact h6.mp (Or.inl h)
          · exact h6.mp (Or.inr (Or.inr h))
        refine iff_of_true ?_ (by omega)
        rcases hmemPQ with h | h
        · exact Or.inl (Or.inl h)
        · exact Or.inr (Or.inr h)
      · push_neg at hmemPQ
        obtain ⟨hnP, hnQ⟩ := hmemPQ
        have hane : n.dependencies.countP
            (fun d => d ∉ st.result.map TargetNode.name) ≠ 0 := by
          intro hc
          rcases h6.mpr hc with h | h | h
          · exact hnP h
          · exact heq h
          · exact hnQ h
        constructor
        · rintro ((h | h) | (h | h))
          · exact absurd h hnP
          · exact absurd h heq
          · obtain ⟨h1, h2⟩ := hcharn.mp h
            omega
          · exact absurd h hnQ
        · intro hc
          refine Or.inr (Or.inl (hcharn.mpr ⟨?_, ?_⟩)) <;> omega
  · show sorted_rev g (st.result ++ [node]).reverse
    rw [List.reverse_append]
    show sorted_rev g (node :: st.result.reverse)
    refine ⟨?_, inv7⟩
    have h6 := inv6 node hnode_mem
    have ha0 : node.dependencies.countP
        (fun d => d ∉ st.result.map TargetNode.name) = 0 := by
      refine h6.mp (Or.inr ?_)
      rw [hq, hnode_name]
      exact List.mem_cons_self _ _
    have hall := List.countP_eq_zero.mp ha0
    intro d hd
    have := hall d hd
    simp only [decide_eq_true_eq, not_not] at this
    rw [List.map_reverse, List.mem_reverse]
    exact this

/-- Distinct node names identify nodes. -/
theorem name_inj (g : Graph) (hnodup : (g.map TargetNode.name).Nodup)
    (m n : TargetNode) (hm : m ∈ g) (hn : n ∈ g) (h : m.name = n.name) :
    m = n := by
  have h1 := mem_names_lookup g hnodup m hm
  have h2 := mem_names_lookup g hnodup n hn
  rw [h] at h1
  rw [h1] at h2
  injection h2

/-- The invariant holds at the start of the loop. -/
theorem kahn_init (g : Graph) (hnodup : (g.map TargetNode.name).Nodup)
    (seed : List String)
    (hseed : seed.Perm
      ((g.filter (fun n => n.dependencies.isEmpty)).map TargetNode.name)) :
    kahn_inv g
      ⟨g.map (fun n => (n.name, n.dependencies.length)), seed, []⟩ := by
  have hfil_nodup :
      ((g.filter (fun n => n.dependencies.isEmpty)).map TargetNode.name).Nodup :=
    List.Nodup.sublist (List.Sublist.map _ (List.filter_sublist g)) hnodup
  have hseed_mem : ∀ x, x ∈ seed ↔
      ∃ n ∈ g, n.dependencies = [] ∧ n.name = x := by
    intro x
    rw [hseed.mem_iff, List.mem_map]
    constructor
    · rintro ⟨n, hn, rfl⟩
      rw [List.mem_filter] at hn
      exact ⟨n, hn.1, by simpa using hn.2, rfl⟩
    · rintro ⟨n, hn, hdeps, rfl⟩
      exact ⟨n, List.mem_filter.mpr ⟨hn, by simp [hdeps]⟩, rfl⟩
  refine ⟨?_, ?_, ?_, ?_, ?_, ?_, trivial⟩
  · intro x hx; cases hx
  · show (([] : List TargetNode).map TargetNode.name ++ seed).Nodup
    rw [List.map_nil, List.nil_append]
    exact hseed.nodup_iff.mpr hfil_nodup
  · intro x hx
    obtain ⟨n, hn, _, rfl⟩ := (hseed_mem x).mp hx
    exact List.mem_map_of_mem TargetNode.name hn
  · exact alookup_mem_of_isSome g _
  · intro n hn
    show alookup (g.map (fun m => (m.name, m.dependencies.length))) n.name =
      some (n.dependencies.countP
        (fun d => d ∉ ([] : List TargetNode).map TargetNode.name))
    rw [alookup_init g _ hnodup n hn]
    congr 1
    rw [eq_comm, List.countP_eq_length]
    intro d _
    simp
  · intro n hn
    show (n.name ∈ ([] : List TargetNode).map TargetNode.name ∨
        n.name ∈ seed) ↔
      n.dependencies.countP
        (fun d => d ∉ ([] : List TargetNode).map TargetNode.name) = 0
    rw [List.map_nil]
    have hcp : n.dependencies.countP
        (fun d => d ∉ ([] : List String)) = n.dependencies.length := by
      rw [List.countP_eq_length]
      intro d _
      simp
    rw [hcp]
    constructor
    · rintro (h | h)
      · cases h
      · obtain ⟨m, hm, hdeps, hname⟩ := (hseed_mem n.name).mp h
        have : m = n := name_inj g hnodup m n hm hn hname
        subst this
        rw [hdeps]
        rfl
    · intro h
      refine Or.inr ((hseed_mem n.name).mpr ⟨n, hn, ?_, rfl⟩)
      exact List.length_eq_zero.mp h

/-- With enough fuel, the loop runs to an empty queue while preserving the
invariant. -/
theorem topo_loop_total (g : Graph) (dm : List (String × List String))
    (hnodup : (g.map TargetNode.name).Nodup) (hdm : dependents_ok g dm) :
    ∀ (fuel : Nat) (st : KahnState), kahn_inv g st →
      g.length ≤ fuel + st.result.length →
      ∃ st', topo_loop g dm fuel st = .ok st' ∧ kahn_inv g st' ∧
        st'.queue = [] := by
  intro fuel
  induction fuel with
  | zero =>
      intro st hinv hbound
      have hsub : ∀ x ∈ st.result.map TargetNode.name,
          x ∈ g.map TargetNode.name := by
        intro x hx
        rw [List.mem_map] at hx
        obtain ⟨n, hn, rfl⟩ := hx
        exact List.mem_map_of_mem TargetNode.name (hinv.1 n hn)
      have hnd : (st.result.map TargetNode.name).Nodup :=
        (List.nodup_append.mp hinv.2.1).1
      have hlen : st.result.length = g.length := by
        have h1 : (st.result.map TargetNode.name).length ≤
            (g.map TargetNode.name).length :=
          List.Subperm.length_le (List.subperm_of_subset hnd hsub)
        rw [List.length_map, List.length_map] at h1
        omega
      have hperm : (st.result.map TargetNode.name).Perm
          (g.map TargetNode.name) := by
        refine List.Subperm.perm_of_length_le
          (List.subperm_of_subset hnd hsub) ?_
        rw [List.length_map, List.length_map]
        omega
      have hqe : st.queue = [] := by
        cases hqq : st.queue with
        | nil => rfl
        | cons x xs =>
            exfalso
            have hxk : x ∈ g.map TargetNode.name := by
              refine hinv.2.2.1 x ?_
              rw [hqq]
              exact List.mem_cons_self _ _
            have hxp : x ∈ st.result.map TargetNode.name :=
              hperm.mem_iff.mpr hxk
            have hdisj := List.disjoint_of_nodup_append hinv.2.1
            refine hdisj hxp ?_
            rw [hqq]
            exact List.mem_cons_self _ _
      exact ⟨st, rfl, hinv, hqe⟩
  | succ fuel ih =>
      intro st hinv hbound
      cases hqq : st.queue with
      | nil =>
          refine ⟨st, ?_, hinv, hqq⟩
          rw [topo_loop, hqq]
      | cons name qrest =>
          have hnk : name ∈ g.map TargetNode.name := by
            refine hinv.2.2.1 name ?_
            rw [hqq]
            exact List.mem_cons_self _ _
          obtain ⟨node, hlook⟩ := mem_names_lookup_isSome g name hnk
          have hinv' := kahn_step g dm hnodup hdm st hinv name qrest hqq
            node hlook
          have hbound' : g.length ≤ fuel +
              (st.result ++ [node]).length := by
            rw [List.length_append]
            simp only [List.length_singleton]
            omega
          obtain ⟨st', hloop, hinv'', hq'⟩ := ih _ hinv' hbound'
          refine ⟨st', ?_, hinv'', hq'⟩
          rw [topo_loop, hqq]
          show (match lookup_node g name with
            | none => Except.error (BuildError.topoMissingNode name)
            | some node =>
                topo_loop g dm fuel
                  ⟨(dec_children ((alookup dm name).getD [])
                      st.in_degree qrest).1,
                   (dec_children ((alookup dm name).getD [])
                      st.in_degree qrest).2,
                   st.result ++ [node]⟩) = Except.ok st'
          rw [hlook]
          exact hloop

theorem node_of_target_name (t : Target) :
    (node_of_target t).name = t.name := by
  cases t <;> rfl

/-- `build_nodes` appends exactly one node per target, in order. -/
theorem build_nodes_names :
    ∀ (targets : List Target) (acc g : Graph),
      build_nodes targets acc = .ok g →
      g.map TargetNode.name =
        acc.map TargetNode.name ++ targets.map Target.name := by
  intro targets
  induction targets with
  | nil =>
      intro acc g h
      rw [build_nodes] at h
      injection h with h
      subst h
      simp
  | cons t rest ih =>
      intro acc g h
      rw [build_nodes] at h
      by_cases hdup : (lookup_node acc t.name).isSome
      · rw [if_pos hdup] at h; cases h
      · rw [if_neg hdup] at h
        rw [ih _ _ h]
        simp [node_of_target_name]

/-- A key found by `lookup_node` is in the name list, and vice versa. -/
theorem lookup_node_none_notmem (g : Graph) (x : String)
    (h : (lookup_node g x).isSome = false) : x ∉ g.map TargetNode.name := by
  intro hc
  obtain ⟨node, hn⟩ := mem_names_lookup_isSome g x hc
  rw [hn] at h
  cases h

/-- The duplicate check of `build_nodes` keeps names distinct. -/
theorem build_nodes_nodup :
    ∀ (targets : List Target) (acc g : Graph),
      build_nodes targets acc = .ok g →
      (acc.map TargetNode.name).Nodup → (g.map TargetNode.name).Nodup := by
  intro targets
  induction targets with
  | nil =>
      intro acc g h hnd
      rw [build_nodes] at h
      injection h with h
      subst h
      exact hnd
  | cons t rest ih =>
      intro acc g h hnd
      rw [build_nodes] at h
      by_cases hdup : (lookup_node acc t.name).isSome
      · rw [if_pos hdup] at h; cases h
      · rw [if_neg hdup] at h
        refine ih _ _ h ?_
        rw [List.map_append, List.map_singleton, node_of_target_name]
        rw [List.nodup_append]
        refine ⟨hnd, List.nodup_singleton _, ?_⟩
        intro x hx hxc
        rw [List.mem_singleton] at hxc
        subst hxc
        exact lookup_node_none_notmem acc t.name (by simpa using hdup) hx

/-- A validated graph has only known names in dependency lists. -/
theorem validate_deps_from_ok (g : Graph) :
    ∀ (l : List TargetNode), validate_deps_from g l = .ok () →
      ∀ node ∈ l, ∀ d ∈ node.dependencies, (lookup_node g d).isSome := by
  intro l
  induction l with
  | nil => intro _ node hn; cases hn
  | cons x rest ih =>
      intro h node hn d hd
      rw [validate_deps_from] at h
      cases hf : x.dependencies.find? (fun d => (lookup_node g d).isNone) with
      | some d' => rw [hf] at h; cases h
      | none =>
          rw [hf] at h
          rcases List.mem_cons.mp hn with rfl | hn'
          · have hne := List.find?_eq_none.mp hf d hd
            cases hl : lookup_node g d with
            | none =>
                rw [hl] at hne
                exact absurd rfl hne
            | some nd => rfl
          · exact ih h node hn' d hd

theorem lookup_node_isSome_mem (g : Graph) (x : String)
    (h : (lookup_node g x).isSome = true) : x ∈ g.map TargetNode.name := by
  cases hl : lookup_node g x with
  | none => rw [hl] at h; cases h
  | some node =>
      obtain ⟨hmem, hname⟩ := lookup_node_spec g x node hl
      exact hname ▸ List.mem_map_of_mem TargetNode.name hmem

/-- On a validated graph, every followed dependency is a key. -/
theorem dep_list_mem_names (g : Graph)
    (hval : validate_dependencies g = .ok ()) :
    ∀ (x : String), ∀ d ∈ dep_list g x, d ∈ g.map TargetNode.name := by
  intro x d hd
  unfold dep_list at hd
  cases hl : lookup_node g x with
  | none => rw [hl] at hd; cases hd
  | some node =>
      rw [hl] at hd
      have hd' : d ∈ node.dependencies := hd
      exact lookup_node_isSome_mem g d
        (validate_deps_from_ok g g hval node
          (List.mem_of_find?_eq_some hl) d hd')

/-- Restricting a well-formed completion order to the keys keeps it
well-formed, when all followed dependencies are keys. -/
theorem perm_ok_filter (g : Graph)
    (hval : ∀ (x : String), ∀ d ∈ dep_list g x, d ∈ g.map TargetNode.name) :
    ∀ (l : List String), perm_ok g l →
      perm_ok g (l.filter (fun x => x ∈ g.map TargetNode.name)) := by
  intro l
  induction l with
  | nil => intro _; trivial
  | cons x rest ih =>
      rintro ⟨hx, hrest⟩
      rw [List.filter_cons]
      by_cases hk : x ∈ g.map TargetNode.name
      · rw [if_pos (by simpa using hk)]
        refine ⟨?_, ih hrest⟩
        intro d hd
        rw [List.mem_filter]
        exact ⟨hx d hd, by simpa using hval x d hd⟩
      · rw [if_neg (by simpa using hk)]
        exact ih hrest

/-- In a well-formed completion order, either everything is processed or
some unprocessed entry has all its dependencies processed. -/
theorem perm_ok_find_ready (g : Graph) (processedL : List String) :
    ∀ (l : List String), perm_ok g l →
      (∀ x ∈ l, x ∈ processedL) ∨
      ∃ u ∈ l, u ∉ processedL ∧ ∀ d ∈ dep_list g u, d ∈ processedL := by
  intro l
  induction l with
  | nil => intro _; exact Or.inl (by simp)
  | cons x rest ih =>
      rintro ⟨hx, hrest⟩
      rcases ih hrest with hall | ⟨u, hu, hunp, hud⟩
      · by_cases hxp : x ∈ processedL
        · refine Or.inl ?_
          intro y hy
          rcases List.mem_cons.mp hy with rfl | hy'
          · exact hxp
          · exact hall y hy'
        · refine Or.inr ⟨x, List.mem_cons_self _ _, hxp, ?_⟩
          intro d hd
          exact hall d (hx d hd)
      · exact Or.inr ⟨u, List.mem_cons_of_mem _ hu, hunp, hud⟩

/-- Converting the reverse-order invariant into the linearization shape. -/
theorem sorted_rev_linearizes (g : Graph) :
    ∀ (r : List TargetNode), sorted_rev g r →
      ∀ (r₁ : List TargetNode) (x : TargetNode) (r₂ : List TargetNode),
        r = r₁ ++ x :: r₂ → ∀ d ∈ x.dependencies,
          d ∈ r₂.map TargetNode.name := by
  intro r
  induction r with
  | nil =>
      intro _ r₁ x r₂ h
      exact absurd h.symm (List.append_ne_nil_of_right_ne_nil _ (by simp))
  | cons y rest ih =>
      rintro ⟨hy, hrest⟩ r₁ x r₂ h d hd
      cases r₁ with
      | nil =>
          injection h with h1 h2
          subst h1
          subst h2
          exact hy d hd
      | cons z r₁' =>
          injection h with h1 h2
          subst h1
          exact ih hrest r₁' x r₂ h2 d hd

/-! ## Claim C4: one node per target, and `topo_order` linearizes -/

/-- Claim C4: for every manifest accepted by `from_manifest`, the graph has
exactly one node per manifest target (same names, in order), and
`topo_order` succeeds — for every seed-queue order and dependents-map order —
returning every node exactly once with each node preceded by all its
dependencies. -/
theorem claim_C4_nodes_and_topo (m : ProjectManifest) (seeds : List String)
    (g : Graph) (h : from_manifest m seeds = .ok g)
    (hseeds : seeds.Perm (g.map TargetNode.name))
    (seed : List String)
    (hseed : seed.Perm
      ((g.filter (fun n => n.dependencies.isEmpty)).map TargetNode.name))
    (dm : List (String × List String)) (hdm : dependents_ok g dm) :
    g.map TargetNode.name = m.targets.map Target.name ∧
    ∃ l, topo_order g seed dm = .ok l ∧
      (l.map TargetNode.name).Perm (g.map TargetNode.name) ∧
      (∀ x ∈ l, x ∈ g) ∧
      ∀ (l₁ : List TargetNode) (x : TargetNode) (l₂ : List TargetNode),
        l = l₁ ++ x :: l₂ → ∀ d ∈ x.dependencies,
          d ∈ l₁.map TargetNode.name := by
  obtain ⟨hb, hv, hc⟩ := from_manifest_ok_parts m seeds g h
  have hnames := build_nodes_names m.targets [] g hb
  rw [List.map_nil, List.nil_append] at hnames
  have hnodup : (g.map TargetNode.name).Nodup :=
    build_nodes_nodup m.targets [] g hb (by simp)
  refine ⟨hnames, ?_⟩
  obtain ⟨p', hnd_p, hpo_p, _, hall_p⟩ :=
    check_cycles_from_ok_props g seeds [] List.nodup_nil trivial hc
  have hkeys_p : ∀ x ∈ g.map TargetNode.name, x ∈ p' := fun x hx =>
    hall_p x (hseeds.mem_iff.mpr hx)
  obtain ⟨st', hloop, hinv', hq'⟩ :=
    topo_loop_total g dm hnodup hdm g.length
      ⟨g.map (fun n => (n.name, n.dependencies.length)), seed, []⟩
      (kahn_init g hnodup seed hseed) (by simp)
  obtain ⟨i1, i2, i3, i4, i5, i6, i7⟩ := hinv'
  have hcompl : ∀ n ∈ g, n.name ∈ st'.result.map TargetNode.name := by
    by_contra hcon
    push_neg at hcon
    obtain ⟨n, hn, hnp⟩ := hcon
    have hpo_f := perm_ok_filter g (dep_list_mem_names g hv) p' hpo_p
    rcases perm_ok_find_ready g (st'.result.map TargetNode.name) _ hpo_f with
      hall | ⟨u, hu, hunp, hud⟩
    · refine hnp (hall n.name ?_)
      rw [List.mem_filter]
      refine ⟨hkeys_p _ (List.mem_map_of_mem _ hn), ?_⟩
      simpa using List.mem_map_of_mem TargetNode.name hn
    · have huk : u ∈ g.map TargetNode.name := by
        have := (List.mem_filter.mp hu).2
        simpa using this
      obtain ⟨nu, hnu⟩ := mem_names_lookup_isSome g u huk
      obtain ⟨hnu_mem, hnu_name⟩ := lookup_node_spec g u nu hnu
      have hdl : dep_list g u = nu.dependencies := by
        unfold dep_list
        rw [hnu]
        rfl
      have hcp : nu.dependencies.countP
          (fun d => d ∉ st'.result.map TargetNode.name) = 0 := by
        rw [List.countP_eq_zero]
        intro d hd
        have := hud d (by rw [hdl]; exact hd)
        simpa using this
      have h6 := i6 nu hnu_mem
      rw [hnu_name] at h6
      have hmem := h6.mpr hcp
      rw [hq'] at hmem
      rcases hmem with hP | hQ
      · exact hunp hP
      · cases hQ
  have hsub : ∀ x ∈ st'.result.map TargetNode.name,
      x ∈ g.map TargetNode.name := by
    intro x hx
    rw [List.mem_map] at hx
    obtain ⟨n, hn, rfl⟩ := hx
    exact List.mem_map_of_mem TargetNode.name (i1 n hn)
  have hsup : ∀ x ∈ g.map TargetNode.name,
      x ∈ st'.result.map TargetNode.name := by
    intro x hx
    rw [List.mem_map] at hx
    obtain ⟨n, hn, rfl⟩ := hx
    exact hcompl n hn
  have hnd_res : (st'.result.map TargetNode.name).Nodup :=
    (List.nodup_append.mp i2).1
  have hperm : (st'.result.map TargetNode.name).Perm
      (g.map TargetNode.name) :=
    List.Subperm.antisymm (List.subperm_of_subset hnd_res hsub)
      (List.subperm_of_subset hnodup hsup)
  have hlen : st'.result.length = g.length := by
    have := hperm.length_eq
    rw [List.length_map, List.length_map] at this
    exact this
  refine ⟨st'.result, ?_, hperm, i1, ?_⟩
  · unfold topo_order
    rw [hloop]
    show (if st'.result.length = g.length then Except.ok st'.result
      else Except.error BuildError.topoCycle) = Except.ok st'.result
    rw [if_pos hlen]
  · intro l₁ x l₂ hsplit d hd
    have hrev : st'.result.reverse = l₂.reverse ++ (x :: l₁.reverse) := by
      rw [hsplit, List.reverse_append, List.reverse_cons, List.append_assoc]
      rfl
    have := sorted_rev_linearizes g _ i7 l₂.reverse x l₁.reverse hrev d hd
    rw [List.map_reverse, List.mem_reverse] at this
    exact this

/-- A two-target manifest for the C4 witness. -/
def m_c4w : ProjectManifest :=
  ⟨"demo", none,
    [.executable "app" ["main.c"] ["core"],
     .static_library "core" ["core.c"] []]⟩

/-- The graph built from `m_c4w`. -/
def g_c4w : Graph :=
  [⟨"app", .Executable, ["main.c"], ["core"], ["app"], none⟩,
   ⟨"core", .StaticLibrary, ["core.c"], [], ["libcore.a"], none⟩]

/-- A dependents map for `g_c4w` as `topo_order` would build it. -/
def dm_c4w : List (String × List String) := [("core", ["app"])]

theorem dm_c4w_ok : dependents_ok g_c4w dm_c4w := by
  intro d c
  by_cases hc1 : c = "app"
  · subst hc1
    by_cases hd1 : d = "core"
    · subst hd1; rfl
    · have hl : alookup dm_c4w d = none := by
        unfold alookup dm_c4w
        rw [List.find?_cons]
        have hne : (decide ((("core", ["app"]) : String × List String).1 = d))
            = false := by
          simp
          exact fun hcc => hd1 hcc.symm
        rw [hne]
        rfl
      rw [hl]
      show (0 : Nat) = _
      have : (([⟨"app", .Executable, ["main.c"], ["core"], ["app"],
          none⟩, ⟨"core", .StaticLibrary, ["core.c"], [], ["libcore.a"],
          none⟩] : Graph).find? (fun n => n.name = "app")) =
          some ⟨"app", .Executable, ["main.c"], ["core"], ["app"], none⟩ :=
        rfl
      show (0 : Nat) = ((lookup_node g_c4w "app").map
        (fun n => n.dependencies.count d)).getD 0
      rw [show lookup_node g_c4w "app" =
        some ⟨"app", .Executable, ["main.c"], ["core"], ["app"], none⟩
        from rfl]
      show (0 : Nat) = (["core"] : List String).count d
      rw [eq_comm, List.count_eq_zero]
      intro hcc
      rw [List.mem_singleton] at hcc
      exact hd1 hcc
  · by_cases hc2 : c = "core"
    · subst hc2
      by_cases hd1 : d = "core"
      · subst hd1; rfl
      · have hl : alookup dm_c4w d = none := by
          unfold alookup dm_c4w
          rw [List.find?_cons]
          have hne : (decide ((("core", ["app"]) : String × List String).1
              = d)) = false := by
            simp
            exact fun hcc => hd1 hcc.symm
          rw [hne]
          rfl
        rw [hl]
        show (0 : Nat) = (([] : List String)).count d
        rfl
    · have hl2 : lookup_node g_c4w c = none := by
        unfold lookup_node g_c4w
        rw [List.find?_cons]
        have h1 : (decide ((⟨"app", .Executable, ["main.c"], ["core"],
            ["app"], none⟩ : TargetNode).name = c)) = false := by
          simp
          exact fun hcc => hc1 hcc.symm
        rw [h1, List.find?_cons]
        have h2 : (decide ((⟨"core", .StaticLibrary, ["core.c"], [],
            ["libcore.a"], none⟩ : TargetNode).name = c)) = false := by
          simp
          exact fun hcc => hc2 hcc.symm
        rw [h2]
        rfl
      rw [hl2]
      show ((alookup dm_c4w d).getD []).count c = 0
      rw [List.count_eq_zero]
      intro hcc
      by_cases hd1 : d = "core"
      · subst hd1
        rw [show (alookup dm_c4w "core").getD [] = ["app"] from rfl] at hcc
        rw [List.mem_singleton] at hcc
        exact hc1 hcc
      · have hl : alookup dm_c4w d = none := by
          unfold alookup dm_c4w
          rw [List.find?_cons]
          have hne : (decide ((("core", ["app"]) : String × List String).1
              = d)) = false := by
            simp
            exact fun hcc2 => hd1 hcc2.symm
          rw [hne]
          rfl
        rw [hl] at hcc
        cases hcc

/-- Witness for `claim_C4_nodes_and_topo` on a concrete manifest. -/
theorem claim_C4_witness :
    g_c4w.map TargetNode.name = m_c4w.targets.map Target.name ∧
    ∃ l, topo_order g_c4w ["core"] dm_c4w = .ok l ∧
      (l.map TargetNode.name).Perm (g_c4w.map TargetNode.name) ∧
      (∀ x ∈ l, x ∈ g_c4w) ∧
      ∀ (l₁ : List TargetNode) (x : TargetNode) (l₂ : List TargetNode),
        l = l₁ ++ x :: l₂ → ∀ d ∈ x.dependencies,
          d ∈ l₁.map TargetNode.name :=
  claim_C4_nodes_and_topo m_c4w ["app", "core"] g_c4w rfl
    (by decide) ["core"] (by decide) dm_c4w dm_c4w_ok

/-! ## Parallel executor: `BuildExecutor::execute` (src/executor/mod.rs)

The executor is embedded as a small-step transition system.  One coordinator
(the caller's thread) and the worker threads communicate over the unbounded
task and completion channels, modelled as FIFO buffers (send appends, recv
takes the head).  A worker's recv + `dep_outputs` snapshot + action run is
one atomic step: between the real recv and the lock acquisition only
`produced` can change, and only by insertions of names that are never
dependencies of an already-dispatched node, so the snapshot is unaffected
(this is proven as part of the invariant, which shows every dependency of a
dispatched node is already in `produced`).  The action itself is a pure
function of the node and the snapshot; a `panic` outcome makes the worker
thread die, dropping its channel handles without posting a completion. -/

deriving instance DecidableEq for Except

/-- Result of one action invocation. -/
inductive ActRes where
  | ok (outs : List Path)
  | err (e : String)
  | panic
deriving DecidableEq, Repr

/-- The user-supplied per-node action `run_node`. -/
abbrev Action := TargetNode → List Path → ActRes

/-- A worker thread: blocked on `task_rx.recv()`, holding a computed result
about to be posted on the completion channel, or exited (its channel clones
dropped); `dead true` means it exited by panic. -/
inductive WStatus where
  | idle
  | ready (name : String) (res : Except String (List Path))
  | dead (panicked : Bool)
deriving DecidableEq, Repr

inductive ExecErr where
  | action (e : String)
  | chanClosed
  | workerPanicked
  | incomplete (total finished : Nat)
  | enqueueFailed
deriving DecidableEq, Repr

/-- Where the coordinator is: sending the initially ready tasks (the listed
names are still unsent), inside the completion loop, after the loop (task
sender dropped, joining workers), or returned. -/
inductive Phase where
  | seed (p : List String)
  | run
  | join
  | done (r : Except ExecErr (List (String × List Path)))
deriving DecidableEq, Repr

structure ExecState where
  queue : List String
  taskOpen : Bool
  doneBuf : List (String × Except String (List Path))
  workers : List WStatus
  produced : List (String × List Path)
  inDeg : List (String × Nat)
  dmap : List (String × List String)
  remaining : Nat
  firstError : Option ExecErr
  phase : Phase
  invoked : List (String × List Path)
deriving Repr

/-- The `dep_outputs` snapshot a worker takes under the `produced` mutex. -/
def dep_snapshot (node : TargetNode) (produced : List (String × List Path)) :
    List Path :=
  node.dependencies.flatMap (fun d => (alookup produced d).getD [])

/-- `HashMap::insert` on the produced-outputs map. -/
def ainsert {β : Type} (l : List (String × β)) (k : String) (v : β) :
    List (String × β) :=
  if (alookup l k).isSome then aset l k v else (k, v) :: l

/-- `HashMap::remove` on the dependents map. -/
def aremove {β : Type} (l : List (String × β)) (k : String) :
    List (String × β) :=
  l.filter (fun p => ¬ p.1 = k)

/-- The coordinator's decrement-and-dispatch loop over one completion's
dependents (`if *degree > 0 { *degree -= 1 } if *degree == 0 { send }`);
dispatched children are appended to the task channel in loop order. -/
def send_ready : List String → List (String × Nat) → List String →
    List (String × Nat) × List String
  | [], indeg, queue => (indeg, queue)
  | c :: rest, indeg, queue =>
      match alookup indeg c with
      | none => send_ready rest indeg queue
      | some deg =>
          let deg' := if 0 < deg then deg - 1 else deg
          if deg' = 0 then send_ready rest (aset indeg c deg') (queue ++ [c])
          else send_ready rest (aset indeg c deg') queue

/-- What `execute` returns once all workers are joined. -/
def exec_outcome (total : Nat) (s : ExecState) :
    Except ExecErr (List (String × List Path)) :=
  if s.workers.any (fun w => w = .dead true) then .error .workerPanicked
  else
    match s.firstError with
    | some e => .error e
    | none =>
        if s.produced.length = total then .ok s.produced
        else .error (.incomplete total s.produced.length)

/-- All worker threads have exited. -/
def all_dead (ws : List WStatus) : Prop :=
  ∀ w ∈ ws, ∃ b, w = WStatus.dead b

/-- The transitions of one `execute` call on graph `g` with action `act`. -/
inductive Step (g : Graph) (act : Action) : ExecState → ExecState → Prop where
  | wTakeOk (s : ExecState) (i : Nat) (n : String) (rest : List String)
      (node : TargetNode) (outs : List Path)
      (hw : s.workers.get? i = some .idle)
      (hq : s.queue = n :: rest)
      (hn : lookup_node g n = some node)
      (hact : act node (dep_snapshot node s.produced) = .ok outs) :
      Step g act s
        { s with queue := rest,
                 workers := s.workers.set i
                   (.ready n (.ok outs)),
                 invoked := s.invoked ++ [(n, dep_snapshot node s.produced)] }
  | wTakeErr (s : ExecState) (i : Nat) (n : String) (rest : List String)
      (node : TargetNode) (e : String)
      (hw : s.workers.get? i = some .idle)
      (hq : s.queue = n :: rest)
      (hn : lookup_node g n = some node)
      (hact : act node (dep_snapshot node s.produced) = .err e) :
      Step g act s
        { s with queue := rest,
                 workers := s.workers.set i (.ready n (.error e)),
                 invoked := s.invoked ++ [(n, dep_snapshot node s.produced)] }
  | wTakePanic (s : ExecState) (i : Nat) (n : String) (rest : List String)
      (node : TargetNode)
      (hw : s.workers.get? i = some .idle)
      (hq : s.queue = n :: rest)
      (hn : lookup_node g n = some node)
      (hact : act node (dep_snapshot node s.produced) = .panic) :
      Step g act s
        { s with queue := rest,
                 workers := s.workers.set i (.dead true),
                 invoked := s.invoked ++ [(n, dep_snapshot node s.produced)] }
  | wTakeUnknown (s : ExecState) (i : Nat) (n : String) (rest : List String)
      (hw : s.workers.get? i = some .idle)
      (hq : s.queue = n :: rest)
      (hn : lookup_node g n = none) :
      Step g act s
        { s with queue := rest,
                 workers := s.workers.set i
                   (.ready n (.error "Unknown node")) }
  | wSend (s : ExecState) (i : Nat) (n : String)
      (res : Except String (List Path))
      (hw : s.workers.get? i = some (.ready n res)) :
      Step g act s
        { s with doneBuf := s.doneBuf ++ [(n, res)],
                 workers := s.workers.set i .idle }
  | wExit (s : ExecState) (i : Nat)
      (hw : s.workers.get? i = some .idle)
      (hq : s.queue = [])
      (hc : s.taskOpen = false) :
      Step g act s { s with workers := s.workers.set i (.dead false) }
  | cRecvOk (s : ExecState) (n : String) (outs : List Path)
      (rest : List (String × Except String (List Path))) (rem : Nat)
      (hp : s.phase = .run)
      (hd : s.doneBuf = (n, .ok outs) :: rest)
      (hr : s.remaining = rem + 1) :
      Step g act s
        { s with doneBuf := rest,
                 produced := ainsert s.produced n outs,
                 inDeg := (send_ready ((alookup s.dmap n).getD [])
                   s.inDeg s.queue).1,
                 queue := (send_ready ((alookup s.dmap n).getD [])
                   s.inDeg s.queue).2,
                 dmap := aremove s.dmap n,
                 remaining := rem,
                 phase := if rem = 0 then .join else .run,
                 taskOpen := if rem = 0 then false else s.taskOpen }
  | cRecvErr (s : ExecState) (n : String) (e : String)
      (rest : List (String × Except String (List Path)))
      (hp : s.phase = .run)
      (hd : s.doneBuf = (n, .error e) :: rest) :
      Step g act s
        { s with doneBuf := rest,
                 firstError := some (.action e),
                 phase := .join,
                 taskOpen := false }
  | cRecvClosed (s : ExecState)
      (hp : s.phase = .run)
      (hd : s.doneBuf = [])
      (hw : all_dead s.workers) :
      Step g act s
        { s with firstError := some .chanClosed,
                 phase := .join,
                 taskOpen := false }
  | cJoin (s : ExecState)
      (hp : s.phase = .join)
      (hw : all_dead s.workers) :
      Step g act s { s with phase := .done (exec_outcome g.length s) }
  | cSeedSend (s : ExecState) (x : String) (rest : List String)
      (hp : s.phase = .seed (x :: rest)) :
      Step g act s { s with queue := s.queue ++ [x], phase := .seed rest }
  | cSeedFail (s : ExecState) (x : String) (rest : List String)
      (hp : s.phase = .seed (x :: rest))
      (hdead : all_dead s.workers) :
      Step g act s
        { s with phase := .done (.error .enqueueFailed), taskOpen := false }
  | cSeedDone (s : ExecState)
      (hp : s.phase = .seed []) :
      Step g act s
        { s with phase := if s.remaining = 0 then .join else .run,
                 taskOpen := if s.remaining = 0 then false else s.taskOpen }
  | cRecvSendFail (s : ExecState) (n : String) (outs : List Path)
      (rest : List (String × Except String (List Path))) (rem : Nat)
      (hp : s.phase = .run)
      (hd : s.doneBuf = (n, .ok outs) :: rest)
      (hr : s.remaining = rem + 1)
      (hdead : all_dead s.workers)
      (hnz : (send_ready ((alookup s.dmap n).getD [])
        s.inDeg s.queue).2 ≠ s.queue) :
      Step g act s
        { s with doneBuf := rest,
                 produced := ainsert s.produced n outs,
                 inDeg := (send_ready ((alookup s.dmap n).getD [])
                   s.inDeg s.queue).1,
                 queue := (send_ready ((alookup s.dmap n).getD [])
                   s.inDeg s.queue).2,
                 dmap := aremove s.dmap n,
                 phase := .done (.error .enqueueFailed),
                 taskOpen := false }

/-- The state of `execute` after building the bookkeeping maps and spawning
the workers, about to send the initially ready tasks one by one.  The seed
order and the per-key order of the dependents map come from unspecified
`HashMap` iteration orders and are parameters. -/
def init_state (g : Graph) (seeds : List String)
    (dm : List (String × List String)) (W : Nat) : ExecState :=
  { queue := []
    taskOpen := true
    doneBuf := []
    workers := List.replicate W .idle
    produced := []
    inDeg := g.map (fun n => (n.name, n.dependencies.length))
    dmap := dm
    remaining := g.length
    firstError := none
    phase := .seed seeds
    invoked := [] }

/-- Reachability from the initial state. -/
def ExecReach (g : Graph) (act : Action) (seeds : List String)
    (dm : List (String × List String)) (W : Nat) (s : ExecState) : Prop :=
  Relation.ReflTransGen (Step g act) (init_state g seeds dm W) s

/-! ### Executor bookkeeping lemmas -/

theorem alookup_cons {β : Type} (l : List (String × β)) (k x : String)
    (v : β) :
    alookup ((k, v) :: l) x = if x = k then some v else alookup l x := by
  unfold alookup
  rw [List.find?_cons]
  by_cases h : x = k
  · subst h
    rw [if_pos rfl]
    have : (decide (((x, v) : String × β).1 = x)) = true := by simp
    rw [this]
    rfl
  · rw [if_neg h]
    have : (decide (((k, v) : String × β).1 = x)) = false := by
      simp
      exact fun hc => h hc.symm
    rw [this]

theorem aremove_cons_eq {β : Type} (rest : List (String × β)) (k0 k : String)
    (v0 : β) (hk : k0 = k) :
    aremove ((k0, v0) :: rest) k = aremove rest k := by
  simp [aremove, List.filter_cons, hk]

theorem aremove_cons_ne {β : Type} (rest : List (String × β)) (k0 k : String)
    (v0 : β) (hk : ¬ k0 = k) :
    aremove ((k0, v0) :: rest) k = (k0, v0) :: aremove rest k := by
  simp [aremove, List.filter_cons, hk]

theorem ainsert_fresh {β : Type} (l : List (String × β)) (k : String) (v : β)
    (h : alookup l k = none) : ainsert l k v = (k, v) :: l := by
  unfold ainsert
  rw [h]
  rfl

theorem aremove_lookup {β : Type} :
    ∀ (l : List (String × β)) (k x : String), x ≠ k →
      alookup (aremove l k) x = alookup l x := by
  intro l
  induction l with
  | nil => intro k x _; rfl
  | cons p rest ih =>
      intro k x hx
      obtain ⟨k0, v0⟩ := p
      by_cases hk : k0 = k
      · rw [aremove_cons_eq rest k0 k v0 hk]
        subst hk
        rw [alookup_cons rest k0 x v0]
        rw [if_neg hx]
        exact ih k0 x hx
      · rw [aremove_cons_ne rest k0 k v0 hk]
        rw [alookup_cons (aremove rest k) k0 x v0,
          alookup_cons rest k0 x v0]
        by_cases hxk : x = k0
        · rw [if_pos hxk, if_pos hxk]
        · rw [if_neg hxk, if_neg hxk]
          exact ih k x hx

theorem flatMap_congr_mem {α β : Type} (f1 f2 : α → List β) :
    ∀ (l : List α), (∀ a ∈ l, f1 a = f2 a) → l.flatMap f1 = l.flatMap f2 := by
  intro l
  induction l with
  | nil => intro _; rfl
  | cons a rest ih =>
      intro h
      rw [List.flatMap_cons, List.flatMap_cons,
        h a (List.mem_cons_self _ _),
        ih (fun b hb => h b (List.mem_cons_of_mem _ hb))]

/-- Inserting a name that is no dependency of `node` leaves its
`dep_outputs` snapshot unchanged. -/
theorem dep_snapshot_insert (node : TargetNode)
    (produced : List (String × List Path)) (n : String) (outs : List Path)
    (hdeps : ∀ d ∈ node.dependencies, (alookup produced d).isSome = true)
    (hfresh : alookup produced n = none) :
    dep_snapshot node ((n, outs) :: produced) = dep_snapshot node produced := by
  unfold dep_snapshot
  refine flatMap_congr_mem _ _ _ ?_
  intro d hd
  rw [alookup_cons]
  have hdn : d ≠ n := by
    intro hc
    subst hc
    have h := hdeps d hd
    rw [hfresh] at h
    simp at h
  rw [if_neg hdn]

/-- Decrementing accounting against a fresh insertion into `produced`. -/
theorem countP_alookup_insert (produced : List (String × List Path))
    (n : String) (outs : List Path) (hfresh : alookup produced n = none) :
    ∀ l : List String,
      l.countP (fun d => (alookup ((n, outs) :: produced) d).isNone) +
        l.count n =
        l.countP (fun d => (alookup produced d).isNone) := by
  intro l
  induction l with
  | nil => simp
  | cons d rest ihl =>
      rw [List.countP_cons, List.countP_cons, List.count_cons]
      by_cases hd : d = n
      · subst hd
        have h1 : ((alookup ((d, outs) :: produced) d).isNone) = false := by
          rw [alookup_cons, if_pos rfl]
          rfl
        have h2 : ((alookup produced d).isNone) = true := by
          rw [hfresh]
          rfl
        have h3 : (d == d) = true := by simp
        rw [h1, h2, h3, ite_false_true_nat, ite_true_true_nat]
        omega
      · have h1 : (alookup ((n, outs) :: produced) d) = alookup produced d := by
          rw [alookup_cons, if_neg hd]
        have h2 : (d == n) = false := by simpa using hd
        rw [h1, h2, ite_false_true_nat]
        omega

/-- Replacing one worker slot shifts the ready-count by the difference of
the two slots. -/
theorem countP_set_workers (p : WStatus → Bool) :
    ∀ (ws : List WStatus) (i : Nat) (a b : WStatus),
      ws.get? i = some a →
      (ws.set i b).countP p + (if p a then 1 else 0) =
        ws.countP p + (if p b then 1 else 0) := by
  intro ws
  induction ws with
  | nil => intro i a b h; cases h
  | cons w rest ih =>
      intro i a b h
      cases i with
      | zero =>
          injection h with h
          subst h
          rw [List.set_cons_zero, List.countP_cons, List.countP_cons]
          omega
      | succ i' =>
          rw [List.set_cons_succ, List.countP_cons, List.countP_cons]
          have := ih i' a b h
          omega

/-- `send_ready` analogue of `dec_children_spec`: degrees drop by the
multiplicity, the newly dispatched tasks are appended in order, each is
dispatched once, and they are exactly the keys whose degree equals its
positive multiplicity. -/
theorem send_ready_spec :
    ∀ (children : List String) (indeg : List (String × Nat))
      (queue : List String),
      (∀ c deg, alookup indeg c = some deg → children.count c ≤ deg) →
      (∀ c, alookup (send_ready children indeg queue).1 c =
        (alookup indeg c).map (fun deg => deg - children.count c)) ∧
      ∃ newz, (send_ready children indeg queue).2 = queue ++ newz ∧
        newz.Nodup ∧
        ∀ x, x ∈ newz ↔
          alookup indeg x = some (children.count x) ∧
            0 < children.count x := by
  intro children
  induction children with
  | nil =>
      intro indeg queue _
      refine ⟨fun c => by simp [send_ready], [], by simp [send_ready],
        List.nodup_nil, ?_⟩
      intro x
      simp
  | cons c rest ih =>
      intro indeg queue hge
      cases hc : alookup indeg c with
      | none =>
          rw [show send_ready (c :: rest) indeg queue =
            send_ready rest indeg queue by rw [send_ready, hc]]
          have hge' : ∀ c' deg, alookup indeg c' = some deg →
              rest.count c' ≤ deg := by
            intro c' deg h
            refine le_trans ?_ (hge c' deg h)
            rw [List.count_cons]
            exact Nat.le_add_right _ _
          obtain ⟨ha, newz, hq, hnd, hchar⟩ := ih indeg queue hge'
          refine ⟨?_, newz, hq, hnd, ?_⟩
          · intro c'
            rw [ha c']
            by_cases hcc : c' = c
            · subst hcc; rw [hc]; rfl
            · have : (c :: rest).count c' = rest.count c' := by
                rw [List.count_cons]
                simp [Ne.symm hcc]
              rw [this]
          · intro x
            rw [hchar x]
            by_cases hxc : x = c
            · subst hxc
              rw [hc]
              constructor
              · rintro ⟨h, _⟩; cases h
              · rintro ⟨h, _⟩; cases h
            · have : (c :: rest).count x = rest.count x := by
                rw [List.count_cons]
                simp [Ne.symm hxc]
              rw [this]
      | some deg =>
          have hcount : (c :: rest).count c = rest.count c + 1 := by
            rw [List.count_cons]
            simp
          have hdeg1 : rest.count c + 1 ≤ deg := by
            rw [← hcount]
            exact hge c deg hc
          have hguard : (if 0 < deg then deg - 1 else deg) = deg - 1 := by
            rw [if_pos (by omega)]
          have hge' : ∀ c' deg', alookup (aset indeg c (deg - 1)) c' =
              some deg' → rest.count c' ≤ deg' := by
            intro c' deg' h
            rw [alookup_aset] at h
            by_cases hcc : c' = c
            · rw [if_pos hcc, hc] at h
              injection h with h
              rw [hcc, ← h]
              show List.count c rest ≤ deg - 1
              omega
            · rw [if_neg hcc] at h
              refine le_trans ?_ (hge c' deg' h)
              rw [List.count_cons]
              simp [Ne.symm hcc]
          by_cases hz : deg - 1 = 0
          · rw [show send_ready (c :: rest) indeg queue =
              send_ready rest (aset indeg c (deg - 1)) (queue ++ [c]) by
                rw [send_ready, hc]
                simp only [hguard]
                rw [if_pos hz]]
            obtain ⟨ha, newz, hq, hnd, hchar⟩ :=
              ih (aset indeg c (deg - 1)) (queue ++ [c]) hge'
            have hrc0 : rest.count c = 0 := by omega
            have hcnotin : c ∉ newz := by
              intro hx
              have hmm := (hchar c).mp hx
              rw [alookup_aset, if_pos rfl, hc,
                show (some deg).map (fun _ => deg - 1) = some (deg - 1)
                  from rfl, Option.some.injEq] at hmm
              omega
            refine ⟨?_, c :: newz, ?_, ?_, ?_⟩
            · intro c'
              rw [ha c', alookup_aset]
              by_cases hcc : c' = c
              · subst hcc
                rw [if_pos rfl, hc, hcount]
                simp
                omega
              · rw [if_neg hcc]
                have : (c :: rest).count c' = rest.count c' := by
                  rw [List.count_cons]
                  simp [Ne.symm hcc]
                rw [this]
            · rw [hq, List.append_assoc]
              rfl
            · exact List.nodup_cons.mpr ⟨hcnotin, hnd⟩
            · intro x
              rw [List.mem_cons, hchar x, alookup_aset]
              by_cases hxc : x = c
              · subst hxc
                rw [if_pos rfl, hc,
                  show (some deg).map (fun _ => deg - 1) = some (deg - 1)
                    from rfl, hcount]
                have hdeq : deg = 1 := by omega
                constructor
                · intro _
                  refine ⟨?_, by omega⟩
                  rw [hdeq, hrc0]
                · intro _
                  exact Or.inl rfl
              · rw [if_neg hxc]
                have : (c :: rest).count x = rest.count x := by
                  rw [List.count_cons]
                  simp [Ne.symm hxc]
                rw [this]
                constructor
                · rintro (h | h)
                  · exact absurd h hxc
                  · exact h
                · intro h
                  exact Or.inr h
          · rw [show send_ready (c :: rest) indeg queue =
              send_ready rest (aset indeg c (deg - 1)) queue by
                rw [send_ready, hc]
                simp only [hguard]
                rw [if_neg hz]]
            obtain ⟨ha, newz, hq, hnd, hchar⟩ :=
              ih (aset indeg c (deg - 1)) queue hge'
            refine ⟨?_, newz, hq, hnd, ?_⟩
            · intro c'
              rw [ha c', alookup_aset]
              by_cases hcc : c' = c
              · subst hcc
                rw [if_pos rfl, hc, hcount]
                simp
                omega
              · rw [if_neg hcc]
                have : (c :: rest).count c' = rest.count c' := by
                  rw [List.count_cons]
                  simp [Ne.symm hcc]
                rw [this]
            · intro x
              rw [hchar x, alookup_aset]
              by_cases hxc : x = c
              · subst hxc
                rw [if_pos rfl, hc,
                  show (some deg).map (fun _ => deg - 1) = some (deg - 1)
                    from rfl, hcount, Option.some.injEq, Option.some.injEq]
                constructor
                · rintro ⟨h1, h2⟩
                  refine ⟨?_, ?_⟩ <;> omega
                · rintro ⟨h1, h2⟩
                  refine ⟨?_, ?_⟩ <;> omega
              · rw [if_neg hxc]
                have : (c :: rest).count x = rest.count x := by
                  rw [List.count_cons]
                  simp [Ne.symm hxc]
                rw [this]

theorem alookup_isSome_mem_keys {β : Type} :
    ∀ (l : List (String × β)) (x : String),
      (alookup l x).isSome = true → x ∈ l.map Prod.fst := by
  intro l
  induction l with
  | nil => intro x h; cases h
  | cons p rest ih =>
      intro x h
      obtain ⟨k, v⟩ := p
      rw [alookup_cons] at h
      by_cases hx : x = k
      · rw [List.map_cons]
        exact hx ▸ List.mem_cons_self _ _
      · rw [if_neg hx] at h
        exact List.mem_cons_of_mem _ (ih x h)

theorem alookup_mem_keys_isSome {β : Type} :
    ∀ (l : List (String × β)) (x : String),
      x ∈ l.map Prod.fst → (alookup l x).isSome = true := by
  intro l
  induction l with
  | nil => intro x h; cases h
  | cons p rest ih =>
      intro x h
      obtain ⟨k, v⟩ := p
      rw [alookup_cons]
      by_cases hx : x = k
      · rw [if_pos hx]; rfl
      · rw [if_neg hx]
        rw [List.map_cons, List.mem_cons] at h
        rcases h with h | h
        · exact absurd h hx
        · exact ih x h

theorem alookup_some_mem {β : Type} :
    ∀ (l : List (String × β)) (x : String) (v : β),
      alookup l x = some v → (x, v) ∈ l := by
  intro l
  induction l with
  | nil => intro x v h; cases h
  | cons p rest ih =>
      intro x v h
      obtain ⟨k, w⟩ := p
      rw [alookup_cons] at h
      by_cases hx : x = k
      · rw [if_pos hx] at h
        injection h with h
        subst hx h
        exact List.mem_cons_self _ _
      · rw [if_neg hx] at h
        exact List.mem_cons_of_mem _ (ih x v h)

/-- Tasks still waiting to be sent by the coordinator's seed loop. -/
def pendingTasks : Phase → List String
  | .seed p => p
  | _ => []

/-- Worker slot holding a computed result for node `x`. -/
def readyFor (x : String) : WStatus → Bool
  | .ready m _ => decide (m = x)
  | _ => false

/-- A completion report `(n, res)` is genuine: it matches an actual
invocation of the action on node `n`. -/
def Report (g : Graph) (act : Action) (invoked : List (String × List Path))
    (n : String) (res : Except String (List Path)) : Prop :=
  ∃ node douts, lookup_node g n = some node ∧ (n, douts) ∈ invoked ∧
    ((∃ o, act node douts = ActRes.ok o ∧ res = Except.ok o) ∨
     (∃ e, act node douts = ActRes.err e ∧ res = Except.error e))

theorem Report.mono {g : Graph} {act : Action}
    {invoked invoked' : List (String × List Path)} {n : String}
    {res : Except String (List Path)}
    (hsub : ∀ p ∈ invoked, p ∈ invoked') (h : Report g act invoked n res) :
    Report g act invoked' n res := by
  obtain ⟨node, douts, h1, h2, h3⟩ := h
  exact ⟨node, douts, h1, hsub _ h2, h3⟩

/-- The executor invariant, preserved by every `Step`.  `invoked` is the
ghost trace of action invocations; `produced`, `doneBuf` and the ready
worker slots account for at most one report per invocation; in-degrees
count the dependencies not yet produced; a node has been sent on the task
channel (or is about to be, in the seed phase) exactly when all its
dependencies are produced. -/
structure EInv (g : Graph) (act : Action) (s : ExecState) : Prop where
  queue_keys : ∀ x ∈ s.queue ++ pendingTasks s.phase, x ∈ g.map TargetNode.name
  enq_nodup : (s.invoked.map Prod.fst ++ (s.queue ++ pendingTasks s.phase)).Nodup
  indeg_keys : ∀ x, (alookup s.inDeg x).isSome = true → x ∈ g.map TargetNode.name
  indeg_count : ∀ n ∈ g, alookup s.inDeg n.name =
    some (n.dependencies.countP (fun d => (alookup s.produced d).isNone))
  enq_iff : s.phase ≠ Phase.done (Except.error ExecErr.enqueueFailed) →
    ∀ n ∈ g, (n.name ∈ s.invoked.map Prod.fst ∨
        n.name ∈ s.queue ++ pendingTasks s.phase) ↔
      n.dependencies.countP (fun d => (alookup s.produced d).isNone) = 0
  dmap_count : ∀ d, alookup s.produced d = none → ∀ c,
    ((alookup s.dmap d).getD []).count c =
      ((lookup_node g c).map (fun nc => nc.dependencies.count d)).getD 0
  prod_nodup : (s.produced.map Prod.fst).Nodup
  report_count : ∀ x, (s.produced.map Prod.fst).count x +
    (s.doneBuf.map Prod.fst).count x +
    s.workers.countP (readyFor x) ≤ (s.invoked.map Prod.fst).count x
  invoked_snapshot : ∀ p ∈ s.invoked, ∃ node, lookup_node g p.1 = some node ∧
    p.2 = dep_snapshot node s.produced ∧
    ∀ d ∈ node.dependencies, (alookup s.produced d).isSome = true
  produced_prov : ∀ q ∈ s.produced, ∃ node douts,
    lookup_node g q.1 = some node ∧ (q.1, douts) ∈ s.invoked ∧
    act node douts = ActRes.ok q.2
  done_prov : ∀ q ∈ s.doneBuf, Report g act s.invoked q.1 q.2
  ready_prov : ∀ w ∈ s.workers, ∀ n res, w = WStatus.ready n res →
    Report g act s.invoked n res
  firstErr_prov : ∀ e, s.firstError = some (ExecErr.action e) →
    ∃ n node douts, lookup_node g n = some node ∧ (n, douts) ∈ s.invoked ∧
      act node douts = ActRes.err e
  firstErr_ne : s.firstError ≠ some ExecErr.enqueueFailed
  done_phase : ∀ r, s.phase = Phase.done r → all_dead s.workers ∧
    (r = exec_outcome g.length s ∨ r = Except.error ExecErr.enqueueFailed)

/-- With nothing produced, the pending-dependency count is the full
dependency count. -/
theorem countP_isNone_nil (l : List String) :
    l.countP (fun d =>
      (alookup ([] : List (String × List Path)) d).isNone) = l.length := by
  rw [List.countP_eq_length]
  intro d _
  rfl

/-- Receiving a successful completion preserves the invariant: the shared
bookkeeping of `cRecvOk` and `cRecvSendFail` (insertion into `produced`,
decrement-and-dispatch over the dependents, removal from the dependents
map), with the coordinator's next phase a parameter. -/
theorem recv_ok_einv (g : Graph) (act : Action)
    (hg : (g.map TargetNode.name).Nodup) (s : ExecState) (n : String)
    (outs : List Path) (rest : List (String × Except String (List Path)))
    (hp : s.phase = Phase.run)
    (hd : s.doneBuf = (n, Except.ok outs) :: rest)
    (hinv : EInv g act s)
    (p' : Phase) (t' : Bool) (r' : Nat)
    (hpend : pendingTasks p' = [])
    (hdone : ∀ r, p' = Phase.done r → all_dead s.workers ∧
      r = Except.error ExecErr.enqueueFailed) :
    EInv g act
      { s with doneBuf := rest,
               produced := ainsert s.produced n outs,
               inDeg := (send_ready ((alookup s.dmap n).getD [])
                 s.inDeg s.queue).1,
               queue := (send_ready ((alookup s.dmap n).getD [])
                 s.inDeg s.queue).2,
               dmap := aremove s.dmap n,
               remaining := r',
               phase := p',
               taskOpen := t' } := by
  obtain ⟨qk, nodup, ik, ic, eiff, dc, pn, rc, isnap, pprov, dprov, rprov,
    feprov, fene, dph⟩ := hinv
  have hpend0 : pendingTasks s.phase = [] := by rw [hp]; rfl
  rw [hpend0, List.append_nil] at qk nodup eiff
  have hrun_ne : s.phase ≠ Phase.done (Except.error ExecErr.enqueueFailed) := by
    rw [hp]
    intro hcon
    cases hcon
  have eiffr := eiff hrun_ne
  have hinv_nodup : (s.invoked.map Prod.fst).Nodup :=
    (List.nodup_append.mp nodup).1
  have hinv_le1 : ∀ x, (s.invoked.map Prod.fst).count x ≤ 1 :=
    List.nodup_iff_count_le_one.mp hinv_nodup
  have hdn_count : 0 < (s.doneBuf.map Prod.fst).count n := by
    rw [hd]
    simp
  have hninv : n ∈ s.invoked.map Prod.fst := by
    have h1 := rc n
    have h2 : 0 < (s.invoked.map Prod.fst).count n := by omega
    exact List.count_pos_iff.mp h2
  have hfresh : alookup s.produced n = none := by
    cases hof : alookup s.produced n with
    | none => rfl
    | some v =>
        exfalso
        have hmem : n ∈ s.produced.map Prod.fst :=
          alookup_isSome_mem_keys _ _ (by rw [hof]; rfl)
        have h1 : 0 < (s.produced.map Prod.fst).count n :=
          List.count_pos_iff.mpr hmem
        have h2 := rc n
        have h3 := hinv_le1 n
        omega
  have hchl_cnt : ∀ c nc, lookup_node g c = some nc →
      ((alookup s.dmap n).getD []).count c = nc.dependencies.count n := by
    intro c nc hc
    have h := dc n hfresh c
    rw [hc] at h
    simpa using h
  have hge : ∀ c deg, alookup s.inDeg c = some deg →
      ((alookup s.dmap n).getD []).count c ≤ deg := by
    intro c deg h
    have hck : c ∈ g.map TargetNode.name := ik c (by rw [h]; rfl)
    obtain ⟨nc, hnc⟩ := mem_names_lookup_isSome g c hck
    obtain ⟨hnc_mem, hnc_name⟩ := lookup_node_spec g c nc hnc
    have h5 := ic nc hnc_mem
    rw [hnc_name] at h5
    rw [h5] at h
    injection h with h
    subst h
    rw [hchl_cnt c nc hnc]
    refine count_le_countP n _ ?_ _
    rw [hfresh]
    rfl
  obtain ⟨ha, newz, hq2, hndz, hcharz⟩ :=
    send_ready_spec ((alookup s.dmap n).getD []) s.inDeg s.queue hge
  have hins : ainsert s.produced n outs = (n, outs) :: s.produced :=
    ainsert_fresh _ _ _ hfresh
  have hcpi := countP_alookup_insert s.produced n outs hfresh
  have hnewz_fresh : ∀ x ∈ newz,
      x ∉ s.invoked.map Prod.fst ∧ x ∉ s.queue := by
    intro x hx
    obtain ⟨hxl, hxpos⟩ := (hcharz x).mp hx
    have hck : x ∈ g.map TargetNode.name := ik x (by rw [hxl]; rfl)
    obtain ⟨nx, hnx⟩ := mem_names_lookup_isSome g x hck
    obtain ⟨hnx_mem, hnx_name⟩ := lookup_node_spec g x nx hnx
    have h5 := ic nx hnx_mem
    rw [hnx_name] at h5
    rw [h5] at hxl
    injection hxl with hxl
    have h6 := eiffr nx hnx_mem
    rw [hnx_name] at h6
    have hnz0 : nx.dependencies.countP
        (fun d => (alookup s.produced d).isNone) ≠ 0 := by omega
    have hnot : ¬(x ∈ s.invoked.map Prod.fst ∨ x ∈ s.queue) :=
      fun hc => hnz0 (h6.mp hc)
    push_neg at hnot
    exact hnot
  refine ⟨?_, ?_, ?_, ?_, ?_, ?_, ?_, ?_, ?_, ?_, ?_, ?_, ?_, ?_, ?_⟩
  · show ∀ x ∈ (send_ready ((alookup s.dmap n).getD [])
        s.inDeg s.queue).2 ++ pendingTasks p', x ∈ g.map TargetNode.name
    rw [hpend, List.append_nil, hq2]
    intro x hx
    rcases List.mem_append.mp hx with h | h
    · exact qk x h
    · obtain ⟨hxl, _⟩ := (hcharz x).mp h
      exact ik x (by rw [hxl]; rfl)
  · show (s.invoked.map Prod.fst ++
      ((send_ready ((alookup s.dmap n).getD []) s.inDeg s.queue).2 ++
        pendingTasks p')).Nodup
    rw [hpend, List.append_nil, hq2, ← List.append_assoc]
    rw [List.nodup_append]
    refine ⟨nodup, hndz, ?_⟩
    intro x hx hxz
    obtain ⟨hni, hnq⟩ := hnewz_fresh x hxz
    rcases List.mem_append.mp hx with h | h
    · exact hni h
    · exact hnq h
  · show ∀ x, (alookup (send_ready ((alookup s.dmap n).getD [])
        s.inDeg s.queue).1 x).isSome = true → x ∈ g.map TargetNode.name
    intro x hx
    rw [ha x] at hx
    cases hl : alookup s.inDeg x with
    | none => rw [hl] at hx; cases hx
    | some deg => exact ik x (by rw [hl]; rfl)
  · intro m hm
    show alookup (send_ready ((alookup s.dmap n).getD [])
        s.inDeg s.queue).1 m.name =
      some (m.dependencies.countP
        (fun d => (alookup (ainsert s.produced n outs) d).isNone))
    rw [hins, ha m.name, ic m hm]
    have hcnt : ((alookup s.dmap n).getD []).count m.name =
        m.dependencies.count n :=
      hchl_cnt m.name m (mem_names_lookup g hg m hm)
    rw [hcnt]
    have hupn := hcpi m.dependencies
    show some (m.dependencies.countP
        (fun d => (alookup s.produced d).isNone) -
      m.dependencies.count n) = _
    congr 1
    omega
  · intro _ m hm
    show (m.name ∈ s.invoked.map Prod.fst ∨
        m.name ∈ (send_ready ((alookup s.dmap n).getD [])
          s.inDeg s.queue).2 ++ pendingTasks p') ↔
      m.dependencies.countP
        (fun d => (alookup (ainsert s.produced n outs) d).isNone) = 0
    rw [hins, hpend, List.append_nil, hq2]
    have hcnt : ((alookup s.dmap n).getD []).count m.name =
        m.dependencies.count n :=
      hchl_cnt m.name m (mem_names_lookup g hg m hm)
    have h6 := eiffr m hm
    have hupn := hcpi m.dependencies
    have hcharm : m.name ∈ newz ↔
        (m.dependencies.countP (fun d => (alookup s.produced d).isNone) =
          m.dependencies.count n ∧ 0 < m.dependencies.count n) := by
      rw [hcharz m.name, ic m hm, hcnt]
      constructor
      · rintro ⟨h1, h2⟩
        injection h1 with h1
        exact ⟨h1, h2⟩
      · rintro ⟨h1, h2⟩
        exact ⟨by rw [h1], h2⟩
    rw [List.mem_append]
    by_cases hmemIQ : m.name ∈ s.invoked.map Prod.fst ∨ m.name ∈ s.queue
    · have ha0 : m.dependencies.countP
          (fun d => (alookup s.produced d).isNone) = 0 := h6.mp hmemIQ
      refine iff_of_true ?_ (by omega)
      rcases hmemIQ with h | h
      · exact Or.inl h
      · exact Or.inr (Or.inl h)
    · push_neg at hmemIQ
      obtain ⟨hnI, hnQ⟩ := hmemIQ
      have hane : m.dependencies.countP
          (fun d => (alookup s.produced d).isNone) ≠ 0 := by
        intro hc
        rcases h6.mpr hc with h | h
        · exact hnI h
        · exact hnQ h
      constructor
      · rintro (h | h | h)
        · exact absurd h hnI
        · exact absurd h hnQ
        · obtain ⟨h1, h2⟩ := hcharm.mp h
          omega
      · intro hc
        refine Or.inr (Or.inr (hcharm.mpr ⟨?_, ?_⟩)) <;> omega
  · intro d hd' c
    show ((alookup (aremove s.dmap n) d).getD []).count c = _
    rw [hins] at hd'
    rw [alookup_cons] at hd'
    by_cases hdn : d = n
    · rw [if_pos hdn] at hd'
      cases hd'
    · rw [if_neg hdn] at hd'
      rw [aremove_lookup s.dmap n d hdn]
      exact dc d hd' c
  · show ((ainsert s.produced n outs).map Prod.fst).Nodup
    rw [hins, List.map_cons]
    refine List.nodup_cons.mpr ⟨?_, pn⟩
    intro hc
    have := alookup_mem_keys_isSome s.produced n hc
    rw [hfresh] at this
    cases this
  · intro x
    show ((ainsert s.produced n outs).map Prod.fst).count x +
      (rest.map Prod.fst).count x + s.workers.countP (readyFor x) ≤
      (s.invoked.map Prod.fst).count x
    rw [hins, List.map_cons, List.count_cons]
    have hrc := rc x
    rw [hd, List.map_cons, List.count_cons] at hrc
    have e1 : ((n, outs) : String × List Path).1 = n := rfl
    have e2 : ((n, Except.ok outs) :
      String × Except String (List Path)).1 = n := rfl
    rw [e1]
    rw [e2] at hrc
    omega
  · intro p hp'
    show ∃ node, lookup_node g p.1 = some node ∧
      p.2 = dep_snapshot node (ainsert s.produced n outs) ∧
      ∀ d ∈ node.dependencies,
        (alookup (ainsert s.produced n outs) d).isSome = true
    obtain ⟨node, h1, h2, h3⟩ := isnap p hp'
    rw [hins]
    refine ⟨node, h1, ?_, ?_⟩
    · rw [dep_snapshot_insert node s.produced n outs h3 hfresh]
      exact h2
    · intro d hdd
      rw [alookup_cons]
      by_cases hdn : d = n
      · rw [if_pos hdn]; rfl
      · rw [if_neg hdn]
        exact h3 d hdd
  · intro q hq'
    show ∃ node douts, lookup_node g q.1 = some node ∧
      (q.1, douts) ∈ s.invoked ∧ act node douts = ActRes.ok q.2
    rw [hins] at hq'
    rcases List.mem_cons.mp hq' with h | h
    · subst h
      have hmemd : (n, Except.ok outs) ∈ s.doneBuf := by
        rw [hd]
        exact List.mem_cons_self _ _
      have hrep := dprov (n, Except.ok outs) hmemd
      obtain ⟨node, douts, h1, h2, h3⟩ := hrep
      rcases h3 with ⟨o, ho1, ho2⟩ | ⟨e, he1, he2⟩
      · injection ho2 with ho2
        subst ho2
        exact ⟨node, douts, h1, h2, ho1⟩
      · cases he2
    · exact pprov q h
  · intro q hq'
    exact dprov q (by rw [hd]; exact List.mem_cons_of_mem _ hq')
  · exact rprov
  · exact feprov
  · exact fene
  · intro r hr
    show all_dead s.workers ∧ _
    obtain ⟨h1, h2⟩ := hdone r hr
    exact ⟨h1, Or.inr h2⟩

/-- A worker taking the task at the head of the channel preserves the
invariant, for any resulting slot state `w'` that reports only genuine
outcomes of the action on that node (shared by `wTakeOk`, `wTakeErr` and
`wTakePanic`). -/
theorem wtake_einv (g : Graph) (act : Action) (s : ExecState) (i : Nat)
    (n : String) (rest : List String) (node : TargetNode) (w' : WStatus)
    (hw : s.workers.get? i = some WStatus.idle)
    (hq : s.queue = n :: rest)
    (hn : lookup_node g n = some node)
    (hinv : EInv g act s)
    (hrep : ∀ m res, w' = WStatus.ready m res → m = n ∧
      ((∃ o, act node (dep_snapshot node s.produced) = ActRes.ok o ∧
          res = Except.ok o) ∨
       (∃ e, act node (dep_snapshot node s.produced) = ActRes.err e ∧
          res = Except.error e)))
    (hrf : ∀ x, readyFor x w' = true → n = x) :
    EInv g act
      { s with queue := rest,
               workers := s.workers.set i w',
               invoked :=
                 s.invoked ++ [(n, dep_snapshot node s.produced)] } := by
  obtain ⟨qk, nodup, ik, ic, eiff, dc, pn, rc, isnap, pprov, dprov, rprov,
    feprov, fene, dph⟩ := hinv
  have hidle_mem : WStatus.idle ∈ s.workers := List.get?_mem hw
  have hnotdone : ∀ r, s.phase ≠ Phase.done r := by
    intro r hr
    obtain ⟨hdead, _⟩ := dph r hr
    obtain ⟨b, hb⟩ := hdead _ hidle_mem
    cases hb
  obtain ⟨hnode_mem, hnode_name⟩ := lookup_node_spec g n node hn
  have eiffr := eiff (hnotdone _)
  have hdeps0 : node.dependencies.countP
      (fun d => (alookup s.produced d).isNone) = 0 := by
    refine (eiffr node hnode_mem).mp (Or.inr ?_)
    rw [hnode_name, hq]
    exact List.mem_append_left _ (List.mem_cons_self _ _)
  have hdeps_some : ∀ d ∈ node.dependencies,
      (alookup s.produced d).isSome = true := by
    intro d hdd
    have hni := List.countP_eq_zero.mp hdeps0 d hdd
    cases ho : alookup s.produced d with
    | none =>
        exfalso
        rw [ho] at hni
        exact hni rfl
    | some v => rfl
  have hsub : ∀ p ∈ s.invoked,
      p ∈ s.invoked ++ [(n, dep_snapshot node s.produced)] :=
    fun p h => List.mem_append_left _ h
  have hmr : ((s.invoked ++ [(n, dep_snapshot node s.produced)]).map
      Prod.fst) = s.invoked.map Prod.fst ++ [n] := by
    rw [List.map_append]
    rfl
  refine ⟨?_, ?_, ?_, ?_, ?_, ?_, ?_, ?_, ?_, ?_, ?_, ?_, ?_, ?_, ?_⟩
  · show ∀ x ∈ rest ++ pendingTasks s.phase, x ∈ g.map TargetNode.name
    intro x hx
    rcases List.mem_append.mp hx with h | h
    · exact qk x (by
        rw [hq]
        exact List.mem_append_left _ (List.mem_cons_of_mem _ h))
    · exact qk x (by rw [hq]; exact List.mem_append_right _ h)
  · show ((s.invoked ++ [(n, dep_snapshot node s.produced)]).map Prod.fst ++
      (rest ++ pendingTasks s.phase)).Nodup
    have hre : (s.invoked ++ [(n, dep_snapshot node s.produced)]).map
        Prod.fst ++ (rest ++ pendingTasks s.phase) =
        s.invoked.map Prod.fst ++ (s.queue ++ pendingTasks s.phase) := by
      rw [hmr, hq, List.append_assoc]
      rfl
    rw [hre]
    exact nodup
  · exact ik
  · exact ic
  · intro _ m hm
    show (m.name ∈ (s.invoked ++
        [(n, dep_snapshot node s.produced)]).map Prod.fst ∨
      m.name ∈ rest ++ pendingTasks s.phase) ↔ _
    have h6 := eiffr m hm
    rw [hq] at h6
    rw [hmr, ← h6]
    simp only [List.mem_append, List.mem_cons, List.mem_singleton,
      List.not_mem_nil, or_false]
    tauto
  · exact dc
  · exact pn
  · intro x
    show (s.produced.map Prod.fst).count x +
      (s.doneBuf.map Prod.fst).count x +
      (s.workers.set i w').countP (readyFor x) ≤
      ((s.invoked ++ [(n, dep_snapshot node s.produced)]).map
        Prod.fst).count x
    have hset := countP_set_workers (readyFor x) s.workers i _ w' hw
    have hidle : readyFor x WStatus.idle = false := rfl
    rw [hidle, ite_false_true_nat] at hset
    have hca : ((s.invoked ++ [(n, dep_snapshot node s.produced)]).map
        Prod.fst).count x =
        (s.invoked.map Prod.fst).count x + ([n] : List String).count x := by
      rw [hmr, List.count_append]
    have hrc := rc x
    by_cases hxw : readyFor x w' = true
    · have hnx := hrf x hxw
      rw [hxw, ite_true_true_nat] at hset
      have hc1 : ([n] : List String).count x = 1 := by
        rw [← hnx]
        simp
      rw [hca, hc1]
      omega
    · have hxw' : readyFor x w' = false := by simpa using hxw
      rw [hxw', ite_false_true_nat] at hset
      rw [hca]
      omega
  · intro p hp'
    rcases List.mem_append.mp hp' with h | h
    · obtain ⟨node', h1, h2, h3⟩ := isnap p h
      exact ⟨node', h1, h2, h3⟩
    · rw [List.mem_singleton] at h
      subst h
      exact ⟨node, hn, rfl, hdeps_some⟩
  · intro q hq'
    obtain ⟨node', douts, h1, h2, h3⟩ := pprov q hq'
    exact ⟨node', douts, h1, hsub _ h2, h3⟩
  · intro q hq'
    exact Report.mono hsub (dprov q hq')
  · intro w hw2 m res heq
    rcases List.mem_or_eq_of_mem_set hw2 with h | h
    · exact Report.mono hsub (rprov w h m res heq)
    · subst h
      obtain ⟨hmn, hdis⟩ := hrep m res heq
      subst hmn
      exact ⟨node, dep_snapshot node s.produced, hn,
        List.mem_append_right _ (List.mem_cons_self _ _), hdis⟩
  · intro e he
    obtain ⟨v, node', douts, h1, h2, h3⟩ := feprov e he
    exact ⟨v, node', douts, h1, hsub _ h2, h3⟩
  · exact fene
  · intro r hr
    exact absurd hr (hnotdone r)

/-- The invariant holds in the initial state. -/
theorem einv_init (g : Graph) (act : Action) (seeds : List String)
    (dm : List (String × List String)) (W : Nat)
    (hg : (g.map TargetNode.name).Nodup)
    (hseed : seeds.Perm
      ((g.filter (fun n => n.dependencies.isEmpty)).map TargetNode.name))
    (hdm : dependents_ok g dm) :
    EInv g act (init_state g seeds dm W) := by
  have hfil_nodup :
      ((g.filter (fun n => n.dependencies.isEmpty)).map TargetNode.name).Nodup :=
    List.Nodup.sublist (List.Sublist.map _ (List.filter_sublist g)) hg
  have hseed_mem : ∀ x, x ∈ seeds ↔
      ∃ n ∈ g, n.dependencies = [] ∧ n.name = x := by
    intro x
    rw [hseed.mem_iff, List.mem_map]
    constructor
    · rintro ⟨n, hn, rfl⟩
      rw [List.mem_filter] at hn
      exact ⟨n, hn.1, by simpa using hn.2, rfl⟩
    · rintro ⟨n, hn, hdeps, rfl⟩
      exact ⟨n, List.mem_filter.mpr ⟨hn, by simp [hdeps]⟩, rfl⟩
  refine ⟨?_, ?_, ?_, ?_, ?_, ?_, ?_, ?_, ?_, ?_, ?_, ?_, ?_, ?_, ?_⟩
  · simp only [init_state, pendingTasks, List.nil_append]
    intro x hx
    obtain ⟨n, hn, _, rfl⟩ := (hseed_mem x).mp hx
    exact List.mem_map_of_mem TargetNode.name hn
  · simp only [init_state, pendingTasks, List.nil_append, List.map_nil]
    exact hseed.nodup_iff.mpr hfil_nodup
  · simp only [init_state]
    exact alookup_mem_of_isSome g _
  · simp only [init_state]
    intro n hn
    rw [alookup_init g _ hg n hn, countP_isNone_nil]
  · simp only [init_state, pendingTasks, List.nil_append, List.map_nil]
    intro _ n hn
    rw [countP_isNone_nil]
    constructor
    · rintro (h | h)
      · cases h
      · obtain ⟨m, hm, hdeps, hname⟩ := (hseed_mem n.name).mp h
        have : m = n := name_inj g hg m n hm hn hname
        subst this
        rw [hdeps]
        rfl
    · intro h
      refine Or.inr ((hseed_mem n.name).mpr ⟨n, hn, ?_, rfl⟩)
      exact List.length_eq_zero.mp h
  · simp only [init_state]
    intro d _ c
    exact hdm d c
  · simp only [init_state, List.map_nil]
    exact List.nodup_nil
  · simp only [init_state, List.map_nil]
    intro x
    have hz : (List.replicate W WStatus.idle).countP (readyFor x) = 0 := by
      rw [List.countP_eq_zero]
      intro w hw
      rw [List.eq_of_mem_replicate hw]
      simp [readyFor]
    rw [hz]
    simp
  · simp only [init_state]
    intro p hp; cases hp
  · simp only [init_state]
    intro q hq; cases hq
  · simp only [init_state]
    intro q hq; cases hq
  · simp only [init_state]
    intro w hw n res hres
    rw [List.eq_of_mem_replicate hw] at hres
    cases hres
  · simp only [init_state]
    intro e h; cases h
  · simp only [init_state]
    intro h; cases h
  · simp only [init_state]
    intro r hr; cases hr

/-- Every transition preserves the invariant. -/
theorem einv_step (g : Graph) (act : Action)
    (hg : (g.map TargetNode.name).Nodup)
    (s s' : ExecState) (hstep : Step g act s s') (hinv : EInv g act s) :
    EInv g act s' := by
  cases hstep with
  | wTakeOk i n rest node outs hw hq hn hact =>
      refine wtake_einv g act s i n rest node
        (WStatus.ready n (Except.ok outs)) hw hq hn hinv ?_ ?_
      · intro m res heq
        injection heq with h1 h2
        exact ⟨h1.symm, Or.inl ⟨outs, hact, h2.symm⟩⟩
      · intro x hx
        exact of_decide_eq_true hx
  | wTakeErr i n rest node e hw hq hn hact =>
      refine wtake_einv g act s i n rest node
        (WStatus.ready n (Except.error e)) hw hq hn hinv ?_ ?_
      · intro m res heq
        injection heq with h1 h2
        exact ⟨h1.symm, Or.inr ⟨e, hact, h2.symm⟩⟩
      · intro x hx
        exact of_decide_eq_true hx
  | wTakePanic i n rest node hw hq hn hact =>
      refine wtake_einv g act s i n rest node
        (WStatus.dead true) hw hq hn hinv ?_ ?_
      · intro m res heq
        exact WStatus.noConfusion heq
      · intro x hx
        exact Bool.noConfusion hx
  | wTakeUnknown i n rest hw hq hn =>
      exfalso
      have hmem : n ∈ g.map TargetNode.name := hinv.queue_keys n (by
        rw [hq]
        exact List.mem_append_left _ (List.mem_cons_self _ _))
      obtain ⟨nd, hnd⟩ := mem_names_lookup_isSome g n hmem
      rw [hnd] at hn
      cases hn
  | wSend i n res hw =>
      obtain ⟨qk, nodup, ik, ic, eiff, dc, pn, rc, isnap, pprov, dprov,
        rprov, feprov, fene, dph⟩ := hinv
      have hready_mem : WStatus.ready n res ∈ s.workers := List.get?_mem hw
      have hnotdone : ∀ r, s.phase ≠ Phase.done r := by
        intro r hr
        obtain ⟨hdead, _⟩ := dph r hr
        obtain ⟨b, hb⟩ := hdead _ hready_mem
        cases hb
      refine ⟨qk, nodup, ik, ic, eiff, dc, pn, ?_, isnap, pprov, ?_, ?_,
        feprov, fene, ?_⟩
      · intro x
        show (s.produced.map Prod.fst).count x +
          ((s.doneBuf ++ [(n, res)]).map Prod.fst).count x +
          ((s.workers.set i WStatus.idle).countP (readyFor x)) ≤
          (s.invoked.map Prod.fst).count x
        have hset := countP_set_workers (readyFor x) s.workers i _
          WStatus.idle hw
        have hidle : readyFor x WStatus.idle = false := rfl
        have hrdy : readyFor x (WStatus.ready n res) = decide (n = x) := rfl
        rw [hidle, ite_false_true_nat, hrdy] at hset
        have hm1 : ([(n, res)].map Prod.fst) = [n] := rfl
        rw [List.map_append, hm1, List.count_append]
        have hrc := rc x
        by_cases hnx : n = x
        · have hd1 : (decide (n = x)) = true := by simp [hnx]
          rw [hd1, ite_true_true_nat] at hset
          have hc1 : ([n] : List String).count x = 1 := by simp [hnx]
          rw [hc1]
          omega
        · have hd1 : (decide (n = x)) = false := by simp [hnx]
          rw [hd1, ite_false_true_nat] at hset
          have hc1 : ([n] : List String).count x = 0 := by
            rw [List.count_eq_zero]
            intro hc
            rw [List.mem_singleton] at hc
            exact hnx hc.symm
          rw [hc1]
          omega
      · intro q hq'
        rcases List.mem_append.mp hq' with h | h
        · exact dprov q h
        · rw [List.mem_singleton] at h
          subst h
          exact rprov _ hready_mem n res rfl
      · intro w hw2 m res2 heq
        rcases List.mem_or_eq_of_mem_set hw2 with h | h
        · exact rprov w h m res2 heq
        · rw [h] at heq
          exact WStatus.noConfusion heq
      · intro r hr
        exact absurd hr (hnotdone r)
  | wExit i hw hq hc =>
      obtain ⟨qk, nodup, ik, ic, eiff, dc, pn, rc, isnap, pprov, dprov,
        rprov, feprov, fene, dph⟩ := hinv
      have hidle_mem : WStatus.idle ∈ s.workers := List.get?_mem hw
      have hnotdone : ∀ r, s.phase ≠ Phase.done r := by
        intro r hr
        obtain ⟨hdead, _⟩ := dph r hr
        obtain ⟨b, hb⟩ := hdead _ hidle_mem
        cases hb
      refine ⟨qk, nodup, ik, ic, eiff, dc, pn, ?_, isnap, pprov, dprov, ?_,
        feprov, fene, ?_⟩
      · intro x
        show (s.produced.map Prod.fst).count x +
          (s.doneBuf.map Prod.fst).count x +
          ((s.workers.set i (WStatus.dead false)).countP (readyFor x)) ≤
          (s.invoked.map Prod.fst).count x
        have hset := countP_set_workers (readyFor x) s.workers i _
          (WStatus.dead false) hw
        rw [show readyFor x WStatus.idle = false from rfl,
          ite_false_true_nat,
          show readyFor x (WStatus.dead false) = false from rfl,
          ite_false_true_nat] at hset
        have hrc := rc x
        omega
      · intro w hw2 m res2 heq
        rcases List.mem_or_eq_of_mem_set hw2 with h | h
        · exact rprov w h m res2 heq
        · rw [h] at heq
          exact WStatus.noConfusion heq
      · intro r hr
        exact absurd hr (hnotdone r)
  | cRecvOk n outs rest rem hp hd hr =>
      refine recv_ok_einv g act hg s n outs rest hp hd hinv _ _ _ ?_ ?_
      · by_cases h0 : rem = 0
        · rw [if_pos h0]; rfl
        · rw [if_neg h0]; rfl
      · intro r hr'
        by_cases h0 : rem = 0
        · rw [if_pos h0] at hr'; cases hr'
        · rw [if_neg h0] at hr'; cases hr'
  | cRecvErr n e rest hp hd =>
      obtain ⟨qk, nodup, ik, ic, eiff, dc, pn, rc, isnap, pprov, dprov,
        rprov, feprov, fene, dph⟩ := hinv
      have hpend0 : pendingTasks s.phase = [] := by rw [hp]; rfl
      rw [hpend0, List.append_nil] at qk nodup eiff
      refine ⟨?_, ?_, ik, ic, ?_, dc, pn, ?_, isnap, pprov, ?_, rprov,
        ?_, ?_, ?_⟩
      · show ∀ x ∈ s.queue ++ ([] : List String), x ∈ g.map TargetNode.name
        intro x hx
        rw [List.append_nil] at hx
        exact qk x hx
      · show (s.invoked.map Prod.fst ++
          (s.queue ++ ([] : List String))).Nodup
        rw [List.append_nil]
        exact nodup
      · intro _ m hm
        show (m.name ∈ s.invoked.map Prod.fst ∨
          m.name ∈ s.queue ++ ([] : List String)) ↔ _
        rw [List.append_nil]
        exact eiff (by rw [hp]; intro hcon; cases hcon) m hm
      · intro x
        show (s.produced.map Prod.fst).count x +
          (rest.map Prod.fst).count x +
          s.workers.countP (readyFor x) ≤
          (s.invoked.map Prod.fst).count x
        have hrc := rc x
        rw [hd, List.map_cons, List.count_cons] at hrc
        omega
      · intro q hq'
        exact dprov q (by rw [hd]; exact List.mem_cons_of_mem _ hq')
      · intro e' he'
        injection he' with he'
        injection he' with he'
        subst he'
        have hmemd : (n, Except.error e) ∈ s.doneBuf := by
          rw [hd]
          exact List.mem_cons_self _ _
        obtain ⟨node, douts, h1, h2, h3⟩ := dprov (n, Except.error e) hmemd
        rcases h3 with ⟨o, _, ho2⟩ | ⟨e2, he1, he2⟩
        · cases ho2
        · injection he2 with he2
          subst he2
          exact ⟨n, node, douts, h1, h2, he1⟩
      · intro hcon
        injection hcon with hcon
        cases hcon
      · intro r hr'
        cases hr'
  | cRecvClosed hp hd hw =>
      obtain ⟨qk, nodup, ik, ic, eiff, dc, pn, rc, isnap, pprov, dprov,
        rprov, feprov, fene, dph⟩ := hinv
      have hpend0 : pendingTasks s.phase = [] := by rw [hp]; rfl
      rw [hpend0, List.append_nil] at qk nodup eiff
      refine ⟨?_, ?_, ik, ic, ?_, dc, pn, rc, isnap, pprov, dprov, rprov,
        ?_, ?_, ?_⟩
      · show ∀ x ∈ s.queue ++ ([] : List String), x ∈ g.map TargetNode.name
        intro x hx
        rw [List.append_nil] at hx
        exact qk x hx
      · show (s.invoked.map Prod.fst ++
          (s.queue ++ ([] : List String))).Nodup
        rw [List.append_nil]
        exact nodup
      · intro _ m hm
        show (m.name ∈ s.invoked.map Prod.fst ∨
          m.name ∈ s.queue ++ ([] : List String)) ↔ _
        rw [List.append_nil]
        exact eiff (by rw [hp]; intro hcon; cases hcon) m hm
      · intro e' he'
        injection he' with he'
        cases he'
      · intro hcon
        injection hcon with hcon
        cases hcon
      · intro r hr'
        cases hr'
  | cJoin hp hw =>
      obtain ⟨qk, nodup, ik, ic, eiff, dc, pn, rc, isnap, pprov, dprov,
        rprov, feprov, fene, dph⟩ := hinv
      have hpend0 : pendingTasks s.phase = [] := by rw [hp]; rfl
      rw [hpend0, List.append_nil] at qk nodup eiff
      refine ⟨?_, ?_, ik, ic, ?_, dc, pn, rc, isnap, pprov, dprov, rprov,
        feprov, fene, ?_⟩
      · show ∀ x ∈ s.queue ++ ([] : List String), x ∈ g.map TargetNode.name
        intro x hx
        rw [List.append_nil] at hx
        exact qk x hx
      · show (s.invoked.map Prod.fst ++
          (s.queue ++ ([] : List String))).Nodup
        rw [List.append_nil]
        exact nodup
      · intro _ m hm
        show (m.name ∈ s.invoked.map Prod.fst ∨
          m.name ∈ s.queue ++ ([] : List String)) ↔ _
        rw [List.append_nil]
        exact eiff (by rw [hp]; intro hcon; cases hcon) m hm
      · intro r hr'
        injection hr' with hr'
        subst hr'
        exact ⟨hw, Or.inl rfl⟩
  | cSeedSend x rest hp =>
      obtain ⟨qk, nodup, ik, ic, eiff, dc, pn, rc, isnap, pprov, dprov,
        rprov, feprov, fene, dph⟩ := hinv
      have hq_eq : (s.queue ++ [x]) ++ pendingTasks (Phase.seed rest) =
          s.queue ++ pendingTasks s.phase := by
        rw [hp]
        show (s.queue ++ [x]) ++ rest = s.queue ++ (x :: rest)
        rw [List.append_assoc]
        rfl
      refine ⟨?_, ?_, ik, ic, ?_, dc, pn, rc, isnap, pprov, dprov, rprov,
        feprov, fene, ?_⟩
      · show ∀ x' ∈ (s.queue ++ [x]) ++ pendingTasks (Phase.seed rest),
          x' ∈ g.map TargetNode.name
        rw [hq_eq]
        exact qk
      · show (s.invoked.map Prod.fst ++
          ((s.queue ++ [x]) ++ pendingTasks (Phase.seed rest))).Nodup
        rw [hq_eq]
        exact nodup
      · intro _ m hm
        show (m.name ∈ s.invoked.map Prod.fst ∨
          m.name ∈ (s.queue ++ [x]) ++ pendingTasks (Phase.seed rest)) ↔ _
        rw [hq_eq]
        exact eiff (by rw [hp]; intro hcon; cases hcon) m hm
      · intro r hr'
        cases hr'
  | cSeedFail x rest hp hdead =>
      obtain ⟨qk, nodup, ik, ic, eiff, dc, pn, rc, isnap, pprov, dprov,
        rprov, feprov, fene, dph⟩ := hinv
      rw [hp] at nodup
      simp only [pendingTasks] at nodup
      refine ⟨?_, ?_, ik, ic, ?_, dc, pn, rc, isnap, pprov, dprov, rprov,
        feprov, fene, ?_⟩
      · show ∀ x' ∈ s.queue ++ ([] : List String), x' ∈ g.map TargetNode.name
        intro x' hx'
        rw [List.append_nil] at hx'
        exact qk x' (List.mem_append_left _ hx')
      · show (s.invoked.map Prod.fst ++
          (s.queue ++ ([] : List String))).Nodup
        rw [List.append_nil]
        refine List.Nodup.sublist ?_ nodup
        exact List.Sublist.append_left
          (List.sublist_append_left s.queue (x :: rest)) _
      · intro hgd
        exact absurd rfl hgd
      · intro r hr'
        injection hr' with hr'
        exact ⟨hdead, Or.inr hr'.symm⟩
  | cSeedDone hp =>
      obtain ⟨qk, nodup, ik, ic, eiff, dc, pn, rc, isnap, pprov, dprov,
        rprov, feprov, fene, dph⟩ := hinv
      have hpall : pendingTasks
          (if s.remaining = 0 then Phase.join else Phase.run) = [] := by
        by_cases h0 : s.remaining = 0
        · rw [if_pos h0]; rfl
        · rw [if_neg h0]; rfl
      have hpend0 : pendingTasks s.phase = [] := by rw [hp]; rfl
      have hq_eq : s.queue ++ pendingTasks
          (if s.remaining = 0 then Phase.join else Phase.run) =
          s.queue ++ pendingTasks s.phase := by
        rw [hpall, hpend0]
      refine ⟨?_, ?_, ik, ic, ?_, dc, pn, rc, isnap, pprov, dprov, rprov,
        feprov, fene, ?_⟩
      · show ∀ x ∈ s.queue ++ pendingTasks
          (if s.remaining = 0 then Phase.join else Phase.run),
          x ∈ g.map TargetNode.name
        rw [hq_eq]
        exact qk
      · show (s.invoked.map Prod.fst ++ (s.queue ++ pendingTasks
          (if s.remaining = 0 then Phase.join else Phase.run))).Nodup
        rw [hq_eq]
        exact nodup
      · intro _ m hm
        show (m.name ∈ s.invoked.map Prod.fst ∨
          m.name ∈ s.queue ++ pendingTasks
            (if s.remaining = 0 then Phase.join else Phase.run)) ↔ _
        rw [hq_eq]
        exact eiff (by rw [hp]; intro hcon; cases hcon) m hm
      · intro r hr'
        have hr2 : (if s.remaining = 0 then Phase.join else Phase.run) =
            Phase.done r := hr'
        by_cases h0 : s.remaining = 0
        · rw [if_pos h0] at hr2; cases hr2
        · rw [if_neg h0] at hr2; cases hr2
  | cRecvSendFail n outs rest rem hp hd hr hdead hnz =>
      refine recv_ok_einv g act hg s n outs rest hp hd hinv _ _ _ ?_ ?_
      · rfl
      · intro r hr'
        injection hr' with hr'
        exact ⟨hdead, hr'.symm⟩

/-- The invariant holds in every reachable state. -/
theorem einv_reach (g : Graph) (act : Action) (seeds : List String)
    (dm : List (String × List String)) (W : Nat)
    (hg : (g.map TargetNode.name).Nodup)
    (hseed : seeds.Perm
      ((g.filter (fun n => n.dependencies.isEmpty)).map TargetNode.name))
    (hdm : dependents_ok g dm)
    (s : ExecState) (hreach : ExecReach g act seeds dm W s) :
    EInv g act s := by
  induction hreach with
  | refl => exact einv_init g act seeds dm W hg hseed hdm
  | tail hsteps hstep ih => exact einv_step g act hg _ _ hstep ih

/-- Inversion: a successful return means no panic, no recorded error, and a
complete `produced` map, which is the returned value. -/
theorem exec_outcome_ok (total : Nat) (s : ExecState)
    (res : List (String × List Path))
    (h : exec_outcome total s = Except.ok res) :
    res = s.produced ∧ s.produced.length = total ∧ s.firstError = none ∧
      s.workers.any (fun w => w = WStatus.dead true) = false := by
  unfold exec_outcome at h
  cases hany : s.workers.any (fun w => w = WStatus.dead true) with
  | true => rw [hany] at h; cases h
  | false =>
      rw [hany, if_neg (by simp)] at h
      cases hfe : s.firstError with
      | some e => rw [hfe] at h; cases h
      | none =>
          rw [hfe] at h
          by_cases hlen : s.produced.length = total
          · rw [if_pos hlen] at h
            injection h with h
            exact ⟨h.symm, hlen, rfl, rfl⟩
          · rw [if_neg hlen] at h
            cases h

/-- Inversion: an action-error return means exactly that error was the
recorded first error. -/
theorem exec_outcome_err_action (total : Nat) (s : ExecState) (e : String)
    (h : exec_outcome total s = Except.error (ExecErr.action e)) :
    s.firstError = some (ExecErr.action e) := by
  unfold exec_outcome at h
  cases hany : s.workers.any (fun w => w = WStatus.dead true) with
  | true =>
      rw [hany] at h
      injection h with h
      cases h
  | false =>
      rw [hany, if_neg (by simp)] at h
      cases hfe : s.firstError with
      | some e2 =>
          rw [hfe] at h
          injection h with h
          rw [h]
      | none =>
          rw [hfe] at h
          by_cases hlen : s.produced.length = total
          · rw [if_pos hlen] at h
            cases h
          · rw [if_neg hlen] at h
            injection h with h
            cases h

/-- C1: on every run, each invocation of the action for a node `v` receives
as `dep_outputs` the concatenation, in the declared order of `v`'s
dependency list, of the path sequences returned by each dependency's
action; a dependency whose action returned an empty sequence contributes
nothing (the concatenation simply skips it). -/
theorem claim_C1_dep_outputs (g : Graph) (act : Action) (seeds : List String)
    (dm : List (String × List String)) (W : Nat)
    (hg : (g.map TargetNode.name).Nodup)
    (hseed : seeds.Perm
      ((g.filter (fun n => n.dependencies.isEmpty)).map TargetNode.name))
    (hdm : dependents_ok g dm)
    (s : ExecState) (hreach : ExecReach g act seeds dm W s)
    (v : String) (douts : List Path) (hv : (v, douts) ∈ s.invoked) :
    ∃ node, lookup_node g v = some node ∧
      ∃ outf : String → List Path,
        douts = node.dependencies.flatMap outf ∧
        ∀ d ∈ node.dependencies, ∃ dnode ddeps,
          lookup_node g d = some dnode ∧ (d, ddeps) ∈ s.invoked ∧
          act dnode ddeps = ActRes.ok (outf d) := by
  have hinv := einv_reach g act seeds dm W hg hseed hdm s hreach
  obtain ⟨node, h1, h2, h3⟩ := hinv.invoked_snapshot (v, douts) hv
  refine ⟨node, h1, fun d => (alookup s.produced d).getD [], h2, ?_⟩
  intro d hd
  have hds := h3 d hd
  cases ho : alookup s.produced d with
  | none => rw [ho] at hds; cases hds
  | some val =>
      have hmem : (d, val) ∈ s.produced := alookup_some_mem _ _ _ ho
      obtain ⟨dnode, ddeps, hl, hm, ha⟩ := hinv.produced_prov (d, val) hmem
      refine ⟨dnode, ddeps, hl, hm, ?_⟩
      show act dnode ddeps = ActRes.ok ((alookup s.produced d).getD [])
      rw [ho]
      exact ha

/-- C2: on every run the action is invoked at most once per name and only
on nodes of the graph, and on a run that returned success it was invoked
exactly once per node of the graph. -/
theorem claim_C2_invocations (g : Graph) (act : Action) (seeds : List String)
    (dm : List (String × List String)) (W : Nat)
    (hg : (g.map TargetNode.name).Nodup)
    (hseed : seeds.Perm
      ((g.filter (fun n => n.dependencies.isEmpty)).map TargetNode.name))
    (hdm : dependents_ok g dm)
    (s : ExecState) (hreach : ExecReach g act seeds dm W s) :
    (∀ x, (s.invoked.map Prod.fst).count x ≤ 1) ∧
    (∀ p ∈ s.invoked, p.1 ∈ g.map TargetNode.name) ∧
    (∀ res, s.phase = Phase.done (Except.ok res) →
      ∀ node ∈ g, (s.invoked.map Prod.fst).count node.name = 1) := by
  have hinv := einv_reach g act seeds dm W hg hseed hdm s hreach
  have hnodup_inv : (s.invoked.map Prod.fst).Nodup :=
    (List.nodup_append.mp hinv.enq_nodup).1
  have hle1 := List.nodup_iff_count_le_one.mp hnodup_inv
  refine ⟨hle1, ?_, ?_⟩
  · intro p hp
    obtain ⟨node, h1, _, _⟩ := hinv.invoked_snapshot p hp
    exact lookup_node_isSome_mem g p.1 (by rw [h1]; rfl)
  · intro res hdone node hnode
    obtain ⟨hdead, hout⟩ := hinv.done_phase _ hdone
    rcases hout with hout | hout
    · obtain ⟨hres, hlen, _, _⟩ := exec_outcome_ok g.length s res hout.symm
      have hsub : (s.produced.map Prod.fst) ⊆ g.map TargetNode.name := by
        intro x hx
        rw [List.mem_map] at hx
        obtain ⟨q, hq, rfl⟩ := hx
        obtain ⟨node', douts, h1, _, _⟩ := hinv.produced_prov q hq
        exact lookup_node_isSome_mem g q.1 (by rw [h1]; rfl)
      have hsp : List.Subperm (s.produced.map Prod.fst)
          (g.map TargetNode.name) :=
        hinv.prod_nodup.subperm hsub
      have hlen2 : (g.map TargetNode.name).length ≤
          (s.produced.map Prod.fst).length := by
        rw [List.length_map, List.length_map]
        omega
      have hperm : (s.produced.map Prod.fst).Perm (g.map TargetNode.name) :=
        hsp.perm_of_length_le hlen2
      have hcount_names : (g.map TargetNode.name).count node.name = 1 := by
        have hmem : node.name ∈ g.map TargetNode.name :=
          List.mem_map_of_mem _ hnode
        have h1 : 0 < (g.map TargetNode.name).count node.name :=
          List.count_pos_iff.mpr hmem
        have h2 := List.nodup_iff_count_le_one.mp hg node.name
        omega
      have hcp : (s.produced.map Prod.fst).count node.name = 1 := by
        rw [hperm.count_eq]
        exact hcount_names
      have hrc := hinv.report_count node.name
      have hup := hle1 node.name
      omega
    · cases hout

/-- C3 (amended): an action-error result reported by `execute` is an error
actually returned by some invocation of the action, and a success result
exposes exactly the complete produced-outputs map, every entry of which
came from a successful invocation — a partial map is never returned. -/
theorem claim_C3_error_reporting (g : Graph) (act : Action)
    (seeds : List String) (dm : List (String × List String)) (W : Nat)
    (hg : (g.map TargetNode.name).Nodup)
    (hseed : seeds.Perm
      ((g.filter (fun n => n.dependencies.isEmpty)).map TargetNode.name))
    (hdm : dependents_ok g dm)
    (s : ExecState) (hreach : ExecReach g act seeds dm W s) :
    (∀ e, s.phase = Phase.done (Except.error (ExecErr.action e)) →
      ∃ v node douts, lookup_node g v = some node ∧ (v, douts) ∈ s.invoked ∧
        act node douts = ActRes.err e) ∧
    (∀ res, s.phase = Phase.done (Except.ok res) →
      res = s.produced ∧ s.produced.length = g.length ∧
      ∀ q ∈ s.produced, ∃ node douts, lookup_node g q.1 = some node ∧
        (q.1, douts) ∈ s.invoked ∧ act node douts = ActRes.ok q.2) := by
  have hinv := einv_reach g act seeds dm W hg hseed hdm s hreach
  constructor
  · intro e hdone
    obtain ⟨hdead, hout⟩ := hinv.done_phase _ hdone
    rcases hout with hout | hout
    · have hfe := exec_outcome_err_action g.length s e hout.symm
      exact hinv.firstErr_prov e hfe
    · injection hout with hout
      cases hout
  · intro res hdone
    obtain ⟨hdead, hout⟩ := hinv.done_phase _ hdone
    rcases hout with hout | hout
    · obtain ⟨hres, hlen, _, _⟩ := exec_outcome_ok g.length s res hout.symm
      exact ⟨hres, hlen, hinv.produced_prov⟩
    · cases hout

/-! ### A concrete successful run (two nodes, one worker) -/

/-- An action that returns the node's declared outputs. -/
def act_out : Action := fun node _ => ActRes.ok node.outputs

def exr0 : ExecState := init_state g_c4w ["core"] dm_c4w 1

def exr1 : ExecState := { exr0 with queue := ["core"], phase := Phase.seed [] }

def exr2 : ExecState := { exr1 with phase := Phase.run }

def exr3 : ExecState :=
  { exr2 with queue := [],
              workers := [WStatus.ready "core" (Except.ok ["libcore.a"])],
              invoked := [("core", [])] }

def exr4 : ExecState :=
  { exr3 with doneBuf := [("core", Except.ok ["libcore.a"])],
              workers := [WStatus.idle] }

def exr5 : ExecState :=
  { exr4 with doneBuf := [],
              produced := [("core", ["libcore.a"])],
              inDeg := [("app", 0), ("core", 0)],
              queue := ["app"],
              dmap := [],
              remaining := 1 }

def exr6 : ExecState :=
  { exr5 with queue := [],
              workers := [WStatus.ready "app" (Except.ok ["app"])],
              invoked := [("core", []), ("app", ["libcore.a"])] }

def exr7 : ExecState :=
  { exr6 with doneBuf := [("app", Except.ok ["app"])],
              workers := [WStatus.idle] }

def exr8 : ExecState :=
  { exr7 with doneBuf := [],
              produced := [("app", ["app"]), ("core", ["libcore.a"])],
              remaining := 0,
              phase := Phase.join,
              taskOpen := false }

def exr9 : ExecState := { exr8 with workers := [WStatus.dead false] }

def exr10 : ExecState :=
  { exr9 with phase :=
      Phase.done (Except.ok [("app", ["app"]), ("core", ["libcore.a"])]) }

theorem step_exr0 : Step g_c4w act_out exr0 exr1 :=
  Step.cSeedSend exr0 "core" [] rfl

theorem step_exr1 : Step g_c4w act_out exr1 exr2 :=
  Step.cSeedDone exr1 rfl

theorem step_exr2 : Step g_c4w act_out exr2 exr3 :=
  Step.wTakeOk exr2 0 "core" []
    ⟨"core", .StaticLibrary, ["core.c"], [], ["libcore.a"], none⟩
    ["libcore.a"] rfl rfl rfl rfl

theorem step_exr3 : Step g_c4w act_out exr3 exr4 :=
  Step.wSend exr3 0 "core" (Except.ok ["libcore.a"]) rfl

theorem step_exr4 : Step g_c4w act_out exr4 exr5 :=
  Step.cRecvOk exr4 "core" ["libcore.a"] [] 1 rfl rfl rfl

theorem step_exr5 : Step g_c4w act_out exr5 exr6 :=
  Step.wTakeOk exr5 0 "app" []
    ⟨"app", .Executable, ["main.c"], ["core"], ["app"], none⟩
    ["app"] rfl rfl rfl rfl

theorem step_exr6 : Step g_c4w act_out exr6 exr7 :=
  Step.wSend exr6 0 "app" (Except.ok ["app"]) rfl

theorem step_exr7 : Step g_c4w act_out exr7 exr8 :=
  Step.cRecvOk exr7 "app" ["app"] [] 0 rfl rfl rfl

theorem step_exr8 : Step g_c4w act_out exr8 exr9 :=
  Step.wExit exr8 0 rfl rfl rfl

theorem step_exr9 : Step g_c4w act_out exr9 exr10 :=
  Step.cJoin exr9 rfl (by
    intro w hw
    have hw2 : w ∈ [WStatus.dead false] := hw
    rw [List.mem_singleton] at hw2
    exact ⟨false, hw2⟩)

theorem reach_exr10 : ExecReach g_c4w act_out ["core"] dm_c4w 1 exr10 := by
  have h0 : ExecReach g_c4w act_out ["core"] dm_c4w 1 exr0 :=
    Relation.ReflTransGen.refl
  exact ((((((((((h0.tail step_exr0).tail step_exr1).tail step_exr2).tail
    step_exr3).tail step_exr4).tail step_exr5).tail step_exr6).tail
    step_exr7).tail step_exr8).tail step_exr9)

/-- Witness for `claim_C1_dep_outputs`: in a complete run on the
`app`-depends-on-`core` graph, the `app` invocation received exactly
`core`'s returned outputs. -/
theorem claim_C1_witness :
    (("app", ["libcore.a"]) ∈ exr10.invoked) ∧
    (∃ node, lookup_node g_c4w "app" = some node ∧
      ∃ outf : String → List Path,
        ["libcore.a"] = node.dependencies.flatMap outf ∧
        ∀ d ∈ node.dependencies, ∃ dnode ddeps,
          lookup_node g_c4w d = some dnode ∧ (d, ddeps) ∈ exr10.invoked ∧
          act_out dnode ddeps = ActRes.ok (outf d)) :=
  ⟨by decide,
   claim_C1_dep_outputs g_c4w act_out ["core"] dm_c4w 1 (by decide)
     (by decide) dm_c4w_ok exr10 reach_exr10 "app" ["libcore.a"] (by decide)⟩

/-- Witness for `claim_C2_invocations` on a successful concrete run. -/
theorem claim_C2_witness :
    exr10.phase = Phase.done (Except.ok [("app", ["app"]),
      ("core", ["libcore.a"])]) ∧
    ((∀ x, (exr10.invoked.map Prod.fst).count x ≤ 1) ∧
     (∀ p ∈ exr10.invoked, p.1 ∈ g_c4w.map TargetNode.name) ∧
     (∀ res, exr10.phase = Phase.done (Except.ok res) →
       ∀ node ∈ g_c4w, (exr10.invoked.map Prod.fst).count node.name = 1)) :=
  ⟨rfl, claim_C2_invocations g_c4w act_out ["core"] dm_c4w 1 (by decide)
    (by decide) dm_c4w_ok exr10 reach_exr10⟩

/-! ### A concrete failing run: one action errors while another task is
already on the channel — the queued task is still executed after the
coordinator observes the error. -/

def g_ab : Graph :=
  [⟨"alpha", TargetKind.CustomCommand, [], [], ["oa"], some "ca"⟩,
   ⟨"beta", TargetKind.CustomCommand, [], [], ["ob"], some "cb"⟩]

def act_ab : Action := fun node _ =>
  if node.name = "alpha" then ActRes.err "boom" else ActRes.ok node.outputs

theorem dm_ab_ok : dependents_ok g_ab [] := by
  intro d c
  have hL : ((alookup ([] : List (String × List String)) d).getD []).count c
      = 0 := rfl
  rw [hL]
  cases hc : lookup_node g_ab c with
  | none => rfl
  | some nc =>
      obtain ⟨hmem, _⟩ := lookup_node_spec g_ab c nc hc
      cases hmem with
      | head => rfl
      | tail _ h2 =>
          cases h2 with
          | head => rfl
          | tail _ h3 => cases h3

def eab0 : ExecState := init_state g_ab ["alpha", "beta"] [] 1

def eab1 : ExecState :=
  { eab0 with queue := ["alpha"], phase := Phase.seed ["beta"] }

def eab2 : ExecState :=
  { eab1 with queue := ["alpha", "beta"], phase := Phase.seed [] }

def eab3 : ExecState := { eab2 with phase := Phase.run }

def eab4 : ExecState :=
  { eab3 with queue := ["beta"],
              workers := [WStatus.ready "alpha" (Except.error "boom")],
              invoked := [("alpha", [])] }

def eab5 : ExecState :=
  { eab4 with doneBuf := [("alpha", Except.error "boom")],
              workers := [WStatus.idle] }

def eab6 : ExecState :=
  { eab5 with doneBuf := [],
              firstError := some (ExecErr.action "boom"),
              phase := Phase.join,
              taskOpen := false }

def eab7 : ExecState :=
  { eab6 with queue := [],
              workers := [WStatus.ready "beta" (Except.ok ["ob"])],
              invoked := [("alpha", []), ("beta", [])] }

def eab8 : ExecState :=
  { eab7 with doneBuf := [("beta", Except.ok ["ob"])],
              workers := [WStatus.idle] }

def eab9 : ExecState := { eab8 with workers := [WStatus.dead false] }

def eab10 : ExecState :=
  { eab9 with phase := Phase.done (Except.error (ExecErr.action "boom")) }

theorem step_eab0 : Step g_ab act_ab eab0 eab1 :=
  Step.cSeedSend eab0 "alpha" ["beta"] rfl

theorem step_eab1 : Step g_ab act_ab eab1 eab2 :=
  Step.cSeedSend eab1 "beta" [] rfl

theorem step_eab2 : Step g_ab act_ab eab2 eab3 :=
  Step.cSeedDone eab2 rfl

theorem step_eab3 : Step g_ab act_ab eab3 eab4 :=
  Step.wTakeErr eab3 0 "alpha" ["beta"]
    ⟨"alpha", TargetKind.CustomCommand, [], [], ["oa"], some "ca"⟩
    "boom" rfl rfl rfl rfl

theorem step_eab4 : Step g_ab act_ab eab4 eab5 :=
  Step.wSend eab4 0 "alpha" (Except.error "boom") rfl

theorem step_eab5 : Step g_ab act_ab eab5 eab6 :=
  Step.cRecvErr eab5 "alpha" "boom" [] rfl rfl

theorem step_eab6 : Step g_ab act_ab eab6 eab7 :=
  Step.wTakeOk eab6 0 "beta" []
    ⟨"beta", TargetKind.CustomCommand, [], [], ["ob"], some "cb"⟩
    ["ob"] rfl rfl rfl rfl

theorem step_eab7 : Step g_ab act_ab eab7 eab8 :=
  Step.wSend eab7 0 "beta" (Except.ok ["ob"]) rfl

theorem step_eab8 : Step g_ab act_ab eab8 eab9 :=
  Step.wExit eab8 0 rfl rfl rfl

theorem step_eab9 : Step g_ab act_ab eab9 eab10 :=
  Step.cJoin eab9 rfl (by
    intro w hw
    have hw2 : w ∈ [WStatus.dead false] := hw
    rw [List.mem_singleton] at hw2
    exact ⟨false, hw2⟩)

theorem reach_eab6 : ExecReach g_ab act_ab ["alpha", "beta"] [] 1 eab6 := by
  have h0 : ExecReach g_ab act_ab ["alpha", "beta"] [] 1 eab0 :=
    Relation.ReflTransGen.refl
  exact (((((h0.tail step_eab0).tail step_eab1).tail step_eab2).tail
    step_eab3).tail step_eab4).tail step_eab5

theorem reach_eab10 : ExecReach g_ab act_ab ["alpha", "beta"] [] 1 eab10 := by
  exact (((reach_eab6.tail step_eab6).tail step_eab7).tail
    step_eab8).tail step_eab9

/-- Counterexample to C3's "no action is invoked after that error is
observed by the coordinator": after the coordinator has recorded the error
from `alpha` (state `eab6`), the already-enqueued task `beta` is still
taken by the worker and its action is invoked. -/
theorem claim_C3_counterexample :
    ExecReach g_ab act_ab ["alpha", "beta"] [] 1 eab6 ∧
    eab6.firstError = some (ExecErr.action "boom") ∧
    ("beta" ∉ eab6.invoked.map Prod.fst) ∧
    Step g_ab act_ab eab6 eab7 ∧
    ("beta" ∈ eab7.invoked.map Prod.fst) :=
  ⟨reach_eab6, rfl, by decide, step_eab6, by decide⟩

/-- Witness for `claim_C3_error_reporting`: the failing run ends in
`done (error (action "boom"))`, and the theorem recovers an invocation
that actually returned that error. -/
theorem claim_C3_witness :
    eab10.phase = Phase.done (Except.error (ExecErr.action "boom")) ∧
    (∃ v node douts, lookup_node g_ab v = some node ∧
      (v, douts) ∈ eab10.invoked ∧ act_ab node douts = ActRes.err "boom") :=
  ⟨rfl, (claim_C3_error_reporting g_ab act_ab ["alpha", "beta"] [] 1
    (by decide) (by decide) dm_ab_ok eab10 reach_eab10).1 "boom" rfl⟩

/-! ### C9: a worker panic deadlocks the coordinator when `W ≥ 2` -/

def g_px : Graph :=
  [⟨"pnode", TargetKind.CustomCommand, [], [], ["op"], some "cp"⟩]

def act_px : Action := fun _ _ => ActRes.panic

def px0 : ExecState := init_state g_px ["pnode"] [] 2

def px1 : ExecState := { px0 with queue := ["pnode"], phase := Phase.seed [] }

def px2 : ExecState := { px1 with phase := Phase.run }

def px3 : ExecState :=
  { px2 with queue := [],
             workers := [WStatus.dead true, WStatus.idle],
             invoked := [("pnode", [])] }

theorem step_px0 : Step g_px act_px px0 px1 :=
  Step.cSeedSend px0 "pnode" [] rfl

theorem step_px1 : Step g_px act_px px1 px2 :=
  Step.cSeedDone px1 rfl

theorem step_px2 : Step g_px act_px px2 px3 :=
  Step.wTakePanic px2 0 "pnode" []
    ⟨"pnode", TargetKind.CustomCommand, [], [], ["op"], some "cp"⟩
    rfl rfl rfl rfl

theorem reach_px3 : ExecReach g_px act_px ["pnode"] [] 2 px3 := by
  have h0 : ExecReach g_px act_px ["pnode"] [] 2 px0 :=
    Relation.ReflTransGen.refl
  exact ((h0.tail step_px0).tail step_px1).tail step_px2

/-- C9 fails as a code bug: with two workers and a single node whose action
panics, the executor reaches a state that is not a return and from which no
transition is possible — the coordinator blocks forever in `done_rx.recv()`
because the surviving idle worker keeps the completion channel open while
the panicked node's completion never arrives, so `remaining` never reaches
zero and the panic is never reported. -/
theorem claim_C9_deadlock :
    ∃ s, ExecReach g_px act_px ["pnode"] [] 2 s ∧
      (∀ r, s.phase ≠ Phase.done r) ∧
      (∀ s', ¬ Step g_px act_px s s') := by
  refine ⟨px3, reach_px3, ?_, ?_⟩
  · intro r h
    exact Phase.noConfusion h
  · intro s' hst
    cases hst with
    | wTakeOk i n rest node outs hw hq hn hact => exact List.noConfusion hq
    | wTakeErr i n rest node e hw hq hn hact => exact List.noConfusion hq
    | wTakePanic i n rest node hw hq hn hact => exact List.noConfusion hq
    | wTakeUnknown i n rest hw hq hn => exact List.noConfusion hq
    | wSend i n res hw =>
        match i, hw with
        | 0, hw => exact WStatus.noConfusion (Option.some.inj hw)
        | 1, hw => exact WStatus.noConfusion (Option.some.inj hw)
        | (k + 2), hw => exact Option.noConfusion hw
    | wExit i hw hq hc => exact Bool.noConfusion hc
    | cRecvOk n outs rest rem hp hd hr => exact List.noConfusion hd
    | cRecvErr n e rest hp hd => exact List.noConfusion hd
    | cRecvClosed hp hd hw =>
        obtain ⟨b, hb⟩ := hw WStatus.idle (by decide)
        exact WStatus.noConfusion hb
    | cJoin hp hw => exact Phase.noConfusion hp
    | cSeedSend x rest hp => exact Phase.noConfusion hp
    | cSeedFail x rest hp hdead => exact Phase.noConfusion hp
    | cSeedDone hp => exact Phase.noConfusion hp
    | cRecvSendFail n outs rest rem hp hd hr hdead hnz =>
        exact List.noConfusion hd

end Crust
